import Mathlib

/-!
# key_maze: shortest path collecting all keys (`slow.cpp`)

A shallow embedding of `slow.cpp` and a verification of its specification.

Modelling conventions.

* `int` and `size_t` values are unbounded (`Int`, `Nat`): every integer the program
  handles is a grid dimension, a cell count or a path length, all far below `2^31`.
* A `char` is a `Char`, a `std::string` a `List Char`, a `std::vector` a `List`.
* The program has no error channel of its own.  A failed `assert` ends the run without a
  result: the fault `Fault.assertion` of `Res`.
* Vectors, arrays and strings are read and written through `vec_at` and `vec_put`, which
  end the run with `Fault.out_of_range` at an index past the end of the list.  For the
  matrix, the markers and the arrays of `Grid` the program keeps every index inside
  (`Accepted`, `ShapeInv`).  For `_key_hit_counters` it does not (C20), and the
  `operator[]` of the source does not check its index: the access then reads or writes
  the memory after the buffer of the vector and the run goes on.  The list
  `_key_hit_counters` of a `Path` stands for the memory from the start of that buffer:
  `Path.ctor_mem grid mem` puts the words `mem` after the `num_keys` elements of the
  vector, and `shortestPathAllKeys_mem mem` is the run with these words.  With no word,
  `Path.ctor` and `shortestPathAllKeys`, the run is that of a build that checks the index:
  it ends at the first access outside the vector.  The program decides neither what the
  words hold nor whether they belong to another object; the embedding takes them to
  belong to none, and every theorem about `shortestPathAllKeys_mem` says for which `mem`
  it holds.  `checked_answer_unchecked`: an answer of the run that checks the index is the
  answer of every run that does not, whatever the words.  `unchecked_run_goes_on`: with a
  word for every letter no access ends the run on an accepted matrix, whatever the words
  hold; `unchecked_run_returns`: if moreover no word is negative, the run returns an
  integer.
* Mutable objects are passed and returned explicitly: the `Path` the search works on and
  the `Solution` that owns `_best_solution`.
* The states of a run are the values the object `path` takes: `Traced` pairs a result
  with them, and the functions named `…_states` are the functions of the search with the
  value of `path` recorded after every `visit` and `unvisit`; `recurse_states_result` and
  `shortest_states_result` show that they compute the same results.
* The recursion of the search is structural on a nesting budget; `Fault.depth` is the
  model's answer when the budget is used up.  `shortest_within` shows that the budget
  `depth_budget` given to the search by `shortestPathAllKeys` is never used up, and
  `recurse_budget` that a larger budget gives the same run.
* `shortest_ends` says how a run that checks the index can end on an accepted matrix:
  with an integer, or at an access outside `_key_hit_counters`, which needs a letter whose
  offset is not below the number of key cells.
-/

namespace KeyMaze

/-! ## Faults -/

/-- Ways in which a run ends without a result. -/
inductive Fault where
  /-- An `assert` of the source failed. -/
  | assertion
  /-- A vector, array or string was indexed outside its bounds. -/
  | out_of_range
  /-- The nesting budget of the model was used up. -/
  | depth
deriving DecidableEq, Repr

/-- Result of a computation that may end in a fault. -/
abbrev Res (α : Type) := Except Fault α

/-- The C `assert`. -/
def c_assert (b : Bool) : Res Unit :=
  if b then .ok () else .error .assertion

/-- Read `v[i]` for an index of type `size_t`; the run ends at an index past the end of
the list. -/
def vec_at {α : Type} (v : List α) (i : Nat) : Res α :=
  match v[i]? with
  | some x => .ok x
  | none => .error .out_of_range

/-- Read `v[i]` for an index of type `int`: a negative index converts to a huge `size_t`. -/
def vec_at_int {α : Type} (v : List α) (i : Int) : Res α :=
  if i < 0 then .error .out_of_range else vec_at v i.toNat

/-- Write `v[i] = x` for an index of type `size_t`. -/
def vec_put {α : Type} (v : List α) (i : Nat) (x : α) : Res (List α) :=
  if i < v.length then .ok (v.set i x) else .error .out_of_range

/-- Write `v[i] = x` for an index of type `int`. -/
def vec_put_int {α : Type} (v : List α) (i : Int) (x : α) : Res (List α) :=
  if i < 0 then .error .out_of_range else vec_put v i.toNat x

/-- The function template `build_2d_vector`. -/
def build_2d_vector {α : Type} (num_rows num_cols : Int) (val : α) : List (List α) :=
  List.replicate num_rows.toNat (List.replicate num_cols.toNat val)

/-! ## Cell -/

/-- The struct `Cell`; the default value `(-1, -1)` stands for "no cell". -/
structure Cell where
  _row : Int := -1
  _col : Int := -1
deriving DecidableEq, Repr

/-- The method `Cell::is_valid`. -/
def Cell.is_valid (cell : Cell) : Bool := decide (cell._row ≥ 0)

/-- The constant `kNumLetters`. -/
def kNumLetters : Nat := 'Z'.toNat - 'A'.toNat + 1

/-! ## Grid -/

/-- The class `Grid`, with the member initialisers of the source as defaults. -/
structure Grid where
  _grid : List (List Char)
  _num_rows : Int := 0
  _num_cols : Int := 0
  _start : Cell := {}
  _lock_cells : List Cell := List.replicate kNumLetters {}
  _key_cells : List Cell := List.replicate kNumLetters {}
  _num_keys : Int := 0
deriving DecidableEq, Repr

/-- The expression `grid[cell._row][cell._col]` on a vector of strings. -/
def char_at (grid : List (List Char)) (cell : Cell) : Res Char := do
  let row ← vec_at_int grid cell._row
  vec_at_int row cell._col

/-- The method `Grid::get_char`. -/
def Grid.get_char (g : Grid) (cell : Cell) : Res Char :=
  char_at g._grid cell

/-- The method `Grid::is_start`. -/
def Grid.is_start (g : Grid) (cell : Cell) : Res Bool := do
  let c ← g.get_char cell
  pure (c == '@')

/-- The method `Grid::is_wall`. -/
def Grid.is_wall (g : Grid) (cell : Cell) : Res Bool := do
  let c ← g.get_char cell
  pure (c == '#')

/-- The static method `Grid::is_lock(char)`. -/
def Grid.is_lock_char (c : Char) : Bool := decide (c ≥ 'A') && decide (c ≤ 'Z')

/-- The method `Grid::is_lock(Cell)`. -/
def Grid.is_lock (g : Grid) (cell : Cell) : Res Bool := do
  let c ← g.get_char cell
  pure (Grid.is_lock_char c)

/-- The static method `Grid::is_key(char)`. -/
def Grid.is_key_char (c : Char) : Bool := decide (c ≥ 'a') && decide (c ≤ 'z')

/-- The method `Grid::is_key(Cell)`. -/
def Grid.is_key (g : Grid) (cell : Cell) : Res Bool := do
  let c ← g.get_char cell
  pure (Grid.is_key_char c)

/-- The method `Grid::is_free`. -/
def Grid.is_free (g : Grid) (cell : Cell) : Res Bool := do
  let c ← g.get_char cell
  pure (c == '.')

/-- The method `Grid::is_legal`; `||` evaluates its right operand only when needed. -/
def Grid.is_legal (g : Grid) (cell : Cell) : Res Bool := do
  let _c ← g.get_char cell
  if ← g.is_start cell then return true
  if ← g.is_wall cell then return true
  if ← g.is_lock cell then return true
  if ← g.is_key cell then return true
  g.is_free cell

/-- The static method `Grid::get_lock_index(char)`. -/
def Grid.get_lock_index_char (c : Char) : Res Nat := do
  c_assert (Grid.is_lock_char c)
  pure (c.toNat - 'A'.toNat)

/-- The static method `Grid::get_key_index(char)`. -/
def Grid.get_key_index_char (c : Char) : Res Nat := do
  c_assert (Grid.is_key_char c)
  pure (c.toNat - 'a'.toNat)

/-- The method `Grid::get_lock_index(Cell)`. -/
def Grid.get_lock_index (g : Grid) (cell : Cell) : Res Nat := do
  let c ← g.get_char cell
  Grid.get_lock_index_char c

/-- The method `Grid::get_key_index(Cell)`. -/
def Grid.get_key_index (g : Grid) (cell : Cell) : Res Nat := do
  let c ← g.get_char cell
  Grid.get_key_index_char c

/-- The method `Grid::get_start_cell`. -/
def Grid.get_start_cell (g : Grid) : Cell := g._start

/-- The method `Grid::num_rows`. -/
def Grid.num_rows (g : Grid) : Int := g._num_rows

/-- The method `Grid::num_cols`. -/
def Grid.num_cols (g : Grid) : Int := g._num_cols

/-- The method `Grid::num_keys`. -/
def Grid.num_keys (g : Grid) : Int := g._num_keys

/-- The method `Grid::num_locks`. -/
def Grid.num_locks (g : Grid) : Int := g.num_keys

/-- The method `Grid::find_key_for_lock`. -/
def Grid.find_key_for_lock (g : Grid) (cell : Cell) : Res Cell := do
  c_assert (← g.is_lock cell)
  let c ← g.get_char cell
  let offset ← Grid.get_lock_index_char c
  vec_at g._key_cells offset

/-- The cells in the order in which the two nested loops of
`Grid::iterate_over_all_cells` produce them. -/
def all_cells (num_rows num_cols : Int) : List Cell :=
  (List.range num_rows.toNat).flatMap fun (irow : Nat) =>
    (List.range num_cols.toNat).map fun (icol : Nat) =>
      ({ _row := (irow : Int), _col := (icol : Int) } : Cell)

/-- The method template `Grid::iterate_over_all_cells`; the state `σ` holds what the
function object `f` captures by reference. -/
def Grid.iterate_over_all_cells {σ : Type} (g : Grid) (f : Cell → σ → Res σ) (s : σ) :
    Res σ :=
  (all_cells g._num_rows g._num_cols).foldlM (fun s cell => f cell s) s

/-- The lambda passed to `iterate_over_all_cells` by the constructor of `Grid`.  It
captures the object under construction and the local `num_locks`. -/
def Grid.ctor_cell (cell : Cell) (st : Grid × Int) : Res (Grid × Int) := do
  let (g, num_locks) := st
  c_assert (← g.is_legal cell)
  let (g, num_locks) ←
    (if ← g.is_lock cell then do
      let i ← Grid.get_lock_index_char (← g.get_char cell)
      let cells ← vec_put g._lock_cells i cell
      pure ({ g with _lock_cells := cells }, num_locks + 1)
    else pure (g, num_locks) : Res (Grid × Int))
  let g ←
    (if ← g.is_key cell then do
      let i ← Grid.get_key_index_char (← g.get_char cell)
      let cells ← vec_put g._key_cells i cell
      pure { g with _key_cells := cells, _num_keys := g._num_keys + 1 }
    else pure g : Res Grid)
  let g ←
    (if ← g.is_start cell then do
      c_assert (!g._start.is_valid)
      pure { g with _start := cell }
    else pure g : Res Grid)
  pure (g, num_locks)

/-- The loop of the constructor that compares every row's length with `_num_cols`. -/
def Grid.ctor_rows (num_cols : Int) : List (List Char) → Res Unit
  | [] => pure ()
  | inner :: rest => do
    c_assert (num_cols == (inner.length : Int))
    Grid.ctor_rows num_cols rest

/-- The constructor `Grid::Grid`. -/
def Grid.ctor (grid : List (List Char)) : Res Grid := do
  let g : Grid := { _grid := grid }
  let g := { g with _num_rows := (grid.length : Int) }
  c_assert (g._num_rows > 0)
  let row0 ← vec_at grid 0
  let g := { g with _num_cols := (row0.length : Int) }
  c_assert (g._num_cols > 0)
  Grid.ctor_rows g._num_cols grid
  let num_locks : Int := 0
  let (g, num_locks) ← g.iterate_over_all_cells Grid.ctor_cell (g, num_locks)
  c_assert g._start.is_valid
  c_assert (num_locks == g._num_keys)
  pure g

/-! ## Directions and neighbours -/

/-- The enum `Dir`, as its underlying integer. -/
abbrev Dir := Nat

/-- Enumerator `kDirBegin`. -/
def kDirBegin : Dir := 0
/-- Enumerator `kDirLeft`. -/
def kDirLeft : Dir := 0
/-- Enumerator `kDirRight`. -/
def kDirRight : Dir := 1
/-- Enumerator `kDirUp`. -/
def kDirUp : Dir := 2
/-- Enumerator `kDirDown`. -/
def kDirDown : Dir := 3
/-- Enumerator `kDirMax`, also the "no direction" tag of the first entry of a path. -/
def kDirMax : Dir := 4

/-- The class `NeighbourIter`; the grid it refers to is passed to `deref`. -/
structure NeighbourIter where
  _cell : Cell
  _dir : Dir := kDirMax
deriving DecidableEq, Repr

/-- The pre-increment `NeighbourIter::operator++`. -/
def NeighbourIter.incr (it : NeighbourIter) : NeighbourIter :=
  { it with _dir := it._dir + 1 }

/-- The friend `operator!=` of `NeighbourIter`. -/
def NeighbourIter.ne (a b : NeighbourIter) : Bool := a._dir != b._dir

/-- The dereference `NeighbourIter::operator*`. -/
def NeighbourIter.deref (grid : Grid) (it : NeighbourIter) : Res Cell :=
  match it._dir with
  | 0 =>
    let cell : Cell := { it._cell with _row := it._cell._row - 1 }
    if cell._row < 0 then pure {} else pure cell
  | 1 =>
    let cell : Cell := { it._cell with _row := it._cell._row + 1 }
    if cell._row ≥ grid.num_rows then pure {} else pure cell
  | 2 =>
    let cell : Cell := { it._cell with _col := it._cell._col - 1 }
    if cell._col < 0 then pure {} else pure cell
  | 3 =>
    let cell : Cell := { it._cell with _col := it._cell._col + 1 }
    if cell._col ≥ grid.num_cols then pure {} else pure cell
  | _ => .error .assertion

/-- The method `NeighbourIter::get_dir`. -/
def NeighbourIter.get_dir (it : NeighbourIter) : Dir := it._dir

/-- The function `begin_neighbour`. -/
def begin_neighbour (_grid : Grid) (cell : Cell) : NeighbourIter :=
  { _cell := cell, _dir := kDirBegin }

/-- The function `end_neighbour`. -/
def end_neighbour (_grid : Grid) (cell : Cell) : NeighbourIter :=
  { _cell := cell, _dir := kDirMax }

/-! ## Path -/

/-- The class `Path`; the grid it refers to is passed to its methods.  The list
`_key_hit_counters` holds the elements of the vector and, after them, the words of memory
that follow its buffer, if the path was built with any (`Path.ctor_mem`). -/
structure Path where
  _path_vec : List (Cell × Dir) := []
  _visited_directional : List (List (List Bool))
  _key_hit_counters : List Int
  _num_keys_acquired : Int := 0
deriving DecidableEq, Repr

/-- The constructor `Path::Path`, for a run that checks the index of
`_key_hit_counters`: the list holds the `num_keys` elements of the vector and nothing
after them. -/
def Path.ctor (grid : Grid) : Path :=
  { _key_hit_counters := List.replicate grid.num_keys.toNat 0
    _visited_directional :=
      List.replicate kDirMax (build_2d_vector grid.num_rows grid.num_cols false) }

/-- The constructor `Path::Path`, for a run that does not check the index of
`_key_hit_counters`, as the `operator[]` of the source does not.  The list
`_key_hit_counters` of the path stands for the memory from the start of the buffer of the
vector: its `num_keys` elements and, after them, the words `mem` that follow the buffer.
`vec_at` and `vec_put` with an index from `num_keys` on read and write those words; an
index past the last word of `mem` ends the run.  With `mem = []` this is `Path.ctor`. -/
def Path.ctor_mem (grid : Grid) (mem : List Int) : Path :=
  { Path.ctor grid with _key_hit_counters := (Path.ctor grid)._key_hit_counters ++ mem }

/-- Read `_visited_directional[dir][cell._row][cell._col]`. -/
def marker_at (v : List (List (List Bool))) (dir : Dir) (cell : Cell) : Res Bool := do
  let plane ← vec_at v dir
  let row ← vec_at_int plane cell._row
  vec_at_int row cell._col

/-- Write `_visited_directional[dir][cell._row][cell._col] = b`. -/
def marker_put (v : List (List (List Bool))) (dir : Dir) (cell : Cell) (b : Bool) :
    Res (List (List (List Bool))) := do
  let plane ← vec_at v dir
  let row ← vec_at_int plane cell._row
  let row ← vec_put_int row cell._col b
  let plane ← vec_put_int plane cell._row row
  vec_put v dir plane

/-- The method `Path::visit`.  The source does not check `key_idx`: from `num_keys` on it
addresses the words after the buffer of the vector, which the list `_key_hit_counters`
holds as far as the path was built with them (`Path.ctor_mem`). -/
def Path.visit (grid : Grid) (p : Path) (cell : Cell) (dir : Dir) : Res Path := do
  let p := { p with _path_vec := p._path_vec ++ [(cell, dir)] }
  let p ←
    (if dir != kDirMax then do
      c_assert ((← marker_at p._visited_directional dir cell) == false)
      let v ← marker_put p._visited_directional dir cell true
      pure { p with _visited_directional := v }
    else pure p : Res Path)
  if ← grid.is_key cell then
    let key_idx ← grid.get_key_index cell
    let prev_count ← vec_at p._key_hit_counters key_idx
    let counters ← vec_put p._key_hit_counters key_idx (prev_count + 1)
    let p := { p with _key_hit_counters := counters }
    c_assert (decide (prev_count ≥ 0))
    if prev_count == 0 then
      pure { p with _num_keys_acquired := p._num_keys_acquired + 1 }
    else pure p
  else pure p

/-- The method `Path::unvisit`; `key_index` as in `Path.visit`. -/
def Path.unvisit (grid : Grid) (p : Path) : Res Path := do
  c_assert (!p._path_vec.isEmpty)
  match p._path_vec.getLast? with
  | none => .error .out_of_range
  | some (cell, dir) =>
    let p := { p with _path_vec := p._path_vec.dropLast }
    let p ←
      (if dir != kDirMax then do
        c_assert ((← marker_at p._visited_directional dir cell) == true)
        let v ← marker_put p._visited_directional dir cell false
        pure { p with _visited_directional := v }
      else pure p : Res Path)
    if ← grid.is_key cell then
      let key_index ← grid.get_key_index cell
      let prev_count ← vec_at p._key_hit_counters key_index
      let counters ← vec_put p._key_hit_counters key_index (prev_count - 1)
      let p := { p with _key_hit_counters := counters }
      c_assert (decide (prev_count > 0))
      if prev_count == 1 then
        pure { p with _num_keys_acquired := p._num_keys_acquired - 1 }
      else pure p
    else pure p

/-- The method `Path::num_steps`. -/
def Path.num_steps (p : Path) : Int := (p._path_vec.length : Int)

/-- The method `Path::visited`. -/
def Path.visited (p : Path) (cell : Cell) (dir : Dir) : Res Bool :=
  marker_at p._visited_directional dir cell

/-- The method `Path::key_was_acquired_for_lock`; `key_index` as in `Path.visit`. -/
def Path.key_was_acquired_for_lock (grid : Grid) (p : Path) (cell : Cell) : Res Bool := do
  c_assert (← grid.is_lock cell)
  let key_index ← grid.get_lock_index cell
  let count ← vec_at p._key_hit_counters key_index
  pure (decide (count > 0))

/-- The method `Path::complete`. -/
def Path.complete (grid : Grid) (p : Path) : Bool :=
  p._num_keys_acquired == grid.num_keys

/-- The friend `operator<` of `Path`. -/
def Path.lt (a b : Path) : Bool := decide (a.num_steps < b.num_steps)

/-! ## Solution -/

/-- The class `Solution`; `_best_solution` is a null pointer (`none`) at first. -/
structure Solution where
  _best_solution : Option Path := none
deriving DecidableEq, Repr

/-- What a step of the search hands back: the `Solution` and the `Path` it mutated. -/
abbrev Search := Res (Solution × Path)

/-- The method `Solution::examine_child`.  Its call of `recurse_visit_next_cell` goes
through the parameter of that name, which carries the remaining nesting budget. -/
def Solution.examine_child
    (recurse_visit_next_cell : Grid → Solution → Path → Cell → Dir → Search)
    (grid : Grid) (self : Solution) (path : Path) (child_cell : Cell) (dir : Dir) :
    Search := do
  if ← path.visited child_cell dir then return (self, path)
  if ← grid.is_wall child_cell then return (self, path)
  if ← grid.is_lock child_cell then
    if !(← path.key_was_acquired_for_lock grid child_cell) then return (self, path)
  recurse_visit_next_cell grid self path child_cell dir

/-- The `for` loop of `perform_this_visit`: while `iter != end_iter`, run the body and
increment.  `n` bounds the number of iterations. -/
def Solution.neighbour_loop
    (recurse_visit_next_cell : Grid → Solution → Path → Cell → Dir → Search)
    (grid : Grid) (end_iter : NeighbourIter) :
    Nat → NeighbourIter → Solution → Path → Search
  | 0, _, _, _ => .error .depth
  | n + 1, iter, self, path =>
    if iter.ne end_iter then do
      let child_cell ← iter.deref grid
      let (self, path) ←
        (if child_cell.is_valid then
          Solution.examine_child recurse_visit_next_cell grid self path child_cell
            iter.get_dir
        else pure (self, path) : Search)
      Solution.neighbour_loop recurse_visit_next_cell grid end_iter n iter.incr self path
    else pure (self, path)

/-- The method `Solution::perform_this_visit`. -/
def Solution.perform_this_visit
    (recurse_visit_next_cell : Grid → Solution → Path → Cell → Dir → Search)
    (grid : Grid) (self : Solution) (path : Path) (parent_cell : Cell) : Search :=
  if path.complete grid then
    match self._best_solution with
    | none => pure ({ self with _best_solution := some path }, path)
    | some best =>
      if path.lt best then pure ({ self with _best_solution := some path }, path)
      else pure (self, path)
  else
    let end_iter := end_neighbour grid parent_cell
    Solution.neighbour_loop recurse_visit_next_cell grid end_iter (kDirMax + 1)
      (begin_neighbour grid parent_cell) self path

/-- The method `Solution::recurse_visit_next_cell`, by recursion on the nesting budget:
a call with budget `n + 1` lets the calls nested in it use budget `n`. -/
def Solution.recurse_visit_next_cell :
    Nat → Grid → Solution → Path → Cell → Dir → Search
  | 0, _, _, _, _, _ => .error .depth
  | n + 1, grid, self, path, parent_cell, dir => do
    let path ← path.visit grid parent_cell dir
    let (self, path) ←
      Solution.perform_this_visit (Solution.recurse_visit_next_cell n) grid self path
        parent_cell
    let path ← path.unvisit grid
    pure (self, path)

/-- Nesting budget given to the search: one entry for the start and one for every pair
of a direction and a cell. -/
def depth_budget (grid : Grid) : Nat :=
  kDirMax * grid.num_rows.toNat * grid.num_cols.toNat + 1

/-- The method `Solution::shortestPathAllKeys`, in a run that checks the index of
`_key_hit_counters` (see `Path.ctor`). -/
def Solution.shortestPathAllKeys (self : Solution) (arg_grid : List (List Char)) :
    Res Int := do
  let grid ← Grid.ctor arg_grid
  let path := Path.ctor grid
  let (self, _) ←
    Solution.recurse_visit_next_cell (depth_budget grid) grid self path
      grid.get_start_cell kDirMax
  match self._best_solution with
  | none => pure (-1)
  | some best => pure (best.num_steps - 1)

/-- The method `Solution::shortestPathAllKeys`, in a run that does not check the index of
`_key_hit_counters` and in which the words `mem` follow the buffer of the vector (see
`Path.ctor_mem`). -/
def Solution.shortestPathAllKeys_mem (mem : List Int) (self : Solution)
    (arg_grid : List (List Char)) : Res Int := do
  let grid ← Grid.ctor arg_grid
  let path := Path.ctor_mem grid mem
  let (self, _) ←
    Solution.recurse_visit_next_cell (depth_budget grid) grid self path
      grid.get_start_cell kDirMax
  match self._best_solution with
  | none => pure (-1)
  | some best => pure (best.num_steps - 1)

/-! ## Vocabulary of the specification and of its proofs -/

deriving instance DecidableEq for Except

/-- The five legal categories of a character: start, wall, lock, key, free. -/
def legal_char (ch : Char) : Bool :=
  ch == '@' || ch == '#' || Grid.is_lock_char ch || Grid.is_key_char ch || ch == '.'

/-- A matrix of characters is a rectangle with `num_cols` columns. -/
def rectangular (m : List (List Char)) (num_cols : Nat) : Prop :=
  ∀ row ∈ m, row.length = num_cols

instance (m : List (List Char)) (num_cols : Nat) : Decidable (rectangular m num_cols) := by
  unfold rectangular
  infer_instance

/-- The state of the constructor of `Grid` after its lambda has processed a cell
holding `ch`. -/
def ctor_step (ch : Char) (cell : Cell) (st : Grid × Int) : Grid × Int :=
  ({ st.1 with
      _lock_cells :=
        if Grid.is_lock_char ch then st.1._lock_cells.set (ch.toNat - 'A'.toNat) cell
        else st.1._lock_cells
      _key_cells :=
        if Grid.is_key_char ch then st.1._key_cells.set (ch.toNat - 'a'.toNat) cell
        else st.1._key_cells
      _num_keys := st.1._num_keys + (if Grid.is_key_char ch then 1 else 0)
      _start := if ch = '@' then cell else st.1._start },
    st.2 + (if Grid.is_lock_char ch then 1 else 0))

/-- The cell holds a character that satisfies `p`. -/
def holds (m : List (List Char)) (p : Char → Bool) (cell : Cell) : Bool :=
  match char_at m cell with
  | .ok ch => p ch
  | .error _ => false

/-- The lists `_lock_cells` and `_key_cells` have the size of the `std::array`s. -/
def Grid.arrays_sized (g : Grid) : Prop :=
  g._lock_cells.length = kNumLetters ∧ g._key_cells.length = kNumLetters

/-- The character is the start sign. -/
def is_start_char (ch : Char) : Bool := ch == '@'

/-- Everything the checks of the constructor of `Grid` establish about the matrix `m`
and the object `G` built from it. -/
structure Accepted (m : List (List Char)) (G : Grid) : Prop where
  grid_eq : G._grid = m
  rows_eq : G._num_rows = (m.length : Int)
  rows_pos : 0 < m.length
  cols_pos : 0 < G._num_cols
  rect : rectangular m G._num_cols.toNat
  sized : G.arrays_sized
  legal : ∀ c ∈ all_cells G._num_rows G._num_cols, holds m legal_char c = true
  keys_eq : G._num_keys =
    ((all_cells G._num_rows G._num_cols).countP (holds m Grid.is_key_char) : Int)
  locks_eq : (all_cells G._num_rows G._num_cols).countP (holds m Grid.is_lock_char) =
    (all_cells G._num_rows G._num_cols).countP (holds m Grid.is_key_char)
  one_start : (all_cells G._num_rows G._num_cols).countP (holds m is_start_char) = 1
  start_mem : G._start ∈ all_cells G._num_rows G._num_cols
  start_char : char_at m G._start = .ok '@'

/-- The constructor of `Grid` accepts the matrix. -/
def accepts (m : List (List Char)) : Bool :=
  match Grid.ctor m with
  | .ok _ => true
  | .error _ => false

/-- Some lock letter of the matrix has no matching key letter in it, or some key letter
no matching lock letter. -/
def has_unmatched_letter (m : List (List Char)) : Prop :=
  (∃ l ∈ m.flatten, Grid.is_lock_char l = true ∧ l.toLower ∉ m.flatten) ∨
    (∃ k ∈ m.flatten, Grid.is_key_char k = true ∧ k.toUpper ∉ m.flatten)

instance (m : List (List Char)) : Decidable (has_unmatched_letter m) := by
  unfold has_unmatched_letter
  infer_instance

/-- The number of distinct lock letters present in the matrix. -/
def distinct_lock_letters (m : List (List Char)) : Nat :=
  (m.flatten.filter Grid.is_lock_char).dedup.length

/-- The number of distinct key letters present in the matrix. -/
def distinct_key_letters (m : List (List Char)) : Nat :=
  (m.flatten.filter Grid.is_key_char).dedup.length

/-- The number of cells of the matrix that hold a lock letter. -/
def num_lock_cells (m : List (List Char)) : Nat :=
  m.flatten.countP Grid.is_lock_char

/-- The number of cells of the matrix that hold a key letter. -/
def num_key_cells (m : List (List Char)) : Nat :=
  m.flatten.countP Grid.is_key_char

/-- The inputs the specification calls ill-formed in shape, alphabet or start: no rows,
an empty first row, rows of differing lengths, a character outside the five categories,
or a number of start signs other than one. -/
def ill_formed (m : List (List Char)) : Prop :=
  m = [] ∨ m.head? = some [] ∨ (∃ r1 ∈ m, ∃ r2 ∈ m, r1.length ≠ r2.length) ∨
    (∃ ch ∈ m.flatten, legal_char ch = false) ∨ m.flatten.count '@' ≠ 1

instance (m : List (List Char)) : Decidable (ill_formed m) := by
  unfold ill_formed
  infer_instance

/-! ## Traversals, in the words of the specification -/

/-- One orthogonal single-cell move from the cell `a` to the cell `b`. -/
def orthogonal_move (a b : Cell) : Prop :=
  (b._row = a._row ∧ (b._col = a._col + 1 ∨ b._col = a._col - 1)) ∨
    (b._col = a._col ∧ (b._row = a._row + 1 ∨ b._row = a._row - 1))

instance (a b : Cell) : Decidable (orthogonal_move a b) := by
  unfold orthogonal_move
  infer_instance

/-- The cell `c` may be entered when the cells `seen` were entered before: it lies inside
the matrix, it is not a wall, and if it holds a lock letter then some cell of `seen`
holds the matching lowercase letter. -/
def may_enter (m : List (List Char)) (seen : List Cell) (c : Cell) : Prop :=
  match char_at m c with
  | .ok ch =>
    ch ≠ '#' ∧ (Grid.is_lock_char ch = true → ∃ k ∈ seen, char_at m k = .ok ch.toLower)
  | .error _ => False

instance (m : List (List Char)) (seen : List Cell) (c : Cell) :
    Decidable (may_enter m seen c) := by
  unfold may_enter
  split <;> infer_instance

/-- `legal_moves m seen cur moves`: standing on `cur` after the cells `seen`, the cells
`moves` can be entered one after the other, each by one orthogonal move. -/
def legal_moves (m : List (List Char)) : List Cell → Cell → List Cell → Prop
  | _, _, [] => True
  | seen, cur, nxt :: rest =>
    orthogonal_move cur nxt ∧ may_enter m (cur :: seen) nxt ∧
      legal_moves m (cur :: seen) nxt rest

instance (m : List (List Char)) : ∀ (seen : List Cell) (cur : Cell) (moves : List Cell),
    Decidable (legal_moves m seen cur moves)
  | _, _, [] => isTrue trivial
  | seen, cur, nxt :: rest =>
    have := instDecidableLegal_moves m (cur :: seen) nxt rest
    by unfold legal_moves; infer_instance

/-- The cells `moves`, entered in this order from the cell `start`, are a legal
traversal of the matrix: `start` holds the start sign and every move is legal. -/
def legal_traversal (m : List (List Char)) (start : Cell) (moves : List Cell) : Prop :=
  char_at m start = .ok '@' ∧ legal_moves m [] start moves

instance (m : List (List Char)) (start : Cell) (moves : List Cell) :
    Decidable (legal_traversal m start moves) := by
  unfold legal_traversal
  infer_instance

/-- The traversal enters every cell of the matrix that holds a key letter. -/
def collects_all_keys (m : List (List Char)) (moves : List Cell) : Prop :=
  ∀ c ch, char_at m c = .ok ch → Grid.is_key_char ch = true → c ∈ moves

/-- The moves of a traversal through `cells`: the ordered pairs of a cell and the cell
entered next. -/
def moves_made (cells : List Cell) : List (Cell × Cell) :=
  cells.zip cells.tail

/-- The traversal from `start` through `moves` makes no move twice: it never steps from
the same cell into the same neighbour again. -/
def no_move_twice (start : Cell) (moves : List Cell) : Prop :=
  (moves_made (start :: moves)).Nodup

instance (start : Cell) (moves : List Cell) : Decidable (no_move_twice start moves) := by
  unfold no_move_twice
  infer_instance

/-- No key letter is held by two cells of the matrix. -/
def distinct_keys (m : List (List Char)) : Prop :=
  (m.flatten.filter Grid.is_key_char).Nodup

instance (m : List (List Char)) : Decidable (distinct_keys m) := by
  unfold distinct_keys
  infer_instance

/-- The direction tag under which the neighbour iterator of the cell `a` yields the
adjacent cell `b`. -/
def dir_of (a b : Cell) : Dir :=
  if b._row = a._row - 1 then 0
  else if b._row = a._row + 1 then 1
  else if b._col = a._col - 1 then 2
  else 3

/-! ## The states of the search -/

/-- The cell a path has reached: the cell of its last entry. -/
def Path.current (p : Path) : Option Cell :=
  p._path_vec.getLast?.map Prod.fst

/-- The search, standing at path `p`, descends into the neighbour `child` in direction
`dir`: `p` is not complete, the neighbour iterator yields `child` for `dir`, the three
filters of `examine_child` let it pass, and `visit` turns `p` into `q`. -/
structure Descent (G : Grid) (p : Path) (child : Cell) (dir : Dir) (q : Path) : Prop where
  incomplete : p.complete G = false
  real_dir : dir < kDirMax
  neighbour : ∃ parent, p.current = some parent ∧
    NeighbourIter.deref G { _cell := parent, _dir := dir } = .ok child
  valid : child.is_valid = true
  unvisited : p.visited child dir = .ok false
  no_wall : G.is_wall child = .ok false
  unlocked : G.is_lock child = .ok false ∨
    (G.is_lock child = .ok true ∧ p.key_was_acquired_for_lock G child = .ok true)
  visit : p.visit G child dir = .ok q

/-- One descent of the search. -/
def Step (G : Grid) (p q : Path) : Prop :=
  ∃ child dir, Descent G p child dir q

/-- The path `q` is reached from the path `p` by descents of the search. -/
def Reach (G : Grid) : Path → Path → Prop :=
  Relation.ReflTransGen (Step G)

/-- None of the filters of `examine_child` can turn away the neighbour `child` of the
path `p` in direction `dir`. -/
structure Admits (G : Grid) (p : Path) (child : Cell) (dir : Dir) : Prop where
  incomplete : p.complete G = false
  real_dir : dir < kDirMax
  neighbour : ∃ parent, p.current = some parent ∧
    NeighbourIter.deref G { _cell := parent, _dir := dir } = .ok child
  valid : child.is_valid = true
  unvisited : ∀ b, p.visited child dir = .ok b → b = false
  no_wall : ∀ b, G.is_wall child = .ok b → b = false
  unlocked : ∀ b, G.is_lock child = .ok true →
    p.key_was_acquired_for_lock G child = .ok b → b = true

/-- Following `moves` from the path `p`, every descent is admitted and the path after
the last one is complete. -/
def Explores (G : Grid) : Path → List (Cell × Dir) → Prop
  | p, [] => p.complete G = true
  | p, (c, d) :: rest => Admits G p c d ∧ ∀ q, p.visit G c d = .ok q → Explores G q rest

/-- What a part of the search that starts and ends at the path `p` does to the best
solution: it keeps it or replaces it by a complete path reached from `p`; it never makes
it longer; and it ends with one no longer than any complete path that is explored from
`p` by moves whose first satisfies `first`. -/
structure SearchSpec (G : Grid) (p : Path) (first : Option (Cell × Dir) → Prop)
    (sol sol' : Solution) : Prop where
  sound : sol'._best_solution = sol._best_solution ∨
    ∃ q, sol'._best_solution = some q ∧ Reach G p q ∧ q.complete G = true
  mono : ∀ b, sol._best_solution = some b →
    ∃ b', sol'._best_solution = some b' ∧ b'.num_steps ≤ b.num_steps
  finds : ∀ moves, first moves.head? → Explores G p moves →
    ∃ b', sol'._best_solution = some b' ∧ b'.num_steps ≤ p.num_steps + moves.length

/-- The cells of the entries of the move history, in order. -/
def Path.cells (p : Path) : List Cell :=
  p._path_vec.map Prod.fst

/-- The cell holds the key letter whose index in `_key_hit_counters` is `i`. -/
def holds_key (m : List (List Char)) (i : Nat) (c : Cell) : Bool :=
  holds m (fun ch => Grid.is_key_char ch && (ch.toNat - 'a'.toNat == i)) c

/-- The path mirrors a traversal: its move history begins with the start cell, entered
without a direction, and goes on by legal moves; each key counter is the number of
entries on the cell of its key; `_num_keys_acquired` is the number of positive
counters. -/
structure PathInv (G : Grid) (p : Path) : Prop where
  head : p._path_vec.head? = some (G._start, kDirMax)
  legal : legal_moves G._grid [] G._start p.cells.tail
  counters_len : p._key_hit_counters.length = G._num_keys.toNat
  counters : ∀ i cnt, p._key_hit_counters[i]? = some cnt →
    cnt = (p.cells.countP (holds_key G._grid i) : Int)
  acquired : p._num_keys_acquired =
    (p._key_hit_counters.countP (fun cnt => decide (0 < cnt)) : Int)

/-- The markers and the directions mirror the move history: a marker that can be read
is set exactly when its pair of cell and direction is an entry; each entry after the
first holds the neighbour, in its direction, of the cell of the entry before; and the
counter index of every key cell entered lies inside `_key_hit_counters`. -/
structure MarkInv (G : Grid) (p : Path) : Prop where
  marks : ∀ d c b, marker_at p._visited_directional d c = .ok b →
    (b = true ↔ (c, d) ∈ p._path_vec)
  chain : List.Chain'
    (fun x y : Cell × Dir =>
      NeighbourIter.deref G { _cell := x.1, _dir := y.2 } = .ok y.1 ∧ y.1.is_valid = true)
    p._path_vec
  keys_in_range : ∀ c ∈ p.cells, ∀ ch, char_at G._grid c = .ok ch →
    Grid.is_key_char ch = true → ch.toNat - 'a'.toNat < p._key_hit_counters.length

/-- The number of markers of `_visited_directional` that are unset. -/
def unset_markers (v : List (List (List Bool))) : Nat :=
  (v.map fun plane => (plane.map fun row => row.count false).sum).sum

/-- The run does not end because the nesting budget of the model was used up. -/
def within_budget {α : Type} (r : Res α) : Prop :=
  r ≠ .error .depth

/-- What is assumed of the callee `recurse_visit_next_cell` of `examine_child`: it returns
the path unchanged, and between its `visit` and its `unvisit` it meets `SearchSpec`. -/
def RecursionSpec (G : Grid)
    (recurse : Grid → Solution → Path → Cell → Dir → Search) : Prop :=
  ∀ sol p cell dir sol' p', recurse G sol p cell dir = .ok (sol', p') →
    p' = p ∧ ∃ p1, p.visit G cell dir = .ok p1 ∧ SearchSpec G p1 (fun _ => True) sol sol'

/-- The cell lies inside the grid. -/
def Grid.inside (G : Grid) (c : Cell) : Prop :=
  0 ≤ c._row ∧ c._row < G._num_rows ∧ 0 ≤ c._col ∧ c._col < G._num_cols

instance (G : Grid) (c : Cell) : Decidable (G.inside c) := by
  unfold Grid.inside
  infer_instance

/-- The neighbour `child` of the path `p` in direction `dir` passes the three filters of
`examine_child`. -/
structure Passes (G : Grid) (p : Path) (child : Cell) (dir : Dir) : Prop where
  real_dir : dir < kDirMax
  neighbour : ∃ parent, p.current = some parent ∧
    NeighbourIter.deref G { _cell := parent, _dir := dir } = .ok child
  valid : child.is_valid = true
  unvisited : p.visited child dir = .ok false
  no_wall : G.is_wall child = .ok false
  unlocked : G.is_lock child = .ok false ∨
    (G.is_lock child = .ok true ∧ p.key_was_acquired_for_lock G child = .ok true)

/-- The shape of a path of the search: every marker of a real direction and a cell inside
the grid can be read; the cells of the move history lie inside the grid; no entry occurs
twice; and the unset markers and the entries add up to one more than the number of pairs
of a direction and a cell. -/
structure ShapeInv (G : Grid) (p : Path) : Prop where
  readable : ∀ d c, d < kDirMax → G.inside c →
    ∃ b, marker_at p._visited_directional d c = .ok b
  inside : ∀ c ∈ p.cells, G.inside c
  nodup : p._path_vec.Nodup
  budget : unset_markers p._visited_directional + p._path_vec.length =
    kDirMax * G.num_rows.toNat * G.num_cols.toNat + 1

/-- The path is a state of the search on the grid, in a run that checks the index of
`_key_hit_counters`: the path built by the constructor of `Path`, or one reached by
descents from the path that has entered the start cell.  `states_search_state` shows that
every state of such a run is one. -/
def SearchState (G : Grid) (p : Path) : Prop :=
  p = Path.ctor G ∨
    ∃ p1, (Path.ctor G).visit G G.get_start_cell kDirMax = .ok p1 ∧ Reach G p1 p

/-- Every key letter and every lock letter of the matrix has an index, its offset from
`a` or `A`, below the number of key cells, the size of `_key_hit_counters`. -/
def letters_fit (m : List (List Char)) : Prop :=
  ∀ ch ∈ m.flatten,
    (Grid.is_key_char ch = true → ch.toNat - 'a'.toNat < num_key_cells m) ∧
      (Grid.is_lock_char ch = true → ch.toNat - 'A'.toNat < num_key_cells m)

instance (m : List (List Char)) : Decidable (letters_fit m) := by
  unfold letters_fit
  infer_instance

/-- The run ends with a result, or at an access outside a vector that only a matrix whose
letters do not fit can cause, or because the nesting budget of the model was used up. -/
def benign (fit : Prop) {α : Type} (r : Res α) : Prop :=
  ∀ e, r = .error e → e = .depth ∨ (e = .out_of_range ∧ ¬ fit)

/-- Everything the proofs know of a path of the search on an accepted matrix. -/
structure SearchInv (m : List (List Char)) (G : Grid) (p : Path) : Prop where
  accepted : Accepted m G
  path : PathInv G p
  mark : MarkInv G p
  shape : ShapeInv G p

/-- One replacement of the best solution: `sol'` holds a path where `sol` held none, or a
path with strictly fewer steps than the one `sol` held. -/
def Replaces (sol sol' : Solution) : Prop :=
  ∃ q, sol'._best_solution = some q ∧
    (sol._best_solution = none ∨
      ∃ b, sol._best_solution = some b ∧ q.num_steps < b.num_steps)

/-- The best solutions recorded from `sol` to `sol'`: a sequence of replacements. -/
def Records : Solution → Solution → Prop :=
  Relation.ReflTransGen Replaces

/-- In the words of the specification: the orthogonal neighbours `(r-1, c)`, `(r+1, c)`,
`(r, c-1)`, `(r, c+1)` of the cell `(r, c)`, each with its direction tag, that lie inside
`[0, R) x [0, C)`; a neighbour outside is left out. -/
def grid_neighbours (R C : Int) (cell : Cell) : List (Cell × Dir) :=
  [(({ _row := cell._row - 1, _col := cell._col } : Cell), kDirLeft),
   (({ _row := cell._row + 1, _col := cell._col } : Cell), kDirRight),
   (({ _row := cell._row, _col := cell._col - 1 } : Cell), kDirUp),
   (({ _row := cell._row, _col := cell._col + 1 } : Cell), kDirDown)].filter
    fun e => decide (0 ≤ e.1._row ∧ e.1._row < R ∧ 0 ≤ e.1._col ∧ e.1._col < C)

/-- The iterators that the `for` loop of `perform_this_visit` goes through: from `iter`,
as long as `iter != end_iter`, incrementing.  `n` bounds their number. -/
def neighbour_range (end_iter : NeighbourIter) : Nat → NeighbourIter → List NeighbourIter
  | 0, _ => []
  | n + 1, iter =>
    if iter.ne end_iter then iter :: neighbour_range end_iter n iter.incr else []

/-- The key letters held by the cells of the move history, each letter once. -/
def Path.keys_on_path (m : List (List Char)) (p : Path) : List Char :=
  ((p.cells.filterMap fun c => (char_at m c).toOption).filter Grid.is_key_char).dedup

/-! ## The states of a run -/

/-- A computation of the search together with the states it has gone through: the values
that the object `path` has taken, in order, up to the end of the computation or to the
fault that ended it. -/
structure Traced (α : Type) where
  states : List Path
  result : Res α
deriving DecidableEq

/-- A step that does not change `path`. -/
def Traced.lift {α : Type} (r : Res α) : Traced α :=
  { states := [], result := r }

/-- The object `path` has taken the value `p`. -/
def Traced.log (p : Path) : Traced Unit :=
  { states := [p], result := .ok () }

instance : Monad Traced where
  pure a := { states := [], result := .ok a }
  bind x f :=
    match x.result with
    | .error e => { states := x.states, result := .error e }
    | .ok a => { states := x.states ++ (f a).states, result := (f a).result }

/-- The method `Solution::examine_child`, with the states of `path`. -/
def Solution.examine_child_states
    (recurse_visit_next_cell : Grid → Solution → Path → Cell → Dir → Traced (Solution × Path))
    (grid : Grid) (self : Solution) (path : Path) (child_cell : Cell) (dir : Dir) :
    Traced (Solution × Path) := do
  if ← Traced.lift (path.visited child_cell dir) then return (self, path)
  if ← Traced.lift (grid.is_wall child_cell) then return (self, path)
  if ← Traced.lift (grid.is_lock child_cell) then
    if !(← Traced.lift (path.key_was_acquired_for_lock grid child_cell)) then
      return (self, path)
  recurse_visit_next_cell grid self path child_cell dir

/-- The `for` loop of `perform_this_visit`, with the states of `path`. -/
def Solution.neighbour_loop_states
    (recurse_visit_next_cell : Grid → Solution → Path → Cell → Dir → Traced (Solution × Path))
    (grid : Grid) (end_iter : NeighbourIter) :
    Nat → NeighbourIter → Solution → Path → Traced (Solution × Path)
  | 0, _, _, _ => Traced.lift (.error .depth)
  | n + 1, iter, self, path =>
    if iter.ne end_iter then do
      let child_cell ← Traced.lift (iter.deref grid)
      let (self, path) ←
        (if child_cell.is_valid then
          Solution.examine_child_states recurse_visit_next_cell grid self path child_cell
            iter.get_dir
        else pure (self, path) : Traced (Solution × Path))
      Solution.neighbour_loop_states recurse_visit_next_cell grid end_iter n iter.incr self
        path
    else pure (self, path)

/-- The method `Solution::perform_this_visit`, with the states of `path`. -/
def Solution.perform_this_visit_states
    (recurse_visit_next_cell : Grid → Solution → Path → Cell → Dir → Traced (Solution × Path))
    (grid : Grid) (self : Solution) (path : Path) (parent_cell : Cell) :
    Traced (Solution × Path) :=
  if path.complete grid then
    match self._best_solution with
    | none => pure ({ self with _best_solution := some path }, path)
    | some best =>
      if path.lt best then pure ({ self with _best_solution := some path }, path)
      else pure (self, path)
  else
    let end_iter := end_neighbour grid parent_cell
    Solution.neighbour_loop_states recurse_visit_next_cell grid end_iter (kDirMax + 1)
      (begin_neighbour grid parent_cell) self path

/-- The method `Solution::recurse_visit_next_cell`, with the states of `path`: the value
of `path` is recorded after `visit` and after `unvisit`, the two statements that change
it. -/
def Solution.recurse_visit_next_cell_states :
    Nat → Grid → Solution → Path → Cell → Dir → Traced (Solution × Path)
  | 0, _, _, _, _, _ => Traced.lift (.error .depth)
  | n + 1, grid, self, path, parent_cell, dir => do
    let path ← Traced.lift (path.visit grid parent_cell dir)
    Traced.log path
    let (self, path) ←
      Solution.perform_this_visit_states (Solution.recurse_visit_next_cell_states n) grid
        self path parent_cell
    let path ← Traced.lift (path.unvisit grid)
    Traced.log path
    pure (self, path)

/-- The method `Solution::shortestPathAllKeys`, with the states of `path`, in a run in
which the words `mem` follow the buffer of `_key_hit_counters`. -/
def Solution.shortestPathAllKeys_states (mem : List Int) (self : Solution)
    (arg_grid : List (List Char)) : Traced Int := do
  let grid ← Traced.lift (Grid.ctor arg_grid)
  let path := Path.ctor_mem grid mem
  Traced.log path
  let (self, _) ←
    Solution.recurse_visit_next_cell_states (depth_budget grid) grid self path
      grid.get_start_cell kDirMax
  match self._best_solution with
  | none => pure (-1)
  | some best => pure (best.num_steps - 1)

/-- What holds of a state of the search whatever the counters of the keys hold: the move
history begins with the start cell, entered without a direction, and the markers and the
shape of the path are those of `MarkInv` and `ShapeInv`. -/
structure HistoryInv (G : Grid) (p : Path) : Prop where
  head : p._path_vec.head? = some (G._start, kDirMax)
  mark : MarkInv G p
  shape : ShapeInv G p

/-- The counters of a path in a run that does not check the index of `_key_hit_counters`
and in which the memory after the buffer of the vector has a word for every letter, none
of them negative: every counter and every word is non-negative. -/
structure CountersInv (p : Path) : Prop where
  room : kNumLetters ≤ p._key_hit_counters.length
  nonneg : ∀ (i : Nat) (cnt : Int), p._key_hit_counters[i]? = some cnt → 0 ≤ cnt

/-- The path `p` with the words `mem` of memory after its counters. -/
def Path.with_mem (p : Path) (mem : List Int) : Path :=
  { p with _key_hit_counters := p._key_hit_counters ++ mem }

/-- The solution `sol` with the words `mem` of memory after the counters of its best
path. -/
def Solution.with_mem (sol : Solution) (mem : List Int) : Solution :=
  { sol with _best_solution := sol._best_solution.map fun p => p.with_mem mem }

/-- The callee `recurse` of `examine_child`, where it returns, does the same whatever
memory follows the buffer of `_key_hit_counters`. -/
def IgnoresMemory (G : Grid) (mem : List Int)
    (recurse : Grid → Solution → Path → Cell → Dir → Search) : Prop :=
  ∀ sol p c d sol' p', recurse G sol p c d = .ok (sol', p') →
    recurse G (sol.with_mem mem) (p.with_mem mem) c d =
      .ok (sol'.with_mem mem, p'.with_mem mem)

/-- The run does not end at an access outside a list. -/
def goes_on {α : Type} (r : Res α) : Prop :=
  r ≠ .error .out_of_range

/-! ## Auxiliary lemmas: the result monad -/

@[simp] theorem ok_bind {α β : Type} (a : α) (f : α → Res β) :
    ((Except.ok a : Res α) >>= f) = f a := rfl

@[simp] theorem error_bind {α β : Type} (e : Fault) (f : α → Res β) :
    ((Except.error e : Res α) >>= f) = .error e := rfl

@[simp] theorem pure_eq_ok {α : Type} (a : α) : (pure a : Res α) = .ok a := rfl

@[simp] theorem map_ok {α β : Type} (a : α) (f : α → β) :
    (f <$> (Except.ok a : Res α)) = .ok (f a) := rfl

@[simp] theorem map_error {α β : Type} (e : Fault) (f : α → β) :
    (f <$> (Except.error e : Res α)) = .error e := rfl

theorem bind_ok_iff {α β : Type} (e : Res α) (f : α → Res β) (y : β) :
    (e >>= f) = .ok y ↔ ∃ x, e = .ok x ∧ f x = .ok y := by
  cases e <;> simp

@[simp] theorem c_assert_true : c_assert true = .ok () := rfl

@[simp] theorem c_assert_false : c_assert false = .error .assertion := rfl

theorem c_assert_ok_iff (b : Bool) (u : Unit) : c_assert b = .ok u ↔ b = true := by
  cases b <;> simp

@[simp] theorem assert_bind_ok {β : Type} (b : Bool) (f : Unit → Res β) (y : β) :
    (c_assert b >>= f) = .ok y ↔ b = true ∧ f () = .ok y := by
  cases b <;> simp

@[simp] theorem vec_put_bind_ok {α β : Type} (v : List α) (i : Nat) (x : α)
    (f : List α → Res β) (y : β) :
    (vec_put v i x >>= f) = .ok y ↔ i < v.length ∧ f (v.set i x) = .ok y := by
  unfold vec_put
  split_ifs with h <;> simp [h]

theorem vec_at_ok_iff {α : Type} (v : List α) (i : Nat) (x : α) :
    vec_at v i = .ok x ↔ v[i]? = some x := by
  unfold vec_at
  cases v[i]? <;> simp

theorem vec_at_int_ok_iff {α : Type} (v : List α) (i : Int) (x : α) :
    vec_at_int v i = .ok x ↔ 0 ≤ i ∧ v[i.toNat]? = some x := by
  unfold vec_at_int
  split_ifs with h
  · simp; omega
  · simp [vec_at_ok_iff]; omega

theorem char_at_ok_iff (m : List (List Char)) (cell : Cell) (ch : Char) :
    char_at m cell = .ok ch ↔
      0 ≤ cell._row ∧ 0 ≤ cell._col ∧
        ∃ row, m[cell._row.toNat]? = some row ∧ row[cell._col.toNat]? = some ch := by
  unfold char_at
  rw [bind_ok_iff]
  simp only [vec_at_int_ok_iff]
  constructor
  · rintro ⟨row, ⟨h1, h2⟩, h3, h4⟩
    exact ⟨h1, h3, row, h2, h4⟩
  · rintro ⟨h1, h3, row, h2, h4⟩
    exact ⟨row, ⟨h1, h2⟩, h3, h4⟩

theorem is_lock_char_bounds {ch : Char} (h : Grid.is_lock_char ch = true) :
    65 ≤ ch.toNat ∧ ch.toNat ≤ 90 := by
  simp only [Grid.is_lock_char, Bool.and_eq_true, decide_eq_true_eq, ge_iff_le] at h
  have h1 := Char.le_def.mp h.1
  have h2 := Char.le_def.mp h.2
  constructor
  · simpa [Char.toNat, UInt32.le_def, Fin.le_def] using h1
  · simpa [Char.toNat, UInt32.le_def, Fin.le_def] using h2

theorem is_key_char_bounds {ch : Char} (h : Grid.is_key_char ch = true) :
    97 ≤ ch.toNat ∧ ch.toNat ≤ 122 := by
  simp only [Grid.is_key_char, Bool.and_eq_true, decide_eq_true_eq, ge_iff_le] at h
  have h1 := Char.le_def.mp h.1
  have h2 := Char.le_def.mp h.2
  constructor
  · simpa [Char.toNat, UInt32.le_def, Fin.le_def] using h1
  · simpa [Char.toNat, UInt32.le_def, Fin.le_def] using h2

/-! ## Auxiliary lemmas: the constructor of `Grid` -/

theorem ctor_cell_eq {cell : Cell} {g : Grid} {n : Int} {ch : Char}
    (hc : char_at g._grid cell = .ok ch)
    (hl : g._lock_cells.length = kNumLetters) (hk : g._key_cells.length = kNumLetters) :
    Grid.ctor_cell cell (g, n) =
      if legal_char ch = true ∧ (ch = '@' → g._start.is_valid = false) then
        .ok (ctor_step ch cell (g, n))
      else .error .assertion := by
  have e1 : Grid.is_lock_char '@' = false := by decide
  have e2 : Grid.is_key_char '@' = false := by decide
  have e3 : kNumLetters = 26 := by decide
  rw [e3] at hl hk
  unfold Grid.ctor_cell
  simp only [Grid.is_legal, Grid.is_start, Grid.is_wall, Grid.is_lock, Grid.is_key,
    Grid.is_free, Grid.get_char]
  by_cases hs : ch = '@'
  · subst hs
    cases hv : g._start.is_valid <;>
      simp [hc, e1, e2, legal_char, ctor_step, hv]
  · by_cases hlk : Grid.is_lock_char ch = true <;> by_cases hky : Grid.is_key_char ch = true
    · have b1 := is_lock_char_bounds hlk
      have b2 := is_key_char_bounds hky
      omega
    · have b1 := is_lock_char_bounds hlk
      have b3 : ch.toNat - 65 < 26 := by omega
      simp [hc, hlk, hky, hs, legal_char, ctor_step, Grid.get_lock_index_char, vec_put, hl, b3]
    · have b1 := is_key_char_bounds hky
      have b3 : ch.toNat - 97 < 26 := by omega
      simp [hc, hlk, hky, hs, legal_char, ctor_step, Grid.get_key_index_char, vec_put, hk, b3]
    · have hlk' : Grid.is_lock_char ch = false := by simpa using hlk
      have hky' : Grid.is_key_char ch = false := by simpa using hky
      simp only [hc, hlk', hky', hs, legal_char, ctor_step, ok_bind, pure_eq_ok, beq_iff_eq,
        Bool.false_eq_true, if_false, Bool.or_false, Bool.false_or, add_zero]
      by_cases h1 : ch = '#'
      · simp [h1]
      · by_cases h2 : ch = '.'
        · simp [h2]
        · have h3 : (ch == '.') = false := by simpa using h2
          simp [h1, h2, hs, h3]

theorem mem_all_cells {R C : Int} {cell : Cell} :
    cell ∈ all_cells R C ↔
      0 ≤ cell._row ∧ cell._row < R ∧ 0 ≤ cell._col ∧ cell._col < C := by
  unfold all_cells
  rw [List.mem_flatMap]
  constructor
  · rintro ⟨r, hr, hc⟩
    rw [List.mem_map] at hc
    obtain ⟨c, hc, rfl⟩ := hc
    rw [List.mem_range, Int.lt_toNat] at hr hc
    simp only
    omega
  · rintro ⟨h1, h2, h3, h4⟩
    refine ⟨cell._row.toNat, ?_, ?_⟩
    · rw [List.mem_range, Int.lt_toNat, Int.toNat_of_nonneg h1]; exact h2
    · rw [List.mem_map]
      refine ⟨cell._col.toNat, ?_, ?_⟩
      · rw [List.mem_range, Int.lt_toNat, Int.toNat_of_nonneg h3]; exact h4
      · rw [Int.toNat_of_nonneg h1, Int.toNat_of_nonneg h3]

theorem char_at_in_range {m : List (List Char)} {C : Nat} (hrect : rectangular m C)
    {cell : Cell} (h : cell ∈ all_cells (m.length : Int) (C : Int)) :
    ∃ ch, char_at m cell = .ok ch := by
  rw [mem_all_cells] at h
  obtain ⟨h1, h2, h3, h4⟩ := h
  have hr : cell._row.toNat < m.length := by omega
  have hlen : (m[cell._row.toNat]).length = C := hrect _ (List.getElem_mem hr)
  have hc : cell._col.toNat < (m[cell._row.toNat]).length := by omega
  refine ⟨(m[cell._row.toNat])[cell._col.toNat], ?_⟩
  rw [char_at_ok_iff]
  exact ⟨h1, h3, m[cell._row.toNat], List.getElem?_eq_getElem hr, List.getElem?_eq_getElem hc⟩

theorem ctor_step_grid (ch : Char) (cell : Cell) (st : Grid × Int) :
    (ctor_step ch cell st).1._grid = st.1._grid ∧
      (ctor_step ch cell st).1._num_rows = st.1._num_rows ∧
      (ctor_step ch cell st).1._num_cols = st.1._num_cols := ⟨rfl, rfl, rfl⟩

theorem ctor_step_sized (ch : Char) (cell : Cell) (st : Grid × Int)
    (h : st.1.arrays_sized) : (ctor_step ch cell st).1.arrays_sized := by
  unfold Grid.arrays_sized ctor_step at *
  constructor
  · simp only; split_ifs <;> simp [h.1]
  · simp only; split_ifs <;> simp [h.2]

/-- One step of the constructor's loop over the cells, unfolded. -/
theorem ctor_fold_cons {m : List (List Char)} {cell : Cell} {cells : List Cell}
    {st : Grid × Int} {ch : Char} (hg : st.1._grid = m) (hs : st.1.arrays_sized)
    (hc : char_at m cell = .ok ch) :
    List.foldlM (fun s c => Grid.ctor_cell c s) st (cell :: cells) =
      if legal_char ch = true ∧ (ch = '@' → st.1._start.is_valid = false) then
        List.foldlM (fun s c => Grid.ctor_cell c s) (ctor_step ch cell st) cells
      else .error .assertion := by
  obtain ⟨g, n⟩ := st
  simp only at hg hs
  subst hg
  rw [List.foldlM_cons, ctor_cell_eq hc hs.1 hs.2]
  split_ifs <;> simp

/-- The loop over the cells ends in a state or in a failed `assert`, never in an access
out of range. -/
theorem ctor_fold_fault {m : List (List Char)} (cells : List Cell)
    (hin : ∀ c ∈ cells, ∃ ch, char_at m c = .ok ch) (st : Grid × Int)
    (hg : st.1._grid = m) (hs : st.1.arrays_sized) (e : Fault)
    (h : List.foldlM (fun s c => Grid.ctor_cell c s) st cells = .error e) :
    e = .assertion := by
  induction cells generalizing st with
  | nil => simp [List.foldlM] at h
  | cons c cs ih =>
    obtain ⟨ch, hc⟩ := hin c (List.mem_cons_self _ _)
    rw [ctor_fold_cons hg hs hc] at h
    split_ifs at h
    · exact ih (fun c hc => hin c (List.mem_cons_of_mem _ hc)) _
        ((ctor_step_grid ch c st).1.trans hg) (ctor_step_sized ch c st hs) h
    · simpa using h.symm

/-- What the loop over the cells has established when it ends in a state. -/
theorem ctor_fold_ok {m : List (List Char)} (cells : List Cell)
    (hin : ∀ c ∈ cells, ∃ ch, char_at m c = .ok ch) (st r : Grid × Int)
    (hg : st.1._grid = m) (hs : st.1.arrays_sized)
    (h : List.foldlM (fun s c => Grid.ctor_cell c s) st cells = .ok r) :
    r.1._grid = m ∧ r.1._num_rows = st.1._num_rows ∧ r.1._num_cols = st.1._num_cols ∧
      r.1.arrays_sized ∧
      (∀ c ∈ cells, holds m legal_char c = true) ∧
      r.1._num_keys = st.1._num_keys + (cells.countP (holds m Grid.is_key_char) : Int) ∧
      r.2 = st.2 + (cells.countP (holds m Grid.is_lock_char) : Int) := by
  induction cells generalizing st with
  | nil =>
    simp only [List.foldlM, pure_eq_ok, Except.ok.injEq] at h
    subst h
    simp [hg, hs]
  | cons c cs ih =>
    obtain ⟨ch, hc⟩ := hin c (List.mem_cons_self _ _)
    rw [ctor_fold_cons hg hs hc] at h
    split_ifs at h with hok
    · obtain ⟨h1, h2, h3, h4, h5, h6, h7⟩ :=
        ih (fun c hc => hin c (List.mem_cons_of_mem _ hc)) _
          ((ctor_step_grid ch c st).1.trans hg) (ctor_step_sized ch c st hs) h
      refine ⟨h1, h2, h3, h4, ?_, ?_, ?_⟩
      · intro c' hc'
        rcases List.mem_cons.mp hc' with rfl | hc'
        · simp [holds, hc, hok.1]
        · exact h5 c' hc'
      · rw [h6, List.countP_cons]
        simp only [ctor_step, holds, hc]
        split_ifs <;> push_cast <;> ring
      · rw [h7, List.countP_cons]
        simp only [ctor_step, holds, hc]
        split_ifs <;> push_cast <;> ring

/-- How the loop over the cells sets `_start`. -/
theorem ctor_fold_start {m : List (List Char)} (cells : List Cell)
    (hin : ∀ c ∈ cells, ∃ ch, char_at m c = .ok ch)
    (hval : ∀ c ∈ cells, c.is_valid = true) (st r : Grid × Int)
    (hg : st.1._grid = m) (hs : st.1.arrays_sized)
    (h : List.foldlM (fun s c => Grid.ctor_cell c s) st cells = .ok r) :
    (st.1._start.is_valid = true →
      cells.countP (holds m is_start_char) = 0 ∧ r.1._start = st.1._start) ∧
    (st.1._start.is_valid = false →
      (cells.countP (holds m is_start_char) = 0 ∧ r.1._start = st.1._start) ∨
      (cells.countP (holds m is_start_char) = 1 ∧ r.1._start ∈ cells ∧
        char_at m r.1._start = .ok '@')) := by
  induction cells generalizing st with
  | nil =>
    simp only [List.foldlM, pure_eq_ok, Except.ok.injEq] at h
    subst h
    simp
  | cons c cs ih =>
    obtain ⟨ch, hc⟩ := hin c (List.mem_cons_self _ _)
    rw [ctor_fold_cons hg hs hc] at h
    split_ifs at h with hok
    have ih' := ih (fun c hc => hin c (List.mem_cons_of_mem _ hc))
      (fun c hc => hval c (List.mem_cons_of_mem _ hc)) _
      ((ctor_step_grid ch c st).1.trans hg) (ctor_step_sized ch c st hs) h
    have hcv : c.is_valid = true := hval c (List.mem_cons_self _ _)
    rw [List.countP_cons]
    by_cases hch : ch = '@'
    · subst hch
      have hst : (ctor_step '@' c st).1._start = c := by simp [ctor_step]
      rw [hst] at ih'
      obtain ⟨h0, h1⟩ := ih'.1 hcv
      have hh : holds m is_start_char c = true := by simp [holds, hc, is_start_char]
      constructor
      · intro hv
        have := hok.2 rfl
        rw [hv] at this
        exact absurd this (by simp)
      · intro _
        right
        refine ⟨by simp [h0, hh], ?_, ?_⟩
        · rw [h1]; exact List.mem_cons_self _ _
        · rw [h1]; exact hc
    · have hst : (ctor_step ch c st).1._start = st.1._start := by simp [ctor_step, hch]
      rw [hst] at ih'
      have hh : holds m is_start_char c = false := by simp [holds, hc, is_start_char, hch]
      simp only [hh, Bool.false_eq_true, if_false, add_zero]
      refine ⟨ih'.1, fun hv => ?_⟩
      rcases ih'.2 hv with h1 | ⟨h1, h2, h3⟩
      · exact Or.inl h1
      · exact Or.inr ⟨h1, List.mem_cons_of_mem _ h2, h3⟩

theorem ctor_rows_eq (C : Int) (m : List (List Char)) :
    Grid.ctor_rows C m =
      if ∀ row ∈ m, C = (row.length : Int) then .ok () else .error .assertion := by
  induction m with
  | nil => simp [Grid.ctor_rows]
  | cons row rest ih =>
    unfold Grid.ctor_rows
    rw [ih]
    by_cases h1 : C = (row.length : Int)
    · by_cases h2 : ∀ row ∈ rest, C = (row.length : Int)
      · simp [h1, h2]
      · simp [h1, h2]
    · have : (C == (row.length : Int)) = false := by simpa using h1
      simp [this, h1]

theorem all_cells_valid {R C : Int} : ∀ c ∈ all_cells R C, c.is_valid = true := by
  intro c hc
  rw [mem_all_cells] at hc
  simp [Cell.is_valid, hc.1]

/-- The constructor of `Grid`, unfolded up to its loop over the cells. -/
theorem ctor_unfold (m : List (List Char)) :
    Grid.ctor m =
      match m with
      | [] => .error .assertion
      | row0 :: rest =>
        if 0 < row0.length ∧ ∀ row ∈ row0 :: rest, (row0.length : Int) = (row.length : Int) then
          List.foldlM (fun s c => Grid.ctor_cell c s)
            (({ _grid := row0 :: rest, _num_rows := ((row0 :: rest).length : Int),
                _num_cols := (row0.length : Int) } : Grid), (0 : Int))
            (all_cells ((row0 :: rest).length : Int) (row0.length : Int)) >>= fun r =>
          c_assert r.1._start.is_valid >>= fun _ =>
          c_assert (r.2 == r.1._num_keys) >>= fun _ => .ok r.1
        else .error .assertion := by
  cases m with
  | nil => simp [Grid.ctor]
  | cons row0 rest =>
    unfold Grid.ctor
    simp only [vec_at, List.getElem?_cons_zero, ok_bind, ctor_rows_eq,
      Grid.iterate_over_all_cells]
    have h0 : decide ((((row0 :: rest).length : Nat) : Int) > 0) = true := by
      simp only [List.length_cons, gt_iff_lt, decide_eq_true_eq]; omega
    rw [h0]
    simp only [c_assert_true, ok_bind]
    by_cases h1 : 0 < row0.length
    · have h1' : decide ((row0.length : Int) > 0) = true := by simpa using h1
      rw [h1']
      simp only [c_assert_true, ok_bind]
      by_cases h2 : ∀ row ∈ row0 :: rest, (row0.length : Int) = (row.length : Int)
      · rw [if_pos h2, if_pos ⟨h1, h2⟩]
        rfl
      · rw [if_neg h2, if_neg (fun h => h2 h.2)]
        rfl
    · have h1' : decide ((row0.length : Int) > 0) = false := by simpa using h1
      rw [h1']
      simp only [h1, false_and, if_false, c_assert_false, error_bind]

theorem initial_sized (m : List (List Char)) (R C : Int) :
    ({ _grid := m, _num_rows := R, _num_cols := C } : Grid).arrays_sized := by
  simp [Grid.arrays_sized]

/-- An object the constructor of `Grid` returns satisfies `Accepted`. -/
theorem ctor_accepted {m : List (List Char)} {G : Grid} (h : Grid.ctor m = .ok G) :
    Accepted m G := by
  rw [ctor_unfold] at h
  cases m with
  | nil => simp at h
  | cons row0 rest =>
    simp only at h
    split_ifs at h with hc
    obtain ⟨hpos, hrect⟩ := hc
    rw [bind_ok_iff] at h
    obtain ⟨r, hfold, h⟩ := h
    rw [assert_bind_ok, assert_bind_ok] at h
    obtain ⟨hvalid, hcount, hG⟩ := h
    simp only [Except.ok.injEq] at hG
    subst hG
    have hrect' : rectangular (row0 :: rest) row0.length := by
      intro row hrow
      have := hrect row hrow
      omega
    have hin : ∀ c ∈ all_cells ((row0 :: rest).length : Int) (row0.length : Int),
        ∃ ch, char_at (row0 :: rest) c = .ok ch := fun c hc => char_at_in_range hrect' hc
    obtain ⟨h1, h2, h3, h4, h5, h6, h7⟩ :=
      ctor_fold_ok _ hin _ r rfl (initial_sized _ _ _) hfold
    have hstart := (ctor_fold_start _ hin all_cells_valid _ r rfl (initial_sized _ _ _)
      hfold).2 rfl
    simp only at h2 h3 h6 h7 hstart
    have hstart' : (all_cells ((row0 :: rest).length : Int)
          (row0.length : Int)).countP (holds (row0 :: rest) is_start_char) = 1 ∧
        r.1._start ∈ all_cells ((row0 :: rest).length : Int) (row0.length : Int) ∧
        char_at (row0 :: rest) r.1._start = .ok '@' := by
      rcases hstart with ⟨_, h0⟩ | h0
      · rw [h0] at hvalid
        simp [Cell.is_valid] at hvalid
      · exact h0
    have hkeys : r.1._num_keys = ((all_cells ((row0 :: rest).length : Int)
        (row0.length : Int)).countP (holds (row0 :: rest) Grid.is_key_char) : Int) := by
      rw [h6]; simp
    have hcount' : r.2 = r.1._num_keys := by simpa using hcount
    exact
      { grid_eq := h1
        rows_eq := h2
        rows_pos := by simp
        cols_pos := by rw [h3]; exact_mod_cast hpos
        rect := by rw [h3]; simpa using hrect'
        sized := h4
        legal := by rw [h2, h3]; exact h5
        keys_eq := by rw [h2, h3]; exact hkeys
        locks_eq := by
          rw [h2, h3]
          rw [h7, hkeys] at hcount'
          simp only [zero_add] at hcount'
          exact_mod_cast hcount'
        one_start := by rw [h2, h3]; exact hstart'.1
        start_mem := by rw [h2, h3]; exact hstart'.2.1
        start_char := hstart'.2.2 }

/-- The constructor of `Grid` fails only through one of its `assert`s. -/
theorem ctor_fault {m : List (List Char)} {e : Fault} (h : Grid.ctor m = .error e) :
    e = .assertion := by
  rw [ctor_unfold] at h
  cases m with
  | nil => simpa using h.symm
  | cons row0 rest =>
    simp only at h
    split_ifs at h with hc
    · obtain ⟨hpos, hrect⟩ := hc
      have hrect' : rectangular (row0 :: rest) row0.length := by
        intro row hrow
        have := hrect row hrow
        omega
      have hin : ∀ c ∈ all_cells ((row0 :: rest).length : Int) (row0.length : Int),
          ∃ ch, char_at (row0 :: rest) c = .ok ch := fun c hc => char_at_in_range hrect' hc
      cases hfold : List.foldlM (fun s c => Grid.ctor_cell c s)
            (({ _grid := row0 :: rest, _num_rows := ((row0 :: rest).length : Int),
                _num_cols := (row0.length : Int) } : Grid), (0 : Int))
            (all_cells ((row0 :: rest).length : Int) (row0.length : Int)) with
      | error e' =>
        rw [hfold] at h
        simp only [error_bind, Except.error.injEq] at h
        subst h
        exact ctor_fold_fault _ hin _ rfl (initial_sized _ _ _) _ hfold
      | ok r =>
        rw [hfold] at h
        simp only [ok_bind] at h
        cases hv : r.1._start.is_valid <;> rw [hv] at h
        · simpa using h.symm
        · cases hn : (r.2 == r.1._num_keys) <;> rw [hn] at h
          · simpa using h.symm
          · simp at h
    · simpa using h.symm

/-- The constructor of `Grid` either returns an object or fails an `assert`. -/
theorem ctor_cases (m : List (List Char)) :
    (∃ G, Grid.ctor m = .ok G) ∨ Grid.ctor m = .error .assertion := by
  cases h : Grid.ctor m with
  | ok G => exact Or.inl ⟨G, rfl⟩
  | error e => rw [ctor_fault h]; exact Or.inr rfl

theorem char_at_append_left {m : List (List Char)} {row : List Char} {cell : Cell}
    (h : cell._row < (m.length : Int)) : char_at (m ++ [row]) cell = char_at m cell := by
  unfold char_at vec_at_int
  by_cases h0 : cell._row < 0
  · rw [if_pos h0, if_pos h0]
  · rw [if_neg h0, if_neg h0]
    have : cell._row.toNat < m.length := by
      rw [Int.toNat_lt (by omega)]; exact h
    simp only [vec_at, List.getElem?_append_left this]

theorem all_cells_chars {C : Nat} (m : List (List Char)) (hrect : rectangular m C) :
    (all_cells (m.length : Int) (C : Int)).map (char_at m) = m.flatten.map Except.ok := by
  induction m using List.reverseRecOn with
  | nil => simp [all_cells]
  | append_singleton m row ih =>
    have hrect' : rectangular m C := fun r hr => hrect r (List.mem_append_left _ hr)
    have hrow : row.length = C := hrect row (by simp)
    have ih' := ih hrect'
    unfold all_cells at ih' ⊢
    simp only [List.length_append, List.length_singleton, Nat.cast_add, Nat.cast_one,
      Int.toNat_ofNat] at ih' ⊢
    have e1 : ((m.length : Int) + 1).toNat = m.length + 1 := by omega
    rw [e1, List.range_succ, List.flatMap_append, List.map_append, List.flatten_append,
      List.map_append]
    congr 1
    · rw [← ih']
      simp only [List.map_flatMap, List.map_map]
      apply List.flatMap_congr
      intro r hr
      apply List.map_congr_left
      intro c _
      simp only [Function.comp]
      apply char_at_append_left
      simp only
      rw [List.mem_range] at hr
      omega
    · simp only [List.flatMap_singleton, List.map_map, List.flatten_singleton]
      apply List.ext_getElem
      · simp [hrow]
      · intro i h1 h2
        simp only [List.getElem_map, List.getElem_range, Function.comp]
        rw [char_at_ok_iff]
        simp only [List.length_map] at h2
        refine ⟨Int.natCast_nonneg _, Int.natCast_nonneg _, row, ?_, ?_⟩
        · simp
        · simp [List.getElem?_eq_getElem h2]

theorem countP_cells {C : Nat} (m : List (List Char)) (hrect : rectangular m C)
    (p : Char → Bool) :
    (all_cells (m.length : Int) (C : Int)).countP (holds m p) = m.flatten.countP p := by
  have h1 : holds m p = (fun r : Res Char => match r with
      | .ok ch => p ch
      | .error _ => false) ∘ char_at m := by
    funext c
    simp only [holds, Function.comp]
  rw [h1, ← List.countP_map, all_cells_chars m hrect, List.countP_map]
  rfl

theorem exists_cell_of_mem {C : Nat} (m : List (List Char)) (hrect : rectangular m C)
    {ch : Char} (h : ch ∈ m.flatten) :
    ∃ c ∈ all_cells (m.length : Int) (C : Int), char_at m c = .ok ch := by
  have h1 : (Except.ok ch : Res Char) ∈ m.flatten.map Except.ok := List.mem_map_of_mem _ h
  rw [← all_cells_chars m hrect, List.mem_map] at h1
  exact h1

theorem mem_of_char_at {m : List (List Char)} {c : Cell} {ch : Char}
    (h : char_at m c = .ok ch) : ch ∈ m.flatten := by
  rw [char_at_ok_iff] at h
  obtain ⟨_, _, row, h1, h2⟩ := h
  rw [List.mem_flatten]
  exact ⟨row, List.getElem?_mem h1, List.getElem?_mem h2⟩

theorem Accepted.cells_eq {m : List (List Char)} {G : Grid} (h : Accepted m G) :
    all_cells G._num_rows G._num_cols =
      all_cells (m.length : Int) ((G._num_cols.toNat : Nat) : Int) := by
  rw [h.rows_eq, Int.toNat_of_nonneg (le_of_lt h.cols_pos)]

theorem Accepted.countP_eq {m : List (List Char)} {G : Grid} (h : Accepted m G)
    (p : Char → Bool) :
    (all_cells G._num_rows G._num_cols).countP (holds m p) = m.flatten.countP p := by
  rw [h.cells_eq, countP_cells m h.rect]

theorem Accepted.mem_cells {m : List (List Char)} {G : Grid} (h : Accepted m G)
    {c : Cell} {ch : Char} (hc : char_at m c = .ok ch) :
    c ∈ all_cells G._num_rows G._num_cols := by
  rw [h.cells_eq, mem_all_cells]
  rw [char_at_ok_iff] at hc
  obtain ⟨h1, h2, row, h3, h4⟩ := hc
  obtain ⟨h5, h6⟩ := List.getElem?_eq_some.mp h3
  obtain ⟨h7, _⟩ := List.getElem?_eq_some.mp h4
  have h8 : row.length = G._num_cols.toNat := h.rect row (List.getElem?_mem h3)
  rw [h8] at h7
  have e1 : ((c._row.toNat : Nat) : Int) = c._row := Int.toNat_of_nonneg h1
  have e2 : ((c._col.toNat : Nat) : Int) = c._col := Int.toNat_of_nonneg h2
  refine ⟨h1, ?_, h2, ?_⟩
  · rw [← e1]; exact_mod_cast h5
  · rw [← e2]; exact_mod_cast h7

theorem all_cells_nodup (R C : Int) : (all_cells R C).Nodup := by
  unfold all_cells
  rw [List.nodup_flatMap]
  constructor
  · intro r _
    apply List.Nodup.map _ (List.nodup_range _)
    intro a b hab
    simpa using hab
  · apply (List.nodup_range _).pairwise_of_forall_ne
    intro a _ b _ hab
    simp only [Function.onFun]
    intro c h1 h2
    rw [List.mem_map] at h1 h2
    obtain ⟨_, _, rfl⟩ := h1
    obtain ⟨_, _, h3⟩ := h2
    simp only [Cell.mk.injEq, Nat.cast_inj] at h3
    exact hab h3.1.symm

/-- In an accepted grid the start cell is the only cell that holds the start sign. -/
theorem Accepted.start_unique {m : List (List Char)} {G : Grid} (h : Accepted m G)
    {c : Cell} (hc : char_at m c = .ok '@') : c = G._start := by
  have h1 := h.one_start
  rw [List.countP_eq_length_filter] at h1
  have hn : ((all_cells G._num_rows G._num_cols).filter (holds m is_start_char)).Nodup :=
    (all_cells_nodup _ _).filter _
  have m1 : c ∈ (all_cells G._num_rows G._num_cols).filter (holds m is_start_char) := by
    rw [List.mem_filter]
    exact ⟨h.mem_cells hc, by simp [holds, hc, is_start_char]⟩
  have m2 : G._start ∈ (all_cells G._num_rows G._num_cols).filter (holds m is_start_char) := by
    rw [List.mem_filter]
    exact ⟨h.start_mem, by simp [holds, h.start_char, is_start_char]⟩
  obtain ⟨x, hx⟩ := List.length_eq_one.mp h1
  rw [hx] at m1 m2
  rw [List.mem_singleton] at m1 m2
  rw [m1, m2]

theorem accepts_iff (m : List (List Char)) : accepts m = true ↔ ∃ G, Grid.ctor m = .ok G := by
  unfold accepts
  cases Grid.ctor m <;> simp

theorem Accepted.num_locks_eq {m : List (List Char)} {G : Grid} (h : Accepted m G) :
    num_lock_cells m = num_key_cells m := by
  have := h.locks_eq
  rwa [h.countP_eq, h.countP_eq] at this

theorem Accepted.num_keys_eq {m : List (List Char)} {G : Grid} (h : Accepted m G) :
    G._num_keys = (num_key_cells m : Int) := by
  rw [h.keys_eq, h.countP_eq]
  rfl

/-! ## C5, C6, C7: validation in the constructor of `Grid` -/

/-- C5, as stated, fails: the matrix `"@aB"` holds the lock letter `B` without the key
letter `b` and the key letter `a` without the lock letter `A`, and the constructor of
`Grid` accepts it. -/
theorem unmatched_letters_accepted :
    has_unmatched_letter ["@aB".toList] ∧ accepts ["@aB".toList] = true := by
  decide

/-- C5, amended: the constructor of `Grid` fails an `assert` on every matrix that holds
a lock letter and no key letter at all, or a key letter and no lock letter at all.  (It
compares the number of lock cells with the number of key cells and never looks at which
letters they hold.) -/
theorem one_kind_of_letter_rejected (m : List (List Char))
    (h : ((∃ l ∈ m.flatten, Grid.is_lock_char l = true) ∧
          ∀ k ∈ m.flatten, Grid.is_key_char k = false) ∨
        ((∃ k ∈ m.flatten, Grid.is_key_char k = true) ∧
          ∀ l ∈ m.flatten, Grid.is_lock_char l = false)) :
    Grid.ctor m = .error .assertion := by
  rcases ctor_cases m with ⟨G, hG⟩ | he
  · exfalso
    have hacc := ctor_accepted hG
    have heq := hacc.num_locks_eq
    unfold num_lock_cells num_key_cells at heq
    rcases h with ⟨⟨l, hl, hl'⟩, hk⟩ | ⟨⟨k, hk, hk'⟩, hl⟩
    · have h1 : 0 < m.flatten.countP Grid.is_lock_char := List.countP_pos_iff.mpr ⟨l, hl, hl'⟩
      have h2 : m.flatten.countP Grid.is_key_char = 0 := by
        rw [List.countP_eq_zero]
        intro k hk'
        simp [hk k hk']
      omega
    · have h1 : 0 < m.flatten.countP Grid.is_key_char := List.countP_pos_iff.mpr ⟨k, hk, hk'⟩
      have h2 : m.flatten.countP Grid.is_lock_char = 0 := by
        rw [List.countP_eq_zero]
        intro l hl'
        simp [hl l hl']
      omega
  · exact he

/-- Witness of `one_kind_of_letter_rejected`: the matrix `"@.a"` holds a key and no lock. -/
theorem one_kind_of_letter_rejected_witness :
    Grid.ctor ["@.a".toList] = .error .assertion :=
  one_kind_of_letter_rejected ["@.a".toList] (by decide)

/-- C6, as stated, fails: the matrix `"@aaAB"` holds two distinct lock letters and one
distinct key letter, and the constructor of `Grid` accepts it. -/
theorem unequal_distinct_letters_accepted :
    distinct_lock_letters ["@aaAB".toList] ≠ distinct_key_letters ["@aaAB".toList] ∧
      accepts ["@aaAB".toList] = true := by
  decide

/-- C6, amended: the constructor of `Grid` fails an `assert` on every matrix in which the
number of cells holding a lock letter differs from the number of cells holding a key
letter. -/
theorem unequal_cell_counts_rejected (m : List (List Char))
    (h : num_lock_cells m ≠ num_key_cells m) :
    Grid.ctor m = .error .assertion := by
  rcases ctor_cases m with ⟨G, hG⟩ | he
  · exact absurd (ctor_accepted hG).num_locks_eq h
  · exact he

/-- Witness of `unequal_cell_counts_rejected`: `"@aAB"` has two lock cells, one key cell. -/
theorem unequal_cell_counts_rejected_witness :
    Grid.ctor ["@aAB".toList] = .error .assertion :=
  unequal_cell_counts_rejected ["@aAB".toList] (by decide)

/-- What `Accepted` says about the matrix in the words of the specification: a
non-empty rectangle of legal characters with exactly one start sign, at `_start`. -/
theorem Accepted.well_formed {m : List (List Char)} {G : Grid} (h : Accepted m G) :
    m ≠ [] ∧ (∃ n, 0 < n ∧ ∀ row ∈ m, row.length = n) ∧
      (∀ ch ∈ m.flatten, legal_char ch = true) ∧ m.flatten.count '@' = 1 ∧
      ∀ c, char_at m c = .ok '@' ↔ c = G.get_start_cell := by
  refine ⟨?_, ⟨G._num_cols.toNat, ?_, h.rect⟩, ?_, ?_, ?_⟩
  · intro hm
    have := h.rows_pos
    rw [hm] at this
    simp at this
  · have := h.cols_pos
    omega
  · intro ch hch
    obtain ⟨c, hc, hcc⟩ := exists_cell_of_mem m h.rect hch
    rw [← h.cells_eq] at hc
    have := h.legal c hc
    simpa [holds, hcc] using this
  · have := h.one_start
    rw [h.countP_eq] at this
    rw [← this]
    rfl
  · intro c
    constructor
    · exact fun hc => h.start_unique hc
    · rintro rfl
      exact h.start_char

/-! ### C7 -/

/-- C7: the constructor of `Grid` fails an `assert` on every input that has no rows, an
empty first row, rows of differing lengths, a character outside `#`, `.`, `@`, `A`..`Z`,
`a`..`z`, or a number of `@` other than one; and every matrix it accepts is a non-empty
rectangle of legal characters with exactly one `@`, whose cell is what `get_start_cell`
returns. -/
theorem shape_alphabet_start_validated (m : List (List Char)) :
    (ill_formed m → Grid.ctor m = .error .assertion) ∧
      (∀ G, Grid.ctor m = .ok G →
        m ≠ [] ∧ (∃ n, 0 < n ∧ ∀ row ∈ m, row.length = n) ∧
          (∀ ch ∈ m.flatten, legal_char ch = true) ∧ m.flatten.count '@' = 1 ∧
          ∀ c, char_at m c = .ok '@' ↔ c = G.get_start_cell) := by
  constructor
  · intro hill
    rcases ctor_cases m with ⟨G, hG⟩ | he
    · exfalso
      obtain ⟨h1, ⟨n, hn, h2⟩, h3, h4, _⟩ := (ctor_accepted hG).well_formed
      rcases hill with h | h | ⟨r1, hr1, r2, hr2, h⟩ | ⟨ch, hch, h⟩ | h
      · exact h1 h
      · cases m with
        | nil => exact h1 rfl
        | cons row0 rest =>
          simp only [List.head?_cons, Option.some.injEq] at h
          have := h2 row0 (List.mem_cons_self _ _)
          rw [h] at this
          simp at this
          omega
      · exact h (by rw [h2 r1 hr1, h2 r2 hr2])
      · rw [h3 ch hch] at h
        exact absurd h (by simp)
      · exact h h4
    · exact he
  · intro G hG
    exact (ctor_accepted hG).well_formed

/-- Witness of `shape_alphabet_start_validated`: a ragged matrix is rejected, and in the
accepted matrix `"@.aA"` the start cell is row 0, column 0. -/
theorem shape_alphabet_start_validated_witness :
    Grid.ctor ["@.".toList, "aA.".toList] = .error .assertion ∧
      ∃ G, Grid.ctor ["@.aA".toList] = .ok G ∧ G.get_start_cell = { _row := 0, _col := 0 } := by
  refine ⟨(shape_alphabet_start_validated _).1 (by decide), ?_⟩
  have h : accepts ["@.aA".toList] = true := by decide
  obtain ⟨G, hG⟩ := (accepts_iff _).mp h
  refine ⟨G, hG, ?_⟩
  have := ((shape_alphabet_start_validated _).2 G hG).2.2.2.2 { _row := 0, _col := 0 }
  exact (this.mp (by decide)).symm

/-! ## Auxiliary lemmas: markers -/

theorem set_same {α : Type} {l : List α} {i : Nat} {a : α} (h : l[i]? = some a) :
    l.set i a = l := by
  induction l generalizing i with
  | nil => rfl
  | cons x xs ih =>
    cases i with
    | zero =>
      simp only [List.getElem?_cons_zero, Option.some.injEq] at h
      simp [h]
    | succ i =>
      simp only [List.getElem?_cons_succ] at h
      simp [ih h]

theorem marker_at_ok_iff (v : List (List (List Bool))) (d : Dir) (c : Cell) (b : Bool) :
    marker_at v d c = .ok b ↔
      0 ≤ c._row ∧ 0 ≤ c._col ∧ ∃ plane row, v[d]? = some plane ∧
        plane[c._row.toNat]? = some row ∧ row[c._col.toNat]? = some b := by
  unfold marker_at
  simp only [bind_ok_iff, vec_at_ok_iff, vec_at_int_ok_iff]
  constructor
  · rintro ⟨plane, h1, row, ⟨h2, h3⟩, h4, h5⟩
    exact ⟨h2, h4, plane, row, h1, h3, h5⟩
  · rintro ⟨h2, h4, plane, row, h1, h3, h5⟩
    exact ⟨plane, h1, row, ⟨h2, h3⟩, h4, h5⟩

theorem vec_put_ok_iff {α : Type} (v v' : List α) (i : Nat) (x : α) :
    vec_put v i x = .ok v' ↔ i < v.length ∧ v' = v.set i x := by
  unfold vec_put
  split_ifs with h
  · simp [h, eq_comm]
  · simp [h]

theorem vec_put_int_ok_iff {α : Type} (v v' : List α) (i : Int) (x : α) :
    vec_put_int v i x = .ok v' ↔ 0 ≤ i ∧ i.toNat < v.length ∧ v' = v.set i.toNat x := by
  unfold vec_put_int
  split_ifs with h
  · simp; omega
  · simp [vec_put_ok_iff]; omega

theorem marker_put_ok_iff (v v' : List (List (List Bool))) (d : Dir) (c : Cell) (b : Bool) :
    marker_put v d c b = .ok v' ↔
      0 ≤ c._row ∧ 0 ≤ c._col ∧ ∃ plane row, v[d]? = some plane ∧
        plane[c._row.toNat]? = some row ∧ c._col.toNat < row.length ∧
        v' = v.set d (plane.set c._row.toNat (row.set c._col.toNat b)) := by
  unfold marker_put
  simp only [bind_ok_iff, vec_at_ok_iff, vec_at_int_ok_iff, vec_put_ok_iff, vec_put_int_ok_iff]
  constructor
  · rintro ⟨plane, h1, row, ⟨h2, h3⟩, row', ⟨h4, h5, rfl⟩, plane', ⟨_, h7, rfl⟩, _, rfl⟩
    exact ⟨h2, h4, plane, row, h1, h3, h5, rfl⟩
  · rintro ⟨h2, h4, plane, row, h1, h3, h5, rfl⟩
    obtain ⟨h6, _⟩ := List.getElem?_eq_some.mp h1
    obtain ⟨h7, _⟩ := List.getElem?_eq_some.mp h3
    exact ⟨plane, h1, row, ⟨h2, h3⟩, _, ⟨h4, h5, rfl⟩, _, ⟨h2, h7, rfl⟩, h6, rfl⟩

/-- Reading a marker right after writing it. -/
theorem marker_at_put_same {v v' : List (List (List Bool))} {d : Dir} {c : Cell} {b : Bool}
    (h : marker_put v d c b = .ok v') : marker_at v' d c = .ok b := by
  rw [marker_put_ok_iff] at h
  obtain ⟨h1, h2, plane, row, h3, h4, h5, rfl⟩ := h
  rw [marker_at_ok_iff]
  obtain ⟨h6, _⟩ := List.getElem?_eq_some.mp h3
  obtain ⟨h7, _⟩ := List.getElem?_eq_some.mp h4
  refine ⟨h1, h2, plane.set c._row.toNat (row.set c._col.toNat b), row.set c._col.toNat b,
    ?_, ?_, ?_⟩
  · rw [List.getElem?_set]; simp [h6]
  · rw [List.getElem?_set]; simp [h7]
  · rw [List.getElem?_set]; simp [h5]

/-- Writing a marker leaves every other marker as it was. -/
theorem marker_at_put_other {v v' : List (List (List Bool))} {d d' : Dir} {c c' : Cell}
    {b : Bool} (h : marker_put v d c b = .ok v') (hne : (c', d') ≠ (c, d)) :
    marker_at v' d' c' = marker_at v d' c' := by
  rw [marker_put_ok_iff] at h
  obtain ⟨h1, h2, plane, row, h3, h4, h5, rfl⟩ := h
  unfold marker_at
  by_cases hd : d = d'
  · subst hd
    obtain ⟨h6, _⟩ := List.getElem?_eq_some.mp h3
    simp only [vec_at, List.getElem?_set, h6, if_true, h3, ok_bind]
    unfold vec_at_int
    by_cases hr0 : c'._row < 0
    · simp [hr0]
    · simp only [hr0, if_false]
      by_cases hr : c._row.toNat = c'._row.toNat
      · obtain ⟨h7, _⟩ := List.getElem?_eq_some.mp h4
        rw [← hr]
        simp only [vec_at, List.getElem?_set, h7, if_true, h4, ok_bind]
        by_cases hc0 : c'._col < 0
        · simp [hc0]
        · simp only [hc0, if_false]
          have hcne : c._col.toNat ≠ c'._col.toNat := by
            intro hc
            apply hne
            have e1 : c._row = c'._row := by omega
            have e2 : c._col = c'._col := by omega
            cases c; cases c'
            simp only at e1 e2
            simp [e1, e2]
          simp [List.getElem?_set, hcne]
      · simp [vec_at, List.getElem?_set, hr]
  · simp [vec_at, List.getElem?_set, hd]

/-- Setting a marker that was unset and clearing it again restores the markers. -/
theorem marker_put_put_back {v v' : List (List (List Bool))} {d : Dir} {c : Cell} {b b' : Bool}
    (h0 : marker_at v d c = .ok b) (h : marker_put v d c b' = .ok v') :
    marker_put v' d c b = .ok v := by
  rw [marker_put_ok_iff] at h
  obtain ⟨h1, h2, plane, row, h3, h4, h5, rfl⟩ := h
  rw [marker_at_ok_iff] at h0
  obtain ⟨_, _, plane', row', h3', h4', h5'⟩ := h0
  rw [h3] at h3'
  cases h3'
  rw [h4] at h4'
  cases h4'
  obtain ⟨h6, _⟩ := List.getElem?_eq_some.mp h3
  obtain ⟨h7, _⟩ := List.getElem?_eq_some.mp h4
  rw [marker_put_ok_iff]
  refine ⟨h1, h2, plane.set c._row.toNat (row.set c._col.toNat b'), row.set c._col.toNat b',
    ?_, ?_, ?_, ?_⟩
  · rw [List.getElem?_set]; simp [h6]
  · rw [List.getElem?_set]; simp [h7]
  · simpa using h5
  · simp only [List.set_set]
    rw [set_same h5', set_same h4, set_same h3]

/-! ## Auxiliary lemmas: `visit` and `unvisit` -/

/-- The key bookkeeping of `visit` and `unvisit`, for a cell holding `ch`: the counter
of the key moves by `delta` from `cnt`, and the number of acquired keys moves when the
counter leaves or reaches zero. -/
theorem visit_keys_ok {G : Grid} {p1 p' : Path} {cell : Cell} {ch : Char}
    (hc : char_at G._grid cell = .ok ch)
    (h : (do
      if ← G.is_key cell then
        let key_idx ← G.get_key_index cell
        let prev_count ← vec_at p1._key_hit_counters key_idx
        let counters ← vec_put p1._key_hit_counters key_idx (prev_count + 1)
        let p := { p1 with _key_hit_counters := counters }
        c_assert (decide (prev_count ≥ 0))
        if prev_count == 0 then
          pure { p with _num_keys_acquired := p._num_keys_acquired + 1 }
        else pure p
      else pure p1 : Res Path) = .ok p') :
    p'._path_vec = p1._path_vec ∧ p'._visited_directional = p1._visited_directional ∧
      (if Grid.is_key_char ch = true then
          ∃ cnt, p1._key_hit_counters[ch.toNat - 'a'.toNat]? = some cnt ∧ 0 ≤ cnt ∧
            p'._key_hit_counters = p1._key_hit_counters.set (ch.toNat - 'a'.toNat) (cnt + 1) ∧
            p'._num_keys_acquired = p1._num_keys_acquired + (if cnt = 0 then 1 else 0)
        else p'._key_hit_counters = p1._key_hit_counters ∧
          p'._num_keys_acquired = p1._num_keys_acquired) := by
  simp only [Grid.is_key, Grid.get_key_index, Grid.get_char, hc, ok_bind, pure_eq_ok] at h
  by_cases hk : Grid.is_key_char ch = true
  · simp only [hk, if_true, Grid.get_key_index_char, c_assert_true, ok_bind, bind_ok_iff,
      vec_at_ok_iff, vec_put_ok_iff, pure_eq_ok, Except.ok.injEq, exists_eq_left'] at h
    obtain ⟨cnt, h1, cs, ⟨_, rfl⟩, _, h3, h4⟩ := h
    rw [c_assert_ok_iff] at h3
    simp only [decide_eq_true_eq] at h3
    simp only [hk, if_true]
    by_cases h0 : cnt = 0
    · simp only [h0, beq_self_eq_true, if_true, Except.ok.injEq] at h4
      subst h4
      simp only [h0] at h1
      exact ⟨rfl, rfl, 0, h1, le_refl _, by simp, by simp⟩
    · have h0' : (cnt == 0) = false := by simpa using h0
      simp only [h0', Bool.false_eq_true, if_false, Except.ok.injEq] at h4
      subst h4
      exact ⟨rfl, rfl, cnt, h1, h3, rfl, by simp [h0]⟩
  · have hk' : Grid.is_key_char ch = false := by simpa using hk
    simp only [hk', Bool.false_eq_true, if_false, Except.ok.injEq] at h
    subst h
    simp [hk']

/-- What a successful `visit` has checked and done. -/
theorem visit_ok {G : Grid} {p p' : Path} {cell : Cell} {dir : Dir}
    (h : p.visit G cell dir = .ok p') :
    ∃ ch, char_at G._grid cell = .ok ch ∧
      p'._path_vec = p._path_vec ++ [(cell, dir)] ∧
      (if dir = kDirMax then p'._visited_directional = p._visited_directional
        else marker_at p._visited_directional dir cell = .ok false ∧
          marker_put p._visited_directional dir cell true = .ok p'._visited_directional) ∧
      (if Grid.is_key_char ch = true then
          ∃ cnt, p._key_hit_counters[ch.toNat - 'a'.toNat]? = some cnt ∧ 0 ≤ cnt ∧
            p'._key_hit_counters = p._key_hit_counters.set (ch.toNat - 'a'.toNat) (cnt + 1) ∧
            p'._num_keys_acquired = p._num_keys_acquired + (if cnt = 0 then 1 else 0)
        else p'._key_hit_counters = p._key_hit_counters ∧
          p'._num_keys_acquired = p._num_keys_acquired) := by
  unfold Path.visit at h
  simp only [] at h
  rw [bind_ok_iff] at h
  obtain ⟨p1, h1, h2⟩ := h
  cases hc : char_at G._grid cell with
  | error e =>
    simp [Grid.is_key, Grid.get_char, hc] at h2
  | ok ch =>
    refine ⟨ch, rfl, ?_⟩
    obtain ⟨e1, e2, e3⟩ := visit_keys_ok hc h2
    by_cases hd : dir = kDirMax
    · have hd' : (dir != kDirMax) = false := by simpa using hd
      simp only [hd', Bool.false_eq_true, if_false, pure_eq_ok, Except.ok.injEq] at h1
      subst h1
      rw [if_pos hd]
      exact ⟨e1, e2, e3⟩
    · have hd' : (dir != kDirMax) = true := by simpa using hd
      simp only [hd', if_true, bind_ok_iff, pure_eq_ok, Except.ok.injEq] at h1
      obtain ⟨b, hb, _, hb', v, hv, rfl⟩ := h1
      rw [c_assert_ok_iff] at hb'
      simp only [beq_iff_eq] at hb'
      subst hb'
      rw [if_neg hd]
      exact ⟨e1, ⟨hb, by rw [e2]; exact hv⟩, e3⟩
/-- `unvisit` right after a successful `visit` succeeds and restores the path in every
field. -/
theorem unvisit_visit {G : Grid} {p p' : Path} {cell : Cell} {dir : Dir}
    (h : p.visit G cell dir = .ok p') : p'.unvisit G = .ok p := by
  obtain ⟨ch, hc, h1, h2, h3⟩ := visit_ok h
  obtain ⟨pv, vis, cnts, acq⟩ := p
  obtain ⟨pv', vis', cnts', acq'⟩ := p'
  simp only at h1 h2 h3
  subst h1
  unfold Path.unvisit
  have hne : (pv ++ [(cell, dir)]).isEmpty = false := by
    cases pv <;> rfl
  simp only [hne, Bool.not_false,
    c_assert_true, ok_bind, List.getLast?_concat, List.dropLast_concat, Grid.is_key,
    Grid.get_key_index, Grid.get_char, hc, pure_eq_ok]
  have hm : (if (dir != kDirMax) = true then do
        c_assert ((← marker_at vis' dir cell) == true)
        let v ← marker_put vis' dir cell false
        pure ({ _path_vec := pv, _visited_directional := v, _key_hit_counters := cnts',
                _num_keys_acquired := acq' } : Path)
      else pure { _path_vec := pv, _visited_directional := vis', _key_hit_counters := cnts',
                  _num_keys_acquired := acq' } : Res Path) =
      .ok { _path_vec := pv, _visited_directional := vis, _key_hit_counters := cnts',
            _num_keys_acquired := acq' } := by
    by_cases hd : dir = kDirMax
    · rw [if_pos hd] at h2
      subst h2
      simp [hd]
    · rw [if_neg hd] at h2
      have hd' : (dir != kDirMax) = true := by simpa using hd
      simp [hd', marker_at_put_same h2.2, marker_put_put_back h2.1 h2.2]
  simp only [pure_eq_ok] at hm
  rw [hm]
  simp only [ok_bind]
  by_cases hk : Grid.is_key_char ch = true
  · rw [if_pos hk] at h3
    obtain ⟨cnt, g1, g2, g3, g4⟩ := h3
    subst g3 g4
    obtain ⟨g5, _⟩ := List.getElem?_eq_some.mp g1
    have e1 : ('a'.toNat) = 97 := rfl
    simp only [e1] at g1 g5 ⊢
    have g6 : decide (cnt + 1 > 0) = true := by
      simp only [gt_iff_lt, decide_eq_true_eq]; omega
    simp only [hk, if_true, Grid.get_key_index_char, c_assert_true, ok_bind, pure_eq_ok, vec_at,
      List.getElem?_set_self g5, vec_put, List.length_set, g5, List.set_set, add_sub_cancel_right,
      set_same g1, g6, e1]
    by_cases h0 : cnt = 0
    · subst h0
      simp
    · have : (cnt + 1 == 1) = false := by
        simp only [beq_eq_false_iff_ne, ne_eq]; omega
      simp [this, h0]
  · have hk' : Grid.is_key_char ch = false := by simpa using hk
    rw [if_neg hk] at h3
    obtain ⟨g1, g2⟩ := h3
    subst g1 g2
    simp [hk']

/-- `visit` on a cell that holds no key, entered without a direction, only extends the
move history. -/
theorem visit_start {G : Grid} {p : Path} {cell : Cell} {ch : Char}
    (hc : char_at G._grid cell = .ok ch) (hk : Grid.is_key_char ch = false) :
    p.visit G cell kDirMax = .ok { p with _path_vec := p._path_vec ++ [(cell, kDirMax)] } := by
  unfold Path.visit
  simp [Grid.is_key, Grid.get_char, hc, hk]

/-! ## C4: a grid without keys -/

/-- C4: on every matrix the constructor of `Grid` accepts and that holds no key letter,
`shortestPathAllKeys` (called on a fresh `Solution`) returns 0. -/
theorem no_keys_returns_zero (m : List (List Char)) (hacc : accepts m = true)
    (hk : ∀ ch ∈ m.flatten, Grid.is_key_char ch = false) :
    ({} : Solution).shortestPathAllKeys m = .ok 0 := by
  obtain ⟨G, hG⟩ := (accepts_iff m).mp hacc
  have hA := ctor_accepted hG
  have hkeys : G._num_keys = 0 := by
    rw [hA.num_keys_eq]
    unfold num_key_cells
    have : m.flatten.countP Grid.is_key_char = 0 := by
      rw [List.countP_eq_zero]
      intro k hk'
      simp [hk k hk']
    simp [this]
  have hstart : char_at G._grid G.get_start_cell = .ok '@' := by
    rw [hA.grid_eq]; exact hA.start_char
  have hv := visit_start (p := Path.ctor G) hstart (by decide)
  have hcomp : Path.complete G { Path.ctor G with
      _path_vec := (Path.ctor G)._path_vec ++ [(G.get_start_cell, kDirMax)] } = true := by
    simp [Path.complete, Path.ctor, Grid.num_keys, hkeys]
  have hrec : Solution.recurse_visit_next_cell (depth_budget G) G {} (Path.ctor G)
      G.get_start_cell kDirMax =
      .ok ({ _best_solution := some { Path.ctor G with
        _path_vec := (Path.ctor G)._path_vec ++ [(G.get_start_cell, kDirMax)] } },
        Path.ctor G) := by
    unfold depth_budget
    rw [Solution.recurse_visit_next_cell, hv]
    simp only [ok_bind]
    rw [Solution.perform_this_visit, if_pos hcomp]
    simp only [pure_eq_ok, ok_bind]
    rw [unvisit_visit hv]
    rfl
  unfold Solution.shortestPathAllKeys
  rw [hG]
  simp only [ok_bind]
  rw [hrec]
  simp [Path.num_steps, Path.ctor]

/-- Witness of `no_keys_returns_zero`: the matrix `"@."` over `".#"`. -/
theorem no_keys_returns_zero_witness :
    ({} : Solution).shortestPathAllKeys ["@.".toList, ".#".toList] = .ok 0 :=
  no_keys_returns_zero _ (by decide) (by decide)


/-! ## Auxiliary lemmas: the search -/

theorem examine_unfold (recurse : Grid → Solution → Path → Cell → Dir → Search)
    (G : Grid) (sol : Solution) (p : Path) (child : Cell) (dir : Dir) :
    Solution.examine_child recurse G sol p child dir =
      (p.visited child dir >>= fun b1 =>
        if b1 = true then .ok (sol, p) else
        G.is_wall child >>= fun b2 =>
        if b2 = true then .ok (sol, p) else
        G.is_lock child >>= fun b3 =>
        if b3 = true then
          p.key_was_acquired_for_lock G child >>= fun b4 =>
          if b4 = true then recurse G sol p child dir else .ok (sol, p)
        else recurse G sol p child dir) := by
  unfold Solution.examine_child
  cases h1 : p.visited child dir with
  | error e => simp
  | ok b1 =>
    cases b1
    · cases h2 : G.is_wall child with
      | error e => simp
      | ok b2 =>
        cases b2
        · cases h3 : G.is_lock child with
          | error e => simp
          | ok b3 =>
            cases b3
            · simp
            · cases h4 : p.key_was_acquired_for_lock G child with
              | error e => simp
              | ok b4 => cases b4 <;> simp
        · simp
    · simp

theorem SearchSpec.same (G : Grid) (p : Path) (sol : Solution) :
    SearchSpec G p (fun _ => False) sol sol where
  sound := Or.inl rfl
  mono := fun b hb => ⟨b, hb, le_refl _⟩
  finds := fun _ hf _ => absurd hf id

theorem SearchSpec.weaken {G : Grid} {p : Path} {f f' : Option (Cell × Dir) → Prop}
    {sol sol' : Solution} (h : SearchSpec G p f sol sol') (hf : ∀ x, f' x → f x) :
    SearchSpec G p f' sol sol' where
  sound := h.sound
  mono := h.mono
  finds := fun moves hm he => h.finds moves (hf _ hm) he

theorem SearchSpec.seq {G : Grid} {p : Path} {f1 f2 : Option (Cell × Dir) → Prop}
    {sol sol1 sol2 : Solution} (h1 : SearchSpec G p f1 sol sol1)
    (h2 : SearchSpec G p f2 sol1 sol2) :
    SearchSpec G p (fun x => f1 x ∨ f2 x) sol sol2 where
  sound := by
    rcases h2.sound with e2 | ⟨q, hq, hr, hc⟩
    · rcases h1.sound with e1 | ⟨q, hq, hr, hc⟩
      · exact Or.inl (e2.trans e1)
      · exact Or.inr ⟨q, e2.trans hq, hr, hc⟩
    · exact Or.inr ⟨q, hq, hr, hc⟩
  mono := by
    intro b hb
    obtain ⟨b1, hb1, hle1⟩ := h1.mono b hb
    obtain ⟨b2, hb2, hle2⟩ := h2.mono b1 hb1
    exact ⟨b2, hb2, le_trans hle2 hle1⟩
  finds := by
    intro moves hm he
    rcases hm with hm | hm
    · obtain ⟨b1, hb1, hle1⟩ := h1.finds moves hm he
      obtain ⟨b2, hb2, hle2⟩ := h2.mono b1 hb1
      exact ⟨b2, hb2, le_trans hle2 hle1⟩
    · exact h2.finds moves hm he

theorem visit_num_steps {G : Grid} {p q : Path} {c : Cell} {d : Dir}
    (h : p.visit G c d = .ok q) : q.num_steps = p.num_steps + 1 := by
  obtain ⟨_, _, h1, _⟩ := visit_ok h
  simp [Path.num_steps, h1]

theorem visit_current {G : Grid} {p q : Path} {c : Cell} {d : Dir}
    (h : p.visit G c d = .ok q) : q.current = some c := by
  obtain ⟨_, _, h1, _⟩ := visit_ok h
  simp [Path.current, h1]

/-- `examine_child` meets `SearchSpec` for the moves that begin with its child. -/
theorem examine_spec {recurse : Grid → Solution → Path → Cell → Dir → Search} {G : Grid}
    (hrec : RecursionSpec G recurse) {sol sol' : Solution} {p p' : Path} {child : Cell}
    {dir : Dir} (hinc : p.complete G = false) (hd : dir < kDirMax)
    (hnb : ∃ parent, p.current = some parent ∧
      NeighbourIter.deref G { _cell := parent, _dir := dir } = .ok child)
    (hv : child.is_valid = true)
    (h : Solution.examine_child recurse G sol p child dir = .ok (sol', p')) :
    p' = p ∧ SearchSpec G p (fun x => x = some (child, dir)) sol sol' := by
  have hturned : ∀ (P : Admits G p child dir → False), (sol', p') = (sol, p) →
      p' = p ∧ SearchSpec G p (fun x => x = some (child, dir)) sol sol' := by
    intro P he
    simp only [Prod.mk.injEq] at he
    obtain ⟨rfl, rfl⟩ := he
    refine ⟨rfl, (SearchSpec.same G p' sol').sound, (SearchSpec.same G p' sol').mono, ?_⟩
    intro moves hm he
    cases moves with
    | nil => simp at hm
    | cons x rest =>
      simp only [List.head?_cons, Option.some.injEq] at hm
      subst hm
      exact absurd he.1 P
  have hcall : recurse G sol p child dir = .ok (sol', p') →
      G.is_lock child = .ok false ∨
        (G.is_lock child = .ok true ∧ p.key_was_acquired_for_lock G child = .ok true) →
      p.visited child dir = .ok false → G.is_wall child = .ok false →
      p' = p ∧ SearchSpec G p (fun x => x = some (child, dir)) sol sol' := by
    intro hr hl hvis hw
    obtain ⟨rfl, p1, hp1, hs⟩ := hrec _ _ _ _ _ _ hr
    have hstep : Step G p' p1 := ⟨child, dir, ⟨hinc, hd, hnb, hv, hvis, hw, hl, hp1⟩⟩
    refine ⟨rfl, ?_, hs.mono, ?_⟩
    · rcases hs.sound with e | ⟨q, hq, hr, hc⟩
      · exact Or.inl e
      · exact Or.inr ⟨q, hq, Relation.ReflTransGen.head hstep hr, hc⟩
    · intro moves hm he
      cases moves with
      | nil => simp at hm
      | cons x rest =>
        simp only [List.head?_cons, Option.some.injEq] at hm
        subst hm
        obtain ⟨b', hb', hle⟩ := hs.finds rest trivial (he.2 p1 hp1)
        refine ⟨b', hb', ?_⟩
        rw [visit_num_steps hp1] at hle
        simp only [List.length_cons, Nat.cast_add, Nat.cast_one]
        omega
  rw [examine_unfold, bind_ok_iff] at h
  obtain ⟨b1, h1, h⟩ := h
  cases b1 with
  | true =>
    simp only [if_true, Except.ok.injEq] at h
    exact hturned (fun a => by simpa using a.unvisited true h1) h.symm
  | false =>
    simp only [Bool.false_eq_true, if_false] at h
    rw [bind_ok_iff] at h
    obtain ⟨b2, h2, h⟩ := h
    cases b2 with
    | true =>
      simp only [if_true, Except.ok.injEq] at h
      exact hturned (fun a => by simpa using a.no_wall true h2) h.symm
    | false =>
      simp only [Bool.false_eq_true, if_false] at h
      rw [bind_ok_iff] at h
      obtain ⟨b3, h3, h⟩ := h
      cases b3 with
      | false =>
        simp only [Bool.false_eq_true, if_false] at h
        exact hcall h (Or.inl h3) h1 h2
      | true =>
        simp only [if_true] at h
        rw [bind_ok_iff] at h
        obtain ⟨b4, h4, h⟩ := h
        cases b4 with
        | false =>
          simp only [Bool.false_eq_true, if_false, Except.ok.injEq] at h
          exact hturned (fun a => by simpa using a.unlocked false h3 h4) h.symm
        | true =>
          simp only [if_true] at h
          exact hcall h (Or.inr ⟨h3, h4⟩) h1 h2

theorem SearchSpec.weaken_explored {G : Grid} {p : Path} {f f' : Option (Cell × Dir) → Prop}
    {sol sol' : Solution} (h : SearchSpec G p f sol sol')
    (hf : ∀ moves, f' moves.head? → Explores G p moves → f moves.head?) :
    SearchSpec G p f' sol sol' where
  sound := h.sound
  mono := h.mono
  finds := fun moves hm he => h.finds moves (hf moves hm he) he

theorem deref_real_dir {G : Grid} {parent c : Cell} {d : Dir}
    (h : NeighbourIter.deref G { _cell := parent, _dir := d } = .ok c) : d < kDirMax := by
  unfold kDirMax Dir at *
  by_contra hge
  obtain ⟨k, rfl⟩ : ∃ k, d = k + 4 := ⟨d - 4, by omega⟩
  simp [NeighbourIter.deref] at h

/-- The loop over the neighbours meets `SearchSpec` for the moves that begin in one of
the directions still to come. -/
theorem loop_spec {recurse : Grid → Solution → Path → Cell → Dir → Search} {G : Grid}
    (hrec : RecursionSpec G recurse) {p : Path} {parent : Cell}
    (hcur : p.current = some parent) (hinc : p.complete G = false) :
    ∀ (n : Nat) (d0 : Dir) (sol sol' : Solution) (p' : Path),
      Solution.neighbour_loop recurse G (end_neighbour G parent) n
        { _cell := parent, _dir := d0 } sol p = .ok (sol', p') →
      p' = p ∧ SearchSpec G p (fun x => ∃ c d, x = some (c, d) ∧ d0 ≤ d) sol sol' := by
  intro n
  induction n with
  | zero =>
    intro d0 sol sol' p' h
    simp [Solution.neighbour_loop] at h
  | succ n ih =>
    intro d0 sol sol' p' h
    unfold Solution.neighbour_loop at h
    by_cases hd : d0 = kDirMax
    · have hne : NeighbourIter.ne { _cell := parent, _dir := d0 } (end_neighbour G parent) =
          false := by
        simp [NeighbourIter.ne, end_neighbour, hd]
      simp only [hne, Bool.false_eq_true, if_false, pure_eq_ok, Except.ok.injEq,
        Prod.mk.injEq] at h
      obtain ⟨rfl, rfl⟩ := h
      refine ⟨rfl, SearchSpec.weaken_explored (SearchSpec.same G p _) ?_⟩
      rintro moves ⟨c, d, hm, hle⟩ he
      cases moves with
      | nil => simp at hm
      | cons x rest =>
        simp only [List.head?_cons, Option.some.injEq] at hm
        subst hm
        have := he.1.real_dir
        unfold kDirMax Dir at *
        omega
    · have hne : NeighbourIter.ne { _cell := parent, _dir := d0 } (end_neighbour G parent) =
          true := by
        simp [NeighbourIter.ne, end_neighbour, hd]
      simp only [hne, if_true] at h
      rw [bind_ok_iff] at h
      obtain ⟨child, hchild, h⟩ := h
      rw [bind_ok_iff] at h
      obtain ⟨⟨sol1, p1⟩, h1, h⟩ := h
      have hfirst : ∀ moves : List (Cell × Dir),
          (∃ c d, moves.head? = some (c, d) ∧ d0 ≤ d) → Explores G p moves →
          (moves.head? = some (child, d0) ∧ child.is_valid = true) ∨
            ∃ c d, moves.head? = some (c, d) ∧ d0 + 1 ≤ d := by
        rintro moves ⟨c, d, hm, hle⟩ he
        cases moves with
        | nil => simp at hm
        | cons x rest =>
          simp only [List.head?_cons, Option.some.injEq] at hm
          subst hm
          by_cases hdd : d = d0
          · subst hdd
            left
            obtain ⟨parent', hp', hderef⟩ := he.1.neighbour
            rw [hcur] at hp'
            simp only [Option.some.injEq] at hp'
            subst hp'
            rw [hchild] at hderef
            simp only [Except.ok.injEq] at hderef
            subst hderef
            exact ⟨rfl, he.1.valid⟩
          · right
            refine ⟨c, d, rfl, ?_⟩
            unfold Dir at *
            omega
      cases hvalid : child.is_valid with
      | true =>
        simp only [hvalid, if_true] at h1
        have hd' : d0 < kDirMax := deref_real_dir hchild
        obtain ⟨rfl, hs1⟩ := examine_spec hrec hinc hd' ⟨parent, hcur, hchild⟩ hvalid h1
        obtain ⟨rfl, hs2⟩ := ih (d0 + 1) sol1 sol' p' h
        refine ⟨rfl, (hs1.seq hs2).weaken_explored ?_⟩
        intro moves hm he
        rcases hfirst moves hm he with ⟨h3, _⟩ | h3
        · exact Or.inl h3
        · exact Or.inr h3
      | false =>
        simp only [hvalid, Bool.false_eq_true, if_false, pure_eq_ok, Except.ok.injEq,
          Prod.mk.injEq] at h1
        obtain ⟨rfl, rfl⟩ := h1
        obtain ⟨rfl, hs2⟩ := ih (d0 + 1) sol sol' p' h
        refine ⟨rfl, hs2.weaken_explored ?_⟩
        intro moves hm he
        rcases hfirst moves hm he with ⟨_, h3⟩ | h3
        · rw [hvalid] at h3
          exact absurd h3 (by simp)
        · exact h3

/-- `perform_this_visit` meets `SearchSpec` for all moves. -/
theorem perform_spec {recurse : Grid → Solution → Path → Cell → Dir → Search} {G : Grid}
    (hrec : RecursionSpec G recurse) {sol sol' : Solution} {p p' : Path} {parent : Cell}
    (hcur : p.current = some parent)
    (h : Solution.perform_this_visit recurse G sol p parent = .ok (sol', p')) :
    p' = p ∧ SearchSpec G p (fun _ => True) sol sol' := by
  unfold Solution.perform_this_visit at h
  cases hc : p.complete G with
  | true =>
    simp only [hc, if_true] at h
    have hnone : ∀ moves : List (Cell × Dir), Explores G p moves → moves = [] := by
      intro moves he
      cases moves with
      | nil => rfl
      | cons x rest =>
        have := he.1.incomplete
        rw [hc] at this
        exact absurd this (by simp)
    cases hb : sol._best_solution with
    | none =>
      simp only [hb, pure_eq_ok, Except.ok.injEq, Prod.mk.injEq] at h
      obtain ⟨rfl, rfl⟩ := h
      refine ⟨rfl, Or.inr ⟨p, rfl, Relation.ReflTransGen.refl, hc⟩, ?_, ?_⟩
      · intro b hb'
        rw [hb] at hb'
        exact absurd hb' (by simp)
      · intro moves _ he
        rw [hnone moves he]
        exact ⟨p, rfl, by simp⟩
    | some best =>
      simp only [hb] at h
      cases hlt : p.lt best with
      | true =>
        simp only [hlt, if_true, pure_eq_ok, Except.ok.injEq, Prod.mk.injEq] at h
        obtain ⟨rfl, rfl⟩ := h
        have hlt' : p.num_steps < best.num_steps := by simpa [Path.lt] using hlt
        refine ⟨rfl, Or.inr ⟨p, rfl, Relation.ReflTransGen.refl, hc⟩, ?_, ?_⟩
        · intro b hb'
          rw [hb] at hb'
          simp only [Option.some.injEq] at hb'
          subst hb'
          exact ⟨p, rfl, le_of_lt hlt'⟩
        · intro moves _ he
          rw [hnone moves he]
          exact ⟨p, rfl, by simp⟩
      | false =>
        simp only [hlt, Bool.false_eq_true, if_false, pure_eq_ok, Except.ok.injEq,
          Prod.mk.injEq] at h
        obtain ⟨rfl, rfl⟩ := h
        have hlt' : ¬ p.num_steps < best.num_steps := by simpa [Path.lt] using hlt
        refine ⟨rfl, Or.inl rfl, fun b hb' => ⟨b, hb', le_refl _⟩, ?_⟩
        intro moves _ he
        rw [hnone moves he]
        exact ⟨best, hb, by simp only [List.length_nil, Nat.cast_zero, add_zero]; omega⟩
  | false =>
    simp only [hc, Bool.false_eq_true, if_false] at h
    obtain ⟨rfl, hs⟩ := loop_spec hrec hcur hc _ _ _ _ _ h
    refine ⟨rfl, hs.weaken_explored ?_⟩
    intro moves _ he
    cases moves with
    | nil =>
      have : p'.complete G = true := he
      rw [hc] at this
      exact absurd this (by simp)
    | cons x rest =>
      exact ⟨x.1, x.2, rfl, Nat.zero_le _⟩

/-- `recurse_visit_next_cell` meets `RecursionSpec` whatever its nesting budget. -/
theorem recurse_spec (G : Grid) :
    ∀ n, RecursionSpec G (fun G' => Solution.recurse_visit_next_cell n G') := by
  intro n
  induction n with
  | zero =>
    intro sol p cell dir sol' p' h
    simp [Solution.recurse_visit_next_cell] at h
  | succ n ih =>
    intro sol p cell dir sol' p' h
    simp only [Solution.recurse_visit_next_cell] at h
    rw [bind_ok_iff] at h
    obtain ⟨p1, hp1, h⟩ := h
    rw [bind_ok_iff] at h
    obtain ⟨⟨sol1, p2⟩, hperf, h⟩ := h
    rw [bind_ok_iff] at h
    obtain ⟨p3, hun, h⟩ := h
    simp only [pure_eq_ok, Except.ok.injEq, Prod.mk.injEq] at h
    obtain ⟨rfl, rfl⟩ := h
    obtain ⟨rfl, hs⟩ := perform_spec ih (visit_current hp1) hperf
    have := unvisit_visit hp1
    rw [hun] at this
    simp only [Except.ok.injEq] at this
    exact ⟨this, p2, hp1, hs⟩

/-! ## Auxiliary lemmas: paths mirror traversals -/

theorem may_enter_mono {m : List (List Char)} {seen seen' : List Cell} {c : Cell}
    (hsub : ∀ k ∈ seen, k ∈ seen') (h : may_enter m seen c) : may_enter m seen' c := by
  unfold may_enter at *
  split at h
  · rename_i ch hch
    obtain ⟨h1, h2⟩ := h
    exact ⟨h1, fun hl => by obtain ⟨k, hk, hk'⟩ := h2 hl; exact ⟨k, hsub k hk, hk'⟩⟩
  · exact h

theorem legal_moves_snoc (m : List (List Char)) (x : Cell) :
    ∀ (rest seen : List Cell) (cur : Cell),
      legal_moves m seen cur (rest ++ [x]) ↔
        legal_moves m seen cur rest ∧
          orthogonal_move ((cur :: rest).getLast (List.cons_ne_nil _ _)) x ∧
          may_enter m ((cur :: rest).reverse ++ seen) x := by
  intro rest
  induction rest with
  | nil =>
    intro seen cur
    simp [legal_moves]
  | cons y rest ih =>
    intro seen cur
    have hL : legal_moves m seen cur (y :: (rest ++ [x])) ↔
        orthogonal_move cur y ∧ may_enter m (cur :: seen) y ∧
          legal_moves m (cur :: seen) y (rest ++ [x]) := Iff.rfl
    have hR : legal_moves m seen cur (y :: rest) ↔
        orthogonal_move cur y ∧ may_enter m (cur :: seen) y ∧
          legal_moves m (cur :: seen) y rest := Iff.rfl
    have e1 : (cur :: y :: rest).getLast (List.cons_ne_nil _ _) =
        (y :: rest).getLast (List.cons_ne_nil _ _) := by
      simp [List.getLast_cons]
    have e2 : (cur :: y :: rest).reverse ++ seen = (y :: rest).reverse ++ cur :: seen := by
      simp
    rw [List.cons_append, hL, hR, ih (cur :: seen) y, e1, e2]
    constructor
    · rintro ⟨h1, h2, h3, h4, h5⟩
      exact ⟨⟨h1, h2, h3⟩, h4, h5⟩
    · rintro ⟨⟨h1, h2, h3⟩, h4, h5⟩
      exact ⟨h1, h2, h3, h4, h5⟩

theorem countP_set {α : Type} (P : α → Bool) :
    ∀ (l : List α) (i : Nat) (a v : α), l[i]? = some a →
      (l.set i v).countP P + (if P a then 1 else 0) = l.countP P + (if P v then 1 else 0) := by
  intro l
  induction l with
  | nil => intro i a v h; simp at h
  | cons x xs ih =>
    intro i a v h
    cases i with
    | zero =>
      simp only [List.getElem?_cons_zero, Option.some.injEq] at h
      subst h
      simp only [List.set_cons_zero, List.countP_cons]
      omega
    | succ i =>
      simp only [List.getElem?_cons_succ] at h
      simp only [List.set_cons_succ, List.countP_cons]
      have := ih i a v h
      omega

theorem deref_orthogonal {G : Grid} {parent c : Cell} {d : Dir}
    (h : NeighbourIter.deref G { _cell := parent, _dir := d } = .ok c)
    (hv : c.is_valid = true) : orthogonal_move parent c := by
  have hd := deref_real_dir h
  unfold kDirMax Dir at *
  unfold NeighbourIter.deref at h
  simp only [Cell.is_valid, decide_eq_true_eq] at hv
  unfold orthogonal_move
  interval_cases d <;> simp only [pure_eq_ok] at h <;> split_ifs at h <;>
    simp only [Except.ok.injEq] at h <;> subst h <;> simp at hv ⊢

theorem lower_of_index {l k : Char} (hl : Grid.is_lock_char l = true)
    (hk : Grid.is_key_char k = true) (h : k.toNat - 'a'.toNat = l.toNat - 'A'.toNat) :
    k = l.toLower := by
  have b1 := is_lock_char_bounds hl
  have b2 := is_key_char_bounds hk
  have e1 : 'a'.toNat = 97 := rfl
  have e2 : 'A'.toNat = 65 := rfl
  rw [e1, e2] at h
  have e3 : k.toNat = l.toNat + 32 := by omega
  unfold Char.toLower
  simp only [ge_iff_le, b1.1, b1.2, and_self, if_true]
  rw [← e3, Char.ofNat_toNat]

theorem holds_key_eq {m : List (List Char)} {c : Cell} {ch : Char}
    (hc : char_at m c = .ok ch) (i : Nat) :
    holds_key m i c = (Grid.is_key_char ch && (ch.toNat - 'a'.toNat == i)) := by
  simp [holds_key, holds, hc]

theorem cells_getLast {p : Path} {parent : Cell} (h : p.current = some parent) :
    p.cells.getLast? = some parent := by
  unfold Path.current at h
  unfold Path.cells
  rw [List.getLast?_map]
  exact h

/-- The path after the first `visit`, of the start cell, mirrors the empty traversal. -/
theorem pathInv_initial {m : List (List Char)} {G : Grid} (hA : Accepted m G) {p1 : Path}
    (h : (Path.ctor G).visit G G._start kDirMax = .ok p1) : PathInv G p1 := by
  have hstart : char_at G._grid G._start = .ok '@' := by
    rw [hA.grid_eq]; exact hA.start_char
  rw [visit_start hstart (by decide)] at h
  simp only [Except.ok.injEq] at h
  subst h
  refine ⟨by simp [Path.ctor], by simp [Path.ctor, Path.cells, legal_moves], by
    simp [Path.ctor, Grid.num_keys], ?_, ?_⟩
  · intro i cnt hi
    simp only [Path.ctor, List.getElem?_replicate] at hi
    split_ifs at hi
    simp only [Option.some.injEq] at hi
    subst hi
    have e : Grid.is_key_char '@' = false := by decide
    simp [Path.ctor, Path.cells, holds_key_eq hstart, e]
  · simp only [Path.ctor, List.countP_replicate]
    simp

/-- A `visit` of a cell that the traversal so far may enter by an orthogonal move keeps
`PathInv`. -/
theorem pathInv_visit {G : Grid} {p q : Path} {c parent : Cell} {d : Dir}
    (hvisit : p.visit G c d = .ok q) (hcur : p.current = some parent)
    (horth : orthogonal_move parent c) (henter : may_enter G._grid p.cells.reverse c)
    (hp : PathInv G p) : PathInv G q := by
  obtain ⟨ch, hc, h1, _, h3⟩ := visit_ok hvisit
  have hcells : q.cells = p.cells ++ [c] := by simp [Path.cells, h1]
  obtain ⟨tail, htail⟩ : ∃ tail, p.cells = G._start :: tail := by
    have := hp.head
    unfold Path.cells
    cases hpv : p._path_vec with
    | nil => rw [hpv] at this; simp at this
    | cons x xs =>
      rw [hpv] at this
      simp only [List.head?_cons, Option.some.injEq] at this
      subst this
      exact ⟨xs.map Prod.fst, rfl⟩
  have hlast : (G._start :: tail).getLast (List.cons_ne_nil _ _) = parent := by
    have := cells_getLast hcur
    rw [htail, List.getLast?_eq_getLast _ (List.cons_ne_nil _ _)] at this
    simpa using this
  have hlen : q._key_hit_counters.length = p._key_hit_counters.length := by
    split_ifs at h3 with hk
    · obtain ⟨cnt, _, _, h4, _⟩ := h3
      rw [h4, List.length_set]
    · rw [h3.1]
  refine ⟨?_, ?_, by rw [hlen]; exact hp.counters_len, ?_, ?_⟩
  · rw [h1]
    have := hp.head
    cases hpv : p._path_vec with
    | nil => rw [hpv] at this; simp at this
    | cons x xs => rw [hpv] at this; simpa using this
  · rw [hcells, htail, List.cons_append, List.tail_cons, legal_moves_snoc]
    have hl := hp.legal
    rw [htail, List.tail_cons] at hl
    refine ⟨hl, ?_, ?_⟩
    · rw [hlast]
      exact horth
    · rw [List.append_nil, ← htail]
      exact henter
  · intro i cnt' hi
    rw [hcells, List.countP_append, List.countP_singleton, holds_key_eq hc]
    split_ifs at h3 with hk
    · obtain ⟨cnt, g1, _, g3, _⟩ := h3
      rw [g3, List.getElem?_set] at hi
      by_cases hik : ch.toNat - 'a'.toNat = i
      · obtain ⟨g5, _⟩ := List.getElem?_eq_some.mp g1
        simp only [hik] at hi g5
        simp only [if_true, g5, Option.some.injEq] at hi
        subst hi
        rw [hk, hik]
        simp only [Bool.true_and, beq_self_eq_true, if_true, Nat.cast_add, Nat.cast_one]
        rw [hik] at g1
        rw [hp.counters _ _ g1]
      · simp only [hik, if_false] at hi
        have : (ch.toNat - 'a'.toNat == i) = false := by simpa using hik
        rw [this]
        simp only [Bool.and_false, Bool.false_eq_true, if_false, add_zero]
        exact hp.counters _ _ hi
    · have hk' : Grid.is_key_char ch = false := by simpa using hk
      rw [h3.1] at hi
      rw [hk']
      simp only [Bool.false_and, Bool.false_eq_true, if_false, add_zero]
      exact hp.counters _ _ hi
  · split_ifs at h3 with hk
    · obtain ⟨cnt, g1, g2, g3, g4⟩ := h3
      rw [g4, g3, hp.acquired]
      have := countP_set (fun cnt : Int => decide (0 < cnt)) _ _ cnt (cnt + 1) g1
      simp only [decide_eq_true_eq] at this
      split_ifs at this ⊢ <;> omega
    · rw [h3.2, h3.1]
      exact hp.acquired

/-- The filters of `examine_child` let pass only cells the traversal may enter. -/
theorem descent_may_enter {G : Grid} {p q : Path} {c : Cell} {d : Dir}
    (hd : Descent G p c d q) (hp : PathInv G p) : may_enter G._grid p.cells.reverse c := by
  obtain ⟨ch, hc, _⟩ := visit_ok hd.visit
  unfold may_enter
  rw [hc]
  simp only
  constructor
  · have := hd.no_wall
    simp only [Grid.is_wall, Grid.get_char, hc, ok_bind, pure_eq_ok, Except.ok.injEq,
      beq_eq_false_iff_ne, ne_eq] at this
    exact this
  · intro hlock
    rcases hd.unlocked with hu | ⟨_, hu⟩
    · simp [Grid.is_lock, Grid.get_char, hc, hlock] at hu
    · unfold Path.key_was_acquired_for_lock at hu
      simp only [Grid.is_lock, Grid.get_lock_index, Grid.get_char, hc, ok_bind, pure_eq_ok,
        hlock, c_assert_true, Grid.get_lock_index_char, bind_ok_iff, vec_at_ok_iff,
        Except.ok.injEq, decide_eq_true_eq] at hu
      obtain ⟨cnt, hcnt, hpos⟩ := hu
      have hcount := hp.counters _ _ hcnt
      rw [hcount] at hpos
      have hpos' : 0 < p.cells.countP (holds_key G._grid (ch.toNat - 'A'.toNat)) := by
        exact_mod_cast hpos
      obtain ⟨k, hk, hk'⟩ := List.countP_pos_iff.mp hpos'
      refine ⟨k, List.mem_reverse.mpr hk, ?_⟩
      unfold holds_key holds at hk'
      cases hkc : char_at G._grid k with
      | error e => simp [hkc] at hk'
      | ok ch' =>
        simp only [hkc, Bool.and_eq_true, beq_iff_eq] at hk'
        rw [lower_of_index hlock hk'.1 hk'.2]

/-- A descent of the search keeps `PathInv`. -/
theorem pathInv_step {G : Grid} {p q : Path} {c : Cell} {d : Dir}
    (hd : Descent G p c d q) (hp : PathInv G p) : PathInv G q := by
  obtain ⟨parent, hcur, hderef⟩ := hd.neighbour
  exact pathInv_visit hd.visit hcur (deref_orthogonal hderef hd.valid)
    (descent_may_enter hd hp) hp

theorem pathInv_reach {G : Grid} {p q : Path} (hr : Reach G p q) (hp : PathInv G p) :
    PathInv G q := by
  induction hr with
  | refl => exact hp
  | tail _ hstep ih =>
    obtain ⟨c, d, hd⟩ := hstep
    exact pathInv_step hd ih

/-- A complete path that mirrors a traversal has entered every key cell of an accepted
grid. -/
theorem complete_collects {m : List (List Char)} {G : Grid} (hA : Accepted m G) {q : Path}
    (hq : PathInv G q) (hc : q.complete G = true) : collects_all_keys m q.cells.tail := by
  have hgrid := hA.grid_eq
  have hK : G._num_keys = ((G._num_keys.toNat : Nat) : Int) := by
    rw [Int.toNat_of_nonneg]
    rw [hA.keys_eq]
    exact Int.natCast_nonneg _
  have hall : q._key_hit_counters.countP (fun cnt => decide (0 < cnt)) =
      q._key_hit_counters.length := by
    have h1 : q._num_keys_acquired = G._num_keys := by
      simpa [Path.complete, Grid.num_keys] using hc
    rw [hq.acquired, hK, ← hq.counters_len] at h1
    exact_mod_cast h1
  rw [List.countP_eq_length] at hall
  have hex : ∀ i, ∃ c, i < G._num_keys.toNat → c ∈ q.cells ∧ holds_key m i c = true := by
    intro i
    by_cases hi : i < G._num_keys.toNat
    · rw [← hq.counters_len] at hi
      have hmem := List.getElem_mem hi
      have hpos := hall _ hmem
      simp only [decide_eq_true_eq] at hpos
      rw [hq.counters i _ (List.getElem?_eq_getElem hi)] at hpos
      have hpos' : 0 < q.cells.countP (holds_key G._grid i) := by exact_mod_cast hpos
      obtain ⟨c, hc1, hc2⟩ := List.countP_pos_iff.mp hpos'
      rw [hgrid] at hc2
      exact ⟨c, fun _ => ⟨hc1, hc2⟩⟩
    · exact ⟨G._start, fun h => absurd h hi⟩
  choose g hg using hex
  let S := (all_cells G._num_rows G._num_cols).filter (holds m Grid.is_key_char)
  have hSn : S.Nodup := (all_cells_nodup _ _).filter _
  have hSl : S.length = G._num_keys.toNat := by
    have := hA.keys_eq
    rw [List.countP_eq_length_filter] at this
    show ((all_cells G._num_rows G._num_cols).filter (holds m Grid.is_key_char)).length = _
    omega
  have hkey : ∀ i c, holds_key m i c = true →
      ∃ ch, char_at m c = .ok ch ∧ Grid.is_key_char ch = true ∧ ch.toNat - 'a'.toNat = i := by
    intro i c h
    unfold holds_key holds at h
    cases hcc : char_at m c with
    | error e => simp [hcc] at h
    | ok ch =>
      simp only [hcc, Bool.and_eq_true, beq_iff_eq] at h
      exact ⟨ch, rfl, h.1, h.2⟩
  have hsub : (Finset.range G._num_keys.toNat).image g ⊆ S.toFinset := by
    intro c hc'
    rw [Finset.mem_image] at hc'
    obtain ⟨i, hi, rfl⟩ := hc'
    rw [Finset.mem_range] at hi
    obtain ⟨ch, h1, h2, _⟩ := hkey i _ (hg i hi).2
    rw [List.mem_toFinset, List.mem_filter]
    exact ⟨hA.mem_cells h1, by simp [holds, h1, h2]⟩
  have hinj : Set.InjOn g (Finset.range G._num_keys.toNat : Set Nat) := by
    intro i hi j hj hij
    simp only [Finset.coe_range, Set.mem_Iio] at hi hj
    obtain ⟨ch, h1, _, h3⟩ := hkey i _ (hg i hi).2
    obtain ⟨ch', h1', _, h3'⟩ := hkey j _ (hg j hj).2
    rw [hij, h1'] at h1
    simp only [Except.ok.injEq] at h1
    subst h1
    omega
  have hcard : S.toFinset.card ≤ ((Finset.range G._num_keys.toNat).image g).card := by
    rw [Finset.card_image_of_injOn hinj, Finset.card_range, List.toFinset_card_of_nodup hSn,
      hSl]
  have heq := Finset.eq_of_subset_of_card_le hsub hcard
  intro c ch hcc hk
  have hcS : c ∈ S.toFinset := by
    rw [List.mem_toFinset, List.mem_filter]
    exact ⟨hA.mem_cells hcc, by simp [holds, hcc, hk]⟩
  rw [← heq, Finset.mem_image] at hcS
  obtain ⟨i, hi, rfl⟩ := hcS
  rw [Finset.mem_range] at hi
  have hmem := (hg i hi).1
  have hhead := hq.head
  unfold Path.cells at hmem ⊢
  cases hpv : q._path_vec with
  | nil => rw [hpv] at hhead; simp at hhead
  | cons x xs =>
    rw [hpv] at hhead hmem
    simp only [List.head?_cons, Option.some.injEq] at hhead
    subst hhead
    simp only [List.map_cons, List.mem_cons, List.tail_cons] at hmem ⊢
    rcases hmem with h | h
    · rw [h, hA.start_char] at hcc
      simp only [Except.ok.injEq] at hcc
      subst hcc
      exact absurd hk (by decide)
    · exact h

/-- What a returned integer says about the run of `shortestPathAllKeys`. -/
theorem shortest_unfold {m : List (List Char)} {n : Int}
    (h : ({} : Solution).shortestPathAllKeys m = .ok n) :
    ∃ G p1 sol', Grid.ctor m = .ok G ∧ (Path.ctor G).visit G G._start kDirMax = .ok p1 ∧
      SearchSpec G p1 (fun _ => True) {} sol' ∧
      n = match sol'._best_solution with
        | none => -1
        | some best => best.num_steps - 1 := by
  unfold Solution.shortestPathAllKeys at h
  rw [bind_ok_iff] at h
  obtain ⟨G, hG, h⟩ := h
  rw [bind_ok_iff] at h
  obtain ⟨⟨sol', p'⟩, hrec, h⟩ := h
  obtain ⟨_, p1, hp1, hs⟩ := recurse_spec G _ _ _ _ _ _ _ hrec
  refine ⟨G, p1, sol', hG, hp1, hs, ?_⟩
  simp only at h
  cases hb : sol'._best_solution with
  | none => rw [hb] at h; simpa using h.symm
  | some b => rw [hb] at h; simpa using h.symm

/-! ## C1: soundness of a non-negative answer -/

/-- Soundness of a run in which every access to `_key_hit_counters` lies inside the
vector: if `shortestPathAllKeys` (called on a fresh `Solution`) returns an integer
`n ≥ 0` for a matrix, which the constructor of `Grid` has then accepted, there is a
sequence of exactly `n` cells, entered one after the other from the cell of `@` by
orthogonal single-cell moves, that stays inside the matrix, never enters `#`, enters a
lock letter only after a cell holding the matching lowercase letter, and enters every
cell that holds a key letter. -/
theorem shortest_path_sound (m : List (List Char)) (n : Int)
    (h : ({} : Solution).shortestPathAllKeys m = .ok n) (hn : 0 ≤ n) :
    accepts m = true ∧
      ∃ start moves, legal_traversal m start moves ∧ collects_all_keys m moves ∧
        (moves.length : Int) = n := by
  obtain ⟨G, p1, sol', hG, hp1, hs, hres⟩ := shortest_unfold h
  have hA := ctor_accepted hG
  refine ⟨(accepts_iff m).mpr ⟨G, hG⟩, ?_⟩
  rcases hs.sound with hnone | ⟨q, hq, hreach, hcomp⟩
  · rw [hnone] at hres
    simp only at hres
    omega
  · rw [hq] at hres
    simp only at hres
    have hinv := pathInv_reach hreach (pathInv_initial hA hp1)
    refine ⟨G._start, q.cells.tail, ⟨hA.start_char, ?_⟩, complete_collects hA hinv hcomp, ?_⟩
    · have := hinv.legal
      rwa [hA.grid_eq] at this
    · rw [hres]
      have hhead := hinv.head
      unfold Path.num_steps Path.cells
      cases hpv : q._path_vec with
      | nil => rw [hpv] at hhead; simp at hhead
      | cons x xs => simp

theorem char_at_one_row {row : List Char} {c : Cell} {ch : Char}
    (h : char_at [row] c = .ok ch) :
    c._row = 0 ∧ 0 ≤ c._col ∧ row[c._col.toNat]? = some ch := by
  rw [char_at_ok_iff] at h
  obtain ⟨h1, h2, row', hr, hc⟩ := h
  obtain ⟨hlt, hrow⟩ := List.getElem?_eq_some.mp hr
  simp only [List.length_singleton, Nat.lt_one_iff] at hlt
  simp only [hlt, List.getElem_cons_zero] at hrow
  subst hrow
  exact ⟨by omega, h2, hc⟩

/-- On `"@Ba"` no legal traversal enters the cell of the key: the only cell next to the
start holds the lock letter `B`, and no cell holds `b`. -/
theorem no_traversal_through_lock :
    ¬ ∃ start moves, legal_traversal ["@Ba".toList] start moves ∧
      collects_all_keys ["@Ba".toList] moves := by
  rintro ⟨start, moves, ⟨hs, hl⟩, hall⟩
  have hkey : ({ _row := 0, _col := 2 } : Cell) ∈ moves :=
    hall { _row := 0, _col := 2 } 'a' (by decide) (by decide)
  obtain ⟨hs0, hs1, hs2⟩ := char_at_one_row hs
  have hscol : start._col = 0 := by
    obtain ⟨hlt, _⟩ := List.getElem?_eq_some.mp hs2
    have hlen : "@Ba".toList.length = 3 := rfl
    rw [hlen] at hlt
    obtain ⟨k, hk⟩ : ∃ k, start._col.toNat = k := ⟨_, rfl⟩
    have hk3 : k < 3 := by omega
    rw [hk] at hs2
    interval_cases k
    · omega
    · exact absurd hs2 (by decide)
    · exact absurd hs2 (by decide)
  cases moves with
  | nil => simp at hkey
  | cons x rest =>
    obtain ⟨horth, hmay, _⟩ := hl
    unfold may_enter at hmay
    cases hx : char_at ["@Ba".toList] x with
    | error e => rw [hx] at hmay; exact hmay
    | ok ch =>
      rw [hx] at hmay
      simp only at hmay
      obtain ⟨hx0, hx1, hx2⟩ := char_at_one_row hx
      have hxcol : x._col = 1 := by
        unfold orthogonal_move at horth
        omega
      have hx3 : x._col.toNat = 1 := by omega
      rw [hx3] at hx2
      have hch : ch = 'B' := by
        have e : "@Ba".toList[1]? = some 'B' := rfl
        rw [e] at hx2
        simpa using hx2.symm
      obtain ⟨k, hk, hkc⟩ := hmay.2 (by rw [hch]; decide)
      simp only [List.mem_singleton] at hk
      subst hk
      rw [hs, hch] at hkc
      exact absurd hkc (by decide)

set_option maxRecDepth 100000 in
/-- C1 in the code, at the matrix `"@Ba"`, which the constructor of `Grid` accepts.  The
only cell next to the start holds the lock letter `B`; to tell whether it may be entered,
`key_was_acquired_for_lock` reads `_key_hit_counters[1]` of a vector of size
`num_keys() = 1`: the word after its buffer.  With the word 1 there it returns true and
`shortestPathAllKeys` returns 2, although no legal traversal, of any number of moves,
enters the cell of the key; with the word 0 it returns false and `shortestPathAllKeys`
returns -1; when the index is checked the run ends at the access. -/
theorem answer_decided_outside_vector :
    accepts ["@Ba".toList] = true ∧
    (do
      let G ← Grid.ctor ["@Ba".toList]
      let p1 ← (Path.ctor_mem G [1]).visit G G.get_start_cell kDirMax
      let p0 ← (Path.ctor_mem G [0]).visit G G.get_start_cell kDirMax
      pure (G.num_keys, G.get_lock_index { _row := 0, _col := 1 },
        p1.key_was_acquired_for_lock G { _row := 0, _col := 1 },
        p0.key_was_acquired_for_lock G { _row := 0, _col := 1 })) =
      (.ok (1, .ok 1, .ok true, .ok false) : Res (Int × Res Nat × Res Bool × Res Bool)) ∧
    ({} : Solution).shortestPathAllKeys_mem [1] ["@Ba".toList] = .ok 2 ∧
    (¬ ∃ start moves, legal_traversal ["@Ba".toList] start moves ∧
      collects_all_keys ["@Ba".toList] moves) ∧
    ({} : Solution).shortestPathAllKeys_mem [0] ["@Ba".toList] = .ok (-1) ∧
    ({} : Solution).shortestPathAllKeys ["@Ba".toList] = .error .out_of_range :=
  ⟨by decide, by decide, by decide, no_traversal_through_lock, by decide, by decide⟩

/-! ## Auxiliary lemmas: traversals that the search follows -/

theorem char_at_bounds {m : List (List Char)} {G : Grid} (hA : Accepted m G) {c : Cell}
    {ch : Char} (h : char_at m c = .ok ch) :
    0 ≤ c._row ∧ c._row < G._num_rows ∧ 0 ≤ c._col ∧ c._col < G._num_cols :=
  mem_all_cells.mp (hA.mem_cells h)

theorem deref_dir_of {G : Grid} {a b : Cell} (horth : orthogonal_move a b)
    (hb : 0 ≤ b._row ∧ b._row < G._num_rows ∧ 0 ≤ b._col ∧ b._col < G._num_cols) :
    NeighbourIter.deref G { _cell := a, _dir := dir_of a b } = .ok b ∧
      dir_of a b < kDirMax ∧ b.is_valid = true := by
  obtain ⟨a1, a2⟩ := a
  obtain ⟨b1, b2⟩ := b
  simp only [orthogonal_move] at horth
  simp only at hb
  obtain ⟨h1, h2, h3, h4⟩ := hb
  have hvalid : Cell.is_valid { _row := b1, _col := b2 } = true := by
    simpa [Cell.is_valid] using h1
  by_cases c1 : b1 = a1 - 1
  · have hd : dir_of { _row := a1, _col := a2 } { _row := b1, _col := b2 } = 0 := by
      unfold dir_of
      simp only
      rw [if_pos c1]
    rw [hd]
    refine ⟨?_, by decide, hvalid⟩
    have e1 : ¬ (a1 - 1 < 0) := by omega
    have e2 : b2 = a2 := by omega
    simp [NeighbourIter.deref, e1, c1, e2]
  · by_cases c2 : b1 = a1 + 1
    · have hd : dir_of { _row := a1, _col := a2 } { _row := b1, _col := b2 } = 1 := by
        unfold dir_of
        simp only
        rw [if_neg c1, if_pos c2]
      rw [hd]
      refine ⟨?_, by decide, hvalid⟩
      have e1 : ¬ (a1 + 1 ≥ G._num_rows) := by omega
      have e2 : b2 = a2 := by omega
      simp only [NeighbourIter.deref, Grid.num_rows, if_neg e1, pure_eq_ok, c2, e2]
    · by_cases c3 : b2 = a2 - 1
      · have hd : dir_of { _row := a1, _col := a2 } { _row := b1, _col := b2 } = 2 := by
          unfold dir_of
          simp only
          rw [if_neg c1, if_neg c2, if_pos c3]
        rw [hd]
        refine ⟨?_, by decide, hvalid⟩
        have e1 : ¬ (a2 - 1 < 0) := by omega
        have e2 : b1 = a1 := by omega
        simp only [NeighbourIter.deref, if_neg e1, pure_eq_ok, c3, e2]
      · have hd : dir_of { _row := a1, _col := a2 } { _row := b1, _col := b2 } = 3 := by
          unfold dir_of
          simp only
          rw [if_neg c1, if_neg c2, if_neg c3]
        rw [hd]
        refine ⟨?_, by decide, hvalid⟩
        have e0 : b2 = a2 + 1 := by omega
        have e1 : ¬ (a2 + 1 ≥ G._num_cols) := by omega
        have e2 : b1 = a1 := by omega
        simp only [NeighbourIter.deref, Grid.num_cols, if_neg e1, pure_eq_ok, e0, e2]

theorem deref_parent {G : Grid} {a a' c : Cell} {d : Dir}
    (h : NeighbourIter.deref G { _cell := a, _dir := d } = .ok c)
    (h' : NeighbourIter.deref G { _cell := a', _dir := d } = .ok c)
    (hv : c.is_valid = true) : a = a' := by
  have hd := deref_real_dir h
  obtain ⟨a1, a2⟩ := a
  obtain ⟨b1, b2⟩ := a'
  obtain ⟨c1, c2⟩ := c
  unfold kDirMax Dir at *
  unfold NeighbourIter.deref at h h'
  simp only [Cell.is_valid, decide_eq_true_eq] at hv
  interval_cases d <;> simp only [pure_eq_ok] at h h' <;> split_ifs at h h' <;>
    simp only [Except.ok.injEq, Cell.mk.injEq] at h h' ⊢ <;> omega

theorem markInv_initial {m : List (List Char)} {G : Grid} (hA : Accepted m G) {p1 : Path}
    (h : (Path.ctor G).visit G G._start kDirMax = .ok p1) : MarkInv G p1 := by
  have hstart : char_at G._grid G._start = .ok '@' := by
    rw [hA.grid_eq]; exact hA.start_char
  rw [visit_start hstart (by decide)] at h
  simp only [Except.ok.injEq] at h
  subst h
  refine ⟨?_, by simp [Path.ctor], ?_⟩
  · intro d c b hb
    rw [marker_at_ok_iff] at hb
    obtain ⟨_, _, plane, row, h1, h2, h3⟩ := hb
    simp only [Path.ctor, build_2d_vector, List.getElem?_replicate] at h1
    split_ifs at h1 with hd
    simp only [Option.some.injEq] at h1
    subst h1
    simp only [List.getElem?_replicate] at h2
    split_ifs at h2
    simp only [Option.some.injEq] at h2
    subst h2
    simp only [List.getElem?_replicate] at h3
    split_ifs at h3
    simp only [Option.some.injEq] at h3
    subst h3
    simp only [Bool.false_eq_true, Path.ctor, List.nil_append, List.mem_singleton,
      Prod.mk.injEq, false_iff, not_and]
    intro _ hd'
    unfold kDirMax Dir at *
    omega
  · intro c hc ch hch hk
    simp only [Path.ctor, Path.cells, List.nil_append, List.map_cons, List.map_nil,
      List.mem_singleton] at hc
    subst hc
    rw [hstart] at hch
    simp only [Except.ok.injEq] at hch
    subst hch
    exact absurd hk (by decide)

theorem markInv_visit {G : Grid} {p q : Path} {c parent : Cell} {d : Dir}
    (hvisit : p.visit G c d = .ok q) (hd : d < kDirMax) (hcur : p.current = some parent)
    (hderef : NeighbourIter.deref G { _cell := parent, _dir := d } = .ok c)
    (hvalid : c.is_valid = true) (hm : MarkInv G p) : MarkInv G q := by
  obtain ⟨ch, hc, h1, h2, h3⟩ := visit_ok hvisit
  have hdne : d ≠ kDirMax := by
    unfold kDirMax Dir at *
    omega
  rw [if_neg hdne] at h2
  have hlen : q._key_hit_counters.length = p._key_hit_counters.length := by
    split_ifs at h3 with hk
    · obtain ⟨cnt, _, _, h4, _⟩ := h3
      rw [h4, List.length_set]
    · rw [h3.1]
  refine ⟨?_, ?_, ?_⟩
  · intro d' c' b hb
    rw [h1]
    by_cases heq : (c', d') = (c, d)
    · simp only [Prod.mk.injEq] at heq
      obtain ⟨rfl, rfl⟩ := heq
      rw [marker_at_put_same h2.2] at hb
      simp only [Except.ok.injEq] at hb
      subst hb
      simp
    · rw [marker_at_put_other h2.2 heq] at hb
      rw [hm.marks d' c' b hb, List.mem_append, List.mem_singleton]
      constructor
      · exact Or.inl
      · rintro (h | h)
        · exact h
        · exact absurd h heq
  · rw [h1, List.chain'_append]
    refine ⟨hm.chain, List.chain'_singleton _, ?_⟩
    intro x hx y hy
    simp only [List.head?_cons, Option.mem_def, Option.some.injEq] at hy
    subst hy
    simp only [Option.mem_def] at hx
    unfold Path.current at hcur
    rw [hx] at hcur
    simp only [Option.map_some', Option.some.injEq] at hcur
    rw [hcur]
    exact ⟨hderef, hvalid⟩
  · intro c' hc' ch' hch' hk'
    rw [hlen]
    have hcells : q.cells = p.cells ++ [c] := by simp [Path.cells, h1]
    rw [hcells, List.mem_append, List.mem_singleton] at hc'
    rcases hc' with h | rfl
    · exact hm.keys_in_range c' h ch' hch' hk'
    · rw [hc] at hch'
      simp only [Except.ok.injEq] at hch'
      subst hch'
      rw [if_pos hk'] at h3
      obtain ⟨cnt, g1, _⟩ := h3
      exact (List.getElem?_eq_some.mp g1).1

theorem char_of_toNat_eq {a b : Char} (h : a.toNat = b.toNat) : a = b := by
  rw [← Char.ofNat_toNat a, ← Char.ofNat_toNat b, h]

/-- In a matrix with distinct key letters, no two key cells hold the same letter. -/
theorem key_cells_inj {m : List (List Char)} {G : Grid} (hA : Accepted m G)
    (hkeys : distinct_keys m) {c c' : Cell} {ch : Char} (hc : char_at m c = .ok ch)
    (hc' : char_at m c' = .ok ch) (hk : Grid.is_key_char ch = true) : c = c' := by
  let P : Res Char → Bool := fun r => match r with
    | .ok ch => Grid.is_key_char ch
    | .error _ => false
  have hP : holds m Grid.is_key_char = P ∘ char_at m := by
    funext x
    simp only [holds, Function.comp, P]
  have h1 : ((all_cells G._num_rows G._num_cols).filter (holds m Grid.is_key_char)).map
      (char_at m) = (m.flatten.filter Grid.is_key_char).map Except.ok := by
    rw [hP, ← List.filter_map, hA.cells_eq, all_cells_chars m hA.rect, List.filter_map]
    rfl
  have h2 : (((all_cells G._num_rows G._num_cols).filter (holds m Grid.is_key_char)).map
      (char_at m)).Nodup := by
    rw [h1]
    apply List.Nodup.map _ hkeys
    intro a b hab
    simpa using hab
  have h3 := List.inj_on_of_nodup_map h2
  have m1 : c ∈ (all_cells G._num_rows G._num_cols).filter (holds m Grid.is_key_char) := by
    rw [List.mem_filter]
    exact ⟨hA.mem_cells hc, by simp [holds, hc, hk]⟩
  have m2 : c' ∈ (all_cells G._num_rows G._num_cols).filter (holds m Grid.is_key_char) := by
    rw [List.mem_filter]
    exact ⟨hA.mem_cells hc', by simp [holds, hc', hk]⟩
  exact h3 m1 m2 (hc.trans hc'.symm)

/-- A path that mirrors a traversal through all key cells of a matrix with distinct key
letters is complete. -/
theorem complete_of_collects {m : List (List Char)} {G : Grid} (hA : Accepted m G)
    (hkeys : distinct_keys m) {p : Path} (hp : PathInv G p) (hm : MarkInv G p)
    (hall : ∀ c ch, char_at m c = .ok ch → Grid.is_key_char ch = true → c ∈ p.cells) :
    p.complete G = true := by
  have hgrid := hA.grid_eq
  let S := (all_cells G._num_rows G._num_cols).filter (holds m Grid.is_key_char)
  have hSn : S.Nodup := (all_cells_nodup _ _).filter _
  have hSl : S.length = G._num_keys.toNat := by
    have := hA.keys_eq
    rw [List.countP_eq_length_filter] at this
    show ((all_cells G._num_rows G._num_cols).filter (holds m Grid.is_key_char)).length = _
    omega
  have hSmem : ∀ c, c ∈ S ↔ ∃ ch, char_at m c = .ok ch ∧ Grid.is_key_char ch = true := by
    intro c
    show c ∈ (all_cells G._num_rows G._num_cols).filter (holds m Grid.is_key_char) ↔ _
    rw [List.mem_filter]
    constructor
    · rintro ⟨_, h⟩
      unfold holds at h
      cases hcc : char_at m c with
      | error e => simp [hcc] at h
      | ok ch => exact ⟨ch, rfl, by simpa [hcc] using h⟩
    · rintro ⟨ch, h1, h2⟩
      exact ⟨hA.mem_cells h1, by simp [holds, h1, h2]⟩
  let g : Cell → Nat := fun c => match char_at m c with
    | .ok ch => ch.toNat - 'a'.toNat
    | .error _ => 0
  have hg : ∀ c ch, char_at m c = .ok ch → g c = ch.toNat - 'a'.toNat := by
    intro c ch h
    simp only [g, h]
  have hinj : Set.InjOn g (S.toFinset : Set Cell) := by
    intro c hc c' hc' hcc
    simp only [List.coe_toFinset, Set.mem_setOf_eq] at hc hc'
    obtain ⟨ch, h1, h2⟩ := (hSmem c).mp hc
    obtain ⟨ch', h1', h2'⟩ := (hSmem c').mp hc'
    rw [hg c ch h1, hg c' ch' h1'] at hcc
    have b1 := is_key_char_bounds h2
    have b2 := is_key_char_bounds h2'
    have e : 'a'.toNat = 97 := rfl
    rw [e] at hcc
    have : ch = ch' := char_of_toNat_eq (by omega)
    subst this
    exact key_cells_inj hA hkeys h1 h1' h2
  have hsub : S.toFinset.image g ⊆ Finset.range G._num_keys.toNat := by
    intro i hi
    rw [Finset.mem_image] at hi
    obtain ⟨c, hc, rfl⟩ := hi
    rw [List.mem_toFinset] at hc
    obtain ⟨ch, h1, h2⟩ := (hSmem c).mp hc
    rw [Finset.mem_range, hg c ch h1, ← hp.counters_len]
    exact hm.keys_in_range c (hall c ch h1 h2) ch (by rw [hgrid]; exact h1) h2
  have hcard : (Finset.range G._num_keys.toNat).card ≤ (S.toFinset.image g).card := by
    rw [Finset.card_image_of_injOn hinj, Finset.card_range, List.toFinset_card_of_nodup hSn,
      hSl]
  have heq := Finset.eq_of_subset_of_card_le hsub hcard
  have hpos : ∀ x ∈ p._key_hit_counters, decide (0 < x) = true := by
    intro x hx
    obtain ⟨i, hi⟩ := List.mem_iff_getElem?.mp hx
    have hilt : i < G._num_keys.toNat := by
      rw [← hp.counters_len]
      exact (List.getElem?_eq_some.mp hi).1
    have : i ∈ S.toFinset.image g := by
      rw [heq, Finset.mem_range]
      exact hilt
    rw [Finset.mem_image] at this
    obtain ⟨c, hc, hci⟩ := this
    rw [List.mem_toFinset] at hc
    obtain ⟨ch, h1, h2⟩ := (hSmem c).mp hc
    rw [hg c ch h1] at hci
    rw [hp.counters i x hi]
    simp only [Nat.cast_pos, decide_eq_true_eq]
    rw [List.countP_pos_iff]
    refine ⟨c, hall c ch h1 h2, ?_⟩
    rw [hgrid, holds_key_eq h1, h2, hci]
    simp
  have hcount := (List.countP_eq_length (p := fun cnt : Int => decide (0 < cnt))).mpr hpos
  have hK : G._num_keys = ((G._num_keys.toNat : Nat) : Int) := by
    rw [Int.toNat_of_nonneg]
    rw [hA.keys_eq]
    exact Int.natCast_nonneg _
  unfold Path.complete Grid.num_keys
  rw [hp.acquired, hcount, hp.counters_len, ← hK]
  simp

theorem chain_zip {α : Type} {R : α → α → Prop} :
    ∀ l : List α, List.Chain' R l → ∀ y ∈ l.tail, ∃ x, (x, y) ∈ l.zip l.tail ∧ R x y := by
  intro l
  induction l with
  | nil => intro _ y hy; simp at hy
  | cons a l ih =>
    intro hch y hy
    cases l with
    | nil => simp at hy
    | cons b rest =>
      simp only [List.tail_cons, List.mem_cons] at hy
      rw [List.chain'_cons] at hch
      rcases hy with rfl | hy
      · exact ⟨a, by simp, hch.1⟩
      · obtain ⟨x, hx, hR⟩ := ih hch.2 y (by simpa using hy)
        refine ⟨x, ?_, hR⟩
        simp only [List.tail_cons, List.zip_cons_cons, List.mem_cons]
        right
        simpa using hx

theorem moves_made_map {α : Type} (f : α → Cell) (l : List α) {x y : α}
    (h : (x, y) ∈ l.zip l.tail) : (f x, f y) ∈ moves_made (l.map f) := by
  unfold moves_made
  rw [← List.map_tail, List.zip_map, List.mem_map]
  exact ⟨(x, y), h, rfl⟩

theorem moves_made_append {l : List Cell} {cur : Cell} (h : l.getLast? = some cur)
    (c : Cell) (r : List Cell) :
    moves_made (l ++ c :: r) = moves_made l ++ (cur, c) :: moves_made (c :: r) := by
  induction l with
  | nil => simp at h
  | cons a l ih =>
    cases l with
    | nil =>
      simp only [List.getLast?_singleton, Option.some.injEq] at h
      subst h
      simp [moves_made]
    | cons b rest =>
      have h' : (b :: rest).getLast? = some cur := by
        rw [List.getLast?_cons_cons] at h
        exact h
      have := ih h'
      unfold moves_made at this ⊢
      simp only [List.cons_append, List.tail_cons, List.zip_cons_cons] at this ⊢
      rw [this]

/-- An entry of the move history in a real direction records a move of the traversal. -/
theorem entry_is_move {G : Grid} {p : Path} (hp : PathInv G p) (hm : MarkInv G p)
    {c cur : Cell} {d : Dir} (hd : d < kDirMax) (hmem : (c, d) ∈ p._path_vec)
    (hderef : NeighbourIter.deref G { _cell := cur, _dir := d } = .ok c) :
    (cur, c) ∈ moves_made p.cells := by
  have hhead := hp.head
  have htail : (c, d) ∈ p._path_vec.tail := by
    cases hpv : p._path_vec with
    | nil => rw [hpv] at hmem; simp at hmem
    | cons x xs =>
      rw [hpv] at hmem hhead
      simp only [List.head?_cons, Option.some.injEq] at hhead
      subst hhead
      simp only [List.mem_cons, Prod.mk.injEq] at hmem
      rcases hmem with ⟨_, h⟩ | h
      · unfold kDirMax Dir at *
        omega
      · simpa using h
  obtain ⟨x, hx, hR, hv⟩ := chain_zip _ hm.chain _ htail
  have := moves_made_map Prod.fst _ hx
  simp only at hR this
  rw [deref_parent hderef hR hv]
  exact this

theorem lower_index {l : Char} (hl : Grid.is_lock_char l = true) :
    Grid.is_key_char l.toLower = true ∧ l.toLower.toNat - 'a'.toNat = l.toNat - 'A'.toNat := by
  have b1 := is_lock_char_bounds hl
  have e : l.toLower = Char.ofNat (l.toNat + 32) := by
    unfold Char.toLower
    simp only [ge_iff_le, b1.1, b1.2, and_self, if_true]
  have hv : (l.toNat + 32).isValidChar := by
    left
    omega
  have e2 : (Char.ofNat (l.toNat + 32)).toNat = l.toNat + 32 := by
    unfold Char.ofNat
    rw [dif_pos hv]
    rfl
  have e3 : 'a'.toNat = 97 := rfl
  have e4 : 'A'.toNat = 65 := rfl
  rw [e, e3, e4]
  constructor
  · simp only [Grid.is_key_char, ge_iff_le, Bool.and_eq_true, decide_eq_true_eq]
    constructor
    · rw [Char.le_def]
      show (97 : Nat) ≤ (Char.ofNat (l.toNat + 32)).toNat
      omega
    · rw [Char.le_def]
      show (Char.ofNat (l.toNat + 32)).toNat ≤ (122 : Nat)
      omega
  · omega

theorem current_of_cells {p : Path} {cur : Cell} {seen : List Cell}
    (h : p.cells.reverse = cur :: seen) : p.current = some cur := by
  have h1 : p.cells.getLast? = some cur := by
    rw [List.getLast?_eq_head?_reverse, h]
    rfl
  unfold Path.cells at h1
  rw [List.getLast?_map] at h1
  exact h1

/-- The search can follow, up to the first complete path, every legal traversal of an
accepted matrix with distinct key letters that enters all key cells and makes no move
twice. -/
theorem follow {m : List (List Char)} {G : Grid} (hA : Accepted m G)
    (hkeys : distinct_keys m) :
    ∀ (rest : List Cell) (p : Path) (seen : List Cell) (cur : Cell),
      PathInv G p → MarkInv G p → p.cells.reverse = cur :: seen →
      legal_moves m seen cur rest → (moves_made (p.cells ++ rest)).Nodup →
      (∀ c ch, char_at m c = .ok ch → Grid.is_key_char ch = true → c ∈ p.cells ++ rest) →
      ∃ moves : List (Cell × Dir), moves.length ≤ rest.length ∧ Explores G p moves := by
  intro rest
  induction rest with
  | nil =>
    intro p seen cur hp hm _ _ _ hall
    refine ⟨[], le_refl _, ?_⟩
    exact complete_of_collects hA hkeys hp hm (by simpa using hall)
  | cons c rest ih =>
    intro p seen cur hp hm hcells hlegal hnodup hall
    by_cases hcomp : p.complete G = true
    · exact ⟨[], Nat.zero_le _, hcomp⟩
    have hcomp' : p.complete G = false := by simpa using hcomp
    obtain ⟨horth, henter, hlegal'⟩ := hlegal
    have hgrid := hA.grid_eq
    have hcur := current_of_cells hcells
    have henter2 := henter
    unfold may_enter at henter
    cases hch : char_at m c with
    | error e => rw [hch] at henter; exact absurd henter id
    | ok ch =>
      rw [hch] at henter
      simp only at henter
      obtain ⟨hnowall, hlock⟩ := henter
      obtain ⟨hderef, hd, hvalid⟩ := deref_dir_of (G := G) horth (char_at_bounds hA hch)
      have hadm : Admits G p c (dir_of cur c) := by
        refine ⟨hcomp', hd, ⟨cur, hcur, hderef⟩, hvalid, ?_, ?_, ?_⟩
        · intro b hb
          cases b with
          | false => rfl
          | true =>
            exfalso
            have hmem := (hm.marks _ _ _ hb).mp rfl
            have hmove := entry_is_move hp hm hd hmem hderef
            have hlast : p.cells.getLast? = some cur := by
              rw [List.getLast?_eq_head?_reverse, hcells]
              rfl
            rw [moves_made_append hlast, List.nodup_append] at hnodup
            exact hnodup.2.2 hmove (List.mem_cons_self _ _)
        · intro b hb
          simp only [Grid.is_wall, Grid.get_char, hgrid, hch, ok_bind, pure_eq_ok,
            Except.ok.injEq] at hb
          rw [← hb]
          simpa using hnowall
        · intro b hl hb
          simp only [Grid.is_lock, Grid.get_char, hgrid, hch, ok_bind, pure_eq_ok,
            Except.ok.injEq] at hl
          unfold Path.key_was_acquired_for_lock at hb
          simp only [Grid.is_lock, Grid.get_lock_index, Grid.get_char, hgrid, hch, ok_bind,
            pure_eq_ok, hl, c_assert_true, Grid.get_lock_index_char, bind_ok_iff, vec_at_ok_iff,
            Except.ok.injEq] at hb
          obtain ⟨cnt, hcnt, hb⟩ := hb
          rw [← hb, hp.counters _ _ hcnt]
          simp only [gt_iff_lt, Nat.cast_pos, decide_eq_true_eq]
          rw [List.countP_pos_iff]
          obtain ⟨k, hk, hkc⟩ := hlock hl
          refine ⟨k, ?_, ?_⟩
          · rw [← List.mem_reverse, hcells]
            exact hk
          · obtain ⟨l1, l2⟩ := lower_index hl
            rw [hgrid, holds_key_eq hkc, l1, l2]
            simp
      cases hv : p.visit G c (dir_of cur c) with
      | error e =>
        refine ⟨[(c, dir_of cur c)], by simp, hadm, ?_⟩
        intro q hq
        rw [hv] at hq
        exact absurd hq (by simp)
      | ok q =>
        obtain ⟨_, _, h1, _⟩ := visit_ok hv
        have hqcells : q.cells = p.cells ++ [c] := by simp [Path.cells, h1]
        have hpq : PathInv G q :=
          pathInv_visit hv hcur horth (by rw [hgrid, hcells]; exact henter2) hp
        have hmq : MarkInv G q := markInv_visit hv hd hcur hderef hvalid hm
        have hlist : q.cells ++ rest = p.cells ++ c :: rest := by
          rw [hqcells, List.append_assoc]
          rfl
        obtain ⟨moves, hlen, hexp⟩ := ih q (cur :: seen) c hpq hmq
          (by rw [hqcells, List.reverse_append, hcells]; rfl) hlegal'
          (by rw [hlist]; exact hnodup) (by rw [hlist]; exact hall)
        refine ⟨(c, dir_of cur c) :: moves, by simp only [List.length_cons]; omega, hadm, ?_⟩
        intro q' hq'
        rw [hv] at hq'
        simp only [Except.ok.injEq] at hq'
        subst hq'
        exact hexp

/-- The answer of `shortestPathAllKeys` on a matrix with distinct key letters is at most
the number of moves of every legal traversal that enters all key cells and makes no move
twice. -/
theorem answer_le_simple_traversal {m : List (List Char)} {n : Int}
    (h : ({} : Solution).shortestPathAllKeys m = .ok n) (hkeys : distinct_keys m)
    {start : Cell} {moves : List Cell} (hlegal : legal_traversal m start moves)
    (hall : collects_all_keys m moves) (hsimple : no_move_twice start moves) :
    0 ≤ n ∧ n ≤ (moves.length : Int) := by
  obtain ⟨G, p1, sol', hG, hp1, hs, hres⟩ := shortest_unfold h
  have hA := ctor_accepted hG
  have hstart : start = G._start := hA.start_unique hlegal.1
  subst hstart
  have hp := pathInv_initial hA hp1
  have hm := markInv_initial hA hp1
  have hgs : char_at G._grid G._start = .ok '@' := by rw [hA.grid_eq]; exact hA.start_char
  rw [visit_start hgs (by decide)] at hp1
  simp only [Except.ok.injEq] at hp1
  have hcells : p1.cells = [G._start] := by
    rw [← hp1]
    simp [Path.cells, Path.ctor]
  obtain ⟨mv, hlen, hexp⟩ := follow hA hkeys moves p1 [] G._start hp hm
    (by rw [hcells]; rfl) hlegal.2 (by rw [hcells]; exact hsimple)
    (by
      intro c ch hc hk
      rw [hcells]
      exact List.mem_cons_of_mem _ (hall c ch hc hk))
  obtain ⟨b', hb', hle⟩ := hs.finds mv trivial hexp
  rw [hb'] at hres
  simp only at hres
  have hsteps : p1.num_steps = 1 := by
    rw [← hp1]
    simp [Path.num_steps, Path.ctor]
  have hb0 : 1 ≤ b'.num_steps := by
    rcases hs.sound with hnone | ⟨q, hq, hreach, _⟩
    · rw [hb'] at hnone
      simp at hnone
    · rw [hb'] at hq
      simp only [Option.some.injEq] at hq
      subst hq
      have := (pathInv_reach hreach hp).head
      unfold Path.num_steps
      cases hpv : b'._path_vec with
      | nil => rw [hpv] at this; simp at this
      | cons x xs => simp
  rw [hsteps] at hle
  have hlen' : (mv.length : Int) ≤ (moves.length : Int) := by exact_mod_cast hlen
  omega

theorem mem_cells_of_rect {m : List (List Char)} {C : Nat} (hrect : rectangular m C)
    {c : Cell} {ch : Char} (hc : char_at m c = .ok ch) :
    c ∈ all_cells (m.length : Int) (C : Int) := by
  rw [mem_all_cells]
  rw [char_at_ok_iff] at hc
  obtain ⟨h1, h2, row, h3, h4⟩ := hc
  obtain ⟨h5, _⟩ := List.getElem?_eq_some.mp h3
  obtain ⟨h7, _⟩ := List.getElem?_eq_some.mp h4
  have h8 : row.length = C := hrect row (List.getElem?_mem h3)
  rw [h8] at h7
  have e1 : ((c._row.toNat : Nat) : Int) = c._row := Int.toNat_of_nonneg h1
  have e2 : ((c._col.toNat : Nat) : Int) = c._col := Int.toNat_of_nonneg h2
  refine ⟨h1, ?_, h2, ?_⟩
  · rw [← e1]; exact_mod_cast h5
  · rw [← e2]; exact_mod_cast h7

/-- A way to check `collects_all_keys` on a rectangle cell by cell. -/
theorem collects_of_cells {m : List (List Char)} {C : Nat} (hrect : rectangular m C)
    {moves : List Cell}
    (h : ∀ c ∈ all_cells (m.length : Int) (C : Int),
      holds m Grid.is_key_char c = true → c ∈ moves) :
    collects_all_keys m moves := by
  intro c ch hc hk
  exact h c (mem_cells_of_rect hrect hc) (by simp [holds, hc, hk])

/-! ## Auxiliary lemmas: the nesting budget -/

theorem within_ok {α : Type} (a : α) : within_budget (Except.ok a : Res α) := by
  simp [within_budget]

theorem within_bind {α β : Type} {x : Res α} {f : α → Res β} (hx : within_budget x)
    (hf : ∀ a, x = .ok a → within_budget (f a)) : within_budget (x >>= f) := by
  cases x with
  | error e => simpa [within_budget] using hx
  | ok a => simpa using hf a rfl

theorem within_assert (b : Bool) : within_budget (c_assert b) := by
  cases b <;> simp [within_budget]

theorem within_vec_at {α : Type} (v : List α) (i : Nat) : within_budget (vec_at v i) := by
  unfold vec_at
  cases v[i]? <;> simp [within_budget]

theorem within_vec_at_int {α : Type} (v : List α) (i : Int) :
    within_budget (vec_at_int v i) := by
  unfold vec_at_int
  split_ifs
  · simp [within_budget]
  · exact within_vec_at _ _

theorem within_vec_put {α : Type} (v : List α) (i : Nat) (x : α) :
    within_budget (vec_put v i x) := by
  unfold vec_put
  split_ifs <;> simp [within_budget]

theorem within_vec_put_int {α : Type} (v : List α) (i : Int) (x : α) :
    within_budget (vec_put_int v i x) := by
  unfold vec_put_int
  split_ifs
  · simp [within_budget]
  · exact within_vec_put _ _ _

theorem within_char_at (m : List (List Char)) (c : Cell) : within_budget (char_at m c) :=
  within_bind (within_vec_at_int _ _) fun _ _ => within_vec_at_int _ _

theorem within_marker_at (v : List (List (List Bool))) (d : Dir) (c : Cell) :
    within_budget (marker_at v d c) :=
  within_bind (within_vec_at _ _) fun _ _ =>
    within_bind (within_vec_at_int _ _) fun _ _ => within_vec_at_int _ _

theorem within_marker_put (v : List (List (List Bool))) (d : Dir) (c : Cell) (b : Bool) :
    within_budget (marker_put v d c b) :=
  within_bind (within_vec_at _ _) fun _ _ =>
    within_bind (within_vec_at_int _ _) fun _ _ =>
      within_bind (within_vec_put_int _ _ _) fun _ _ =>
        within_bind (within_vec_put_int _ _ _) fun _ _ => within_vec_put _ _ _

theorem within_is_wall (G : Grid) (c : Cell) : within_budget (G.is_wall c) :=
  within_bind (within_char_at _ _) fun _ _ => within_ok _

theorem within_is_lock (G : Grid) (c : Cell) : within_budget (G.is_lock c) :=
  within_bind (within_char_at _ _) fun _ _ => within_ok _

theorem within_is_key (G : Grid) (c : Cell) : within_budget (G.is_key c) :=
  within_bind (within_char_at _ _) fun _ _ => within_ok _

theorem within_key_acquired (G : Grid) (p : Path) (c : Cell) :
    within_budget (p.key_was_acquired_for_lock G c) := by
  unfold Path.key_was_acquired_for_lock
  refine within_bind (within_is_lock _ _) fun _ _ => ?_
  refine within_bind (within_assert _) fun _ _ => ?_
  refine within_bind ?_ fun _ _ => ?_
  · exact within_bind (within_char_at _ _) fun _ _ =>
      within_bind (within_assert _) fun _ _ => within_ok _
  · exact within_bind (within_vec_at _ _) fun _ _ => within_ok _

theorem within_deref (G : Grid) (it : NeighbourIter) : within_budget (it.deref G) := by
  unfold NeighbourIter.deref within_budget
  split <;> first | (simp only [pure_eq_ok]; split_ifs <;> simp) | simp

theorem within_ite {α : Type} {c : Prop} [Decidable c] {x y : Res α}
    (hx : within_budget x) (hy : within_budget y) : within_budget (if c then x else y) := by
  split_ifs <;> assumption

theorem within_visit (G : Grid) (p : Path) (c : Cell) (d : Dir) :
    within_budget (p.visit G c d) := by
  unfold Path.visit
  simp only []
  refine within_bind ?_ fun _ _ => ?_
  · refine within_ite ?_ (within_ok _)
    refine within_bind (within_marker_at _ _ _) fun _ _ => ?_
    refine within_bind (within_assert _) fun _ _ => ?_
    exact within_bind (within_marker_put _ _ _ _) fun _ _ => within_ok _
  · refine within_bind (within_is_key _ _) fun _ _ => ?_
    refine within_ite ?_ (within_ok _)
    refine within_bind ?_ fun _ _ => ?_
    · exact within_bind (within_char_at _ _) fun _ _ =>
        within_bind (within_assert _) fun _ _ => within_ok _
    refine within_bind (within_vec_at _ _) fun _ _ => ?_
    refine within_bind (within_vec_put _ _ _) fun _ _ => ?_
    refine within_bind (within_assert _) fun _ _ => ?_
    exact within_ite (within_ok _) (within_ok _)

theorem within_unvisit (G : Grid) (p : Path) : within_budget (p.unvisit G) := by
  unfold Path.unvisit
  refine within_bind (within_assert _) fun _ _ => ?_
  split
  · simp [within_budget]
  · simp only []
    refine within_bind ?_ fun _ _ => ?_
    · refine within_ite ?_ (within_ok _)
      refine within_bind (within_marker_at _ _ _) fun _ _ => ?_
      refine within_bind (within_assert _) fun _ _ => ?_
      exact within_bind (within_marker_put _ _ _ _) fun _ _ => within_ok _
    · refine within_bind (within_is_key _ _) fun _ _ => ?_
      refine within_ite ?_ (within_ok _)
      refine within_bind ?_ fun _ _ => ?_
      · exact within_bind (within_char_at _ _) fun _ _ =>
          within_bind (within_assert _) fun _ _ => within_ok _
      refine within_bind (within_vec_at _ _) fun _ _ => ?_
      refine within_bind (within_vec_put _ _ _) fun _ _ => ?_
      refine within_bind (within_assert _) fun _ _ => ?_
      exact within_ite (within_ok _) (within_ok _)

theorem sum_map_set {α : Type} (f : α → Nat) :
    ∀ (l : List α) (i : Nat) (a b : α), l[i]? = some a →
      ((l.set i b).map f).sum + f a = (l.map f).sum + f b := by
  intro l
  induction l with
  | nil => intro i a b h; simp at h
  | cons x xs ih =>
    intro i a b h
    cases i with
    | zero =>
      simp only [List.getElem?_cons_zero, Option.some.injEq] at h
      subst h
      simp only [List.set_cons_zero, List.map_cons, List.sum_cons]
      omega
    | succ i =>
      simp only [List.getElem?_cons_succ] at h
      simp only [List.set_cons_succ, List.map_cons, List.sum_cons]
      have := ih i a b h
      omega

/-- Setting an unset marker leaves one unset marker less. -/
theorem unset_markers_put {v v' : List (List (List Bool))} {d : Dir} {c : Cell}
    (h0 : marker_at v d c = .ok false) (h : marker_put v d c true = .ok v') :
    unset_markers v' + 1 = unset_markers v := by
  rw [marker_put_ok_iff] at h
  obtain ⟨_, _, plane, row, h3, h4, h5, rfl⟩ := h
  rw [marker_at_ok_iff] at h0
  obtain ⟨_, _, plane', row', h3', h4', h5'⟩ := h0
  rw [h3] at h3'
  cases h3'
  rw [h4] at h4'
  cases h4'
  have e1 : (row.set c._col.toNat true).count false + 1 = row.count false := by
    have := countP_set (fun b : Bool => b == false) row c._col.toNat false true h5'
    simpa [List.count] using this
  have e2 := sum_map_set (fun r : List Bool => r.count false) plane c._row.toNat row
    (row.set c._col.toNat true) h4
  have e3 := sum_map_set (fun pl : List (List Bool) => (pl.map fun r => r.count false).sum) v d
    plane (plane.set c._row.toNat (row.set c._col.toNat true)) h3
  simp only [] at e2 e3
  unfold unset_markers
  omega

theorem unset_markers_initial (G : Grid) :
    unset_markers (Path.ctor G)._visited_directional =
      kDirMax * G.num_rows.toNat * G.num_cols.toNat := by
  simp [unset_markers, Path.ctor, build_2d_vector, List.map_replicate, List.sum_replicate,
    List.count_replicate, mul_assoc]

theorem unset_markers_pos {v : List (List (List Bool))} {d : Dir} {c : Cell}
    (h0 : marker_at v d c = .ok false) : 1 ≤ unset_markers v := by
  have h0' := h0
  rw [marker_at_ok_iff] at h0'
  obtain ⟨h1, h2, plane, row, h3, h4, h5⟩ := h0'
  have hput : marker_put v d c true =
      .ok (v.set d (plane.set c._row.toNat (row.set c._col.toNat true))) := by
    rw [marker_put_ok_iff]
    exact ⟨h1, h2, plane, row, h3, h4, (List.getElem?_eq_some.mp h5).1, rfl⟩
  have := unset_markers_put h0 hput
  omega

theorem examine_within {recurse : Grid → Solution → Path → Cell → Dir → Search} {G : Grid}
    {p : Path} {child : Cell} {dir : Dir} (sol : Solution)
    (hb : ∀ sol', p.visited child dir = .ok false →
      within_budget (recurse G sol' p child dir)) :
    within_budget (Solution.examine_child recurse G sol p child dir) := by
  rw [examine_unfold]
  refine within_bind (within_marker_at _ _ _) fun b1 h1 => ?_
  cases b1 with
  | true => exact within_ok _
  | false =>
    simp only [Bool.false_eq_true, if_false]
    refine within_bind (within_is_wall _ _) fun b2 _ => ?_
    refine within_ite (within_ok _) ?_
    refine within_bind (within_is_lock _ _) fun b3 _ => ?_
    refine within_ite ?_ (hb sol h1)
    refine within_bind (within_key_acquired _ _ _) fun b4 _ => ?_
    exact within_ite (hb sol h1) (within_ok _)

theorem loop_within {recurse : Grid → Solution → Path → Cell → Dir → Search} {G : Grid}
    (hrec : RecursionSpec G recurse) {p : Path} {parent : Cell}
    (hcur : p.current = some parent) (hinc : p.complete G = false)
    (hb : ∀ sol' c d, d < kDirMax → p.visited c d = .ok false →
      within_budget (recurse G sol' p c d)) :
    ∀ (k : Nat) (d0 : Dir) (sol : Solution), d0 ≤ kDirMax → d0 + k = kDirMax + 1 →
      within_budget (Solution.neighbour_loop recurse G (end_neighbour G parent) k
        { _cell := parent, _dir := d0 } sol p) := by
  intro k
  induction k with
  | zero =>
    intro d0 sol hle hk
    unfold kDirMax Dir at *
    omega
  | succ k ih =>
    intro d0 sol hle hk
    unfold Solution.neighbour_loop
    by_cases hd : d0 = kDirMax
    · have hne : NeighbourIter.ne { _cell := parent, _dir := d0 } (end_neighbour G parent) =
          false := by
        simp [NeighbourIter.ne, end_neighbour, hd]
      simp only [hne, Bool.false_eq_true, if_false]
      exact within_ok _
    · have hne : NeighbourIter.ne { _cell := parent, _dir := d0 } (end_neighbour G parent) =
          true := by
        simp [NeighbourIter.ne, end_neighbour, hd]
      simp only [hne, if_true]
      refine within_bind (within_deref _ _) fun child hchild => ?_
      have hd' : d0 < kDirMax := deref_real_dir hchild
      refine within_bind ?_ fun r hr => ?_
      · refine within_ite ?_ (within_ok _)
        exact examine_within sol fun sol' hv => hb sol' child d0 hd' hv
      · have hp : r.2 = p := by
          cases hvalid : child.is_valid with
          | true =>
            simp only [hvalid, if_true] at hr
            exact (examine_spec hrec hinc hd' ⟨parent, hcur, hchild⟩ hvalid hr).1
          | false =>
            simp only [hvalid, Bool.false_eq_true, if_false, pure_eq_ok,
              Except.ok.injEq] at hr
            rw [← hr]
        rw [hp]
        have h1 : d0 + 1 ≤ kDirMax := by
          unfold kDirMax Dir at *
          omega
        have h2 : d0 + 1 + k = kDirMax + 1 := by
          unfold kDirMax Dir at *
          omega
        exact ih (d0 + 1) r.1 h1 h2

theorem perform_within {recurse : Grid → Solution → Path → Cell → Dir → Search} {G : Grid}
    (hrec : RecursionSpec G recurse) {p : Path} {parent : Cell} (sol : Solution)
    (hcur : p.current = some parent)
    (hb : ∀ sol' c d, d < kDirMax → p.visited c d = .ok false →
      within_budget (recurse G sol' p c d)) :
    within_budget (Solution.perform_this_visit recurse G sol p parent) := by
  unfold Solution.perform_this_visit
  cases hc : p.complete G with
  | true =>
    simp only [if_true]
    split
    · exact within_ok _
    · exact within_ite (within_ok _) (within_ok _)
  | false =>
    simp only [Bool.false_eq_true, if_false]
    exact loop_within hrec hcur hc hb _ _ _ (Nat.zero_le _) (by simp [kDirBegin, begin_neighbour])

/-- `recurse_visit_next_cell` stays within a nesting budget that exceeds the number of
unset markers. -/
theorem recurse_within (G : Grid) :
    ∀ (n : Nat) (sol : Solution) (p : Path) (cell : Cell) (dir : Dir),
      (dir = kDirMax → unset_markers p._visited_directional < n) →
      (dir ≠ kDirMax → p.visited cell dir = .ok false ∧
        unset_markers p._visited_directional ≤ n) →
      within_budget (Solution.recurse_visit_next_cell n G sol p cell dir) := by
  intro n
  induction n with
  | zero =>
    intro sol p cell dir h1 h2
    exfalso
    by_cases hd : dir = kDirMax
    · have := h1 hd
      omega
    · obtain ⟨h3, h4⟩ := h2 hd
      have := unset_markers_pos h3
      omega
  | succ n ih =>
    intro sol p cell dir h1 h2
    simp only [Solution.recurse_visit_next_cell]
    refine within_bind (within_visit _ _ _ _) fun p1 hp1 => ?_
    have hunset : unset_markers p1._visited_directional ≤ n := by
      obtain ⟨_, _, _, hm, _⟩ := visit_ok hp1
      by_cases hd : dir = kDirMax
      · rw [if_pos hd] at hm
        rw [hm]
        have := h1 hd
        omega
      · rw [if_neg hd] at hm
        have := unset_markers_put hm.1 hm.2
        have := (h2 hd).2
        omega
    refine within_bind ?_ fun r _ => ?_
    · refine perform_within (recurse_spec G n) sol (visit_current hp1) ?_
      intro sol' c d hd hv
      refine ih sol' p1 c d ?_ ?_
      · intro hd'
        unfold kDirMax Dir at *
        omega
      · intro _
        exact ⟨hv, hunset⟩
    · exact within_bind (within_unvisit _ _) fun _ _ => within_ok _

/-- The nesting budget that `shortestPathAllKeys` is modelled with is never used up. -/
theorem shortest_within (m : List (List Char)) :
    within_budget (({} : Solution).shortestPathAllKeys m) := by
  unfold Solution.shortestPathAllKeys
  refine within_bind ?_ fun G _ => ?_
  · intro h
    have := ctor_fault h
    simp at this
  · refine within_bind ?_ fun r _ => ?_
    · refine recurse_within G _ _ _ _ _ ?_ ?_
      · intro _
        rw [unset_markers_initial]
        unfold depth_budget
        omega
      · intro h
        exact absurd rfl h
    · simp only
      split <;> exact within_ok _

/-! ## C3: minimality -/

set_option maxRecDepth 100000 in
/-- The search at the input that refutes C3 in the code: on `"bA@aBc"` over `"C#..##"`
the answer is 11, and a legal traversal of 9 moves enters all key cells (right to `a`,
left through `A` to `b`, right again through `a` and `B` to `c`). -/
theorem answer_not_minimal :
    ({} : Solution).shortestPathAllKeys ["bA@aBc".toList, "C#..##".toList] = .ok 11 ∧
      ∃ start moves, legal_traversal ["bA@aBc".toList, "C#..##".toList] start moves ∧
        collects_all_keys ["bA@aBc".toList, "C#..##".toList] moves ∧ moves.length = 9 := by
  refine ⟨by decide, { _row := 0, _col := 2 },
      [{ _row := 0, _col := 3 }, { _row := 0, _col := 2 }, { _row := 0, _col := 1 },
       { _row := 0, _col := 0 }, { _row := 0, _col := 1 }, { _row := 0, _col := 2 },
       { _row := 0, _col := 3 }, { _row := 0, _col := 4 }, { _row := 0, _col := 5 }],
      by decide, collects_of_cells (C := 6) (by decide) (by decide), rfl⟩

/-! ## C8, C9, C10: the scenarios of the specification -/

/-- C8, as stated, fails: on the matrix `"@.a"` `shortestPathAllKeys` does not return 2. -/
theorem scenario_a_not_two :
    ({} : Solution).shortestPathAllKeys ["@.a".toList] ≠ .ok 2 := by
  decide

set_option maxRecDepth 100000 in
/-- C8, amended: the matrix `"@.a"` holds one key and no lock, so the constructor of
`Grid` fails its `assert(num_locks == _num_keys)` and `shortestPathAllKeys` returns no
integer; with the matching lock appended, on `"@.aA"`, it returns 2. -/
theorem scenario_a_with_lock :
    ({} : Solution).shortestPathAllKeys ["@.a".toList] = .error .assertion ∧
      ({} : Solution).shortestPathAllKeys ["@.aA".toList] = .ok 2 := by
  decide

/-- C9, as stated, fails: on the matrix `"@#a"` `shortestPathAllKeys` does not return -1. -/
theorem scenario_b_not_minus_one :
    ({} : Solution).shortestPathAllKeys ["@#a".toList] ≠ .ok (-1) := by
  decide

set_option maxRecDepth 100000 in
/-- C9, amended: the matrix `"@#a"` holds one key and no lock, so the constructor of
`Grid` fails its `assert(num_locks == _num_keys)` and `shortestPathAllKeys` returns no
integer; with the matching lock appended, on `"@#aA"`, it returns -1. -/
theorem scenario_b_with_lock :
    ({} : Solution).shortestPathAllKeys ["@#a".toList] = .error .assertion ∧
      ({} : Solution).shortestPathAllKeys ["@#aA".toList] = .ok (-1) := by
  decide

set_option maxRecDepth 100000 in
/-- C10: on the matrix `"@.a.."`, `"###.#"`, `"b.A.B"` `shortestPathAllKeys` returns 8. -/
theorem scenario_c_returns_eight :
    ({} : Solution).shortestPathAllKeys ["@.a..".toList, "###.#".toList, "b.A.B".toList] =
      .ok 8 := by
  decide

/-! ## Auxiliary lemmas: when `visit` returns -/

theorem marker_put_of_at {v : List (List (List Bool))} {d : Dir} {c : Cell} {b : Bool}
    (h : marker_at v d c = .ok b) (b' : Bool) : ∃ v', marker_put v d c b' = .ok v' := by
  rw [marker_at_ok_iff] at h
  obtain ⟨h1, h2, plane, row, h3, h4, h5⟩ := h
  refine ⟨_, (marker_put_ok_iff _ _ _ _ _).mpr
    ⟨h1, h2, plane, row, h3, h4, (List.getElem?_eq_some.mp h5).1, rfl⟩⟩

/-- When `visit` returns: it does unless the counter of the key on the cell lies outside
`_key_hit_counters`. -/
theorem visit_total {G : Grid} {p : Path} {c : Cell} {d : Dir} {ch : Char}
    (hc : char_at G._grid c = .ok ch)
    (hd : d ≠ kDirMax → marker_at p._visited_directional d c = .ok false)
    (hcnt : ∀ cnt, p._key_hit_counters[ch.toNat - 'a'.toNat]? = some cnt → 0 ≤ cnt) :
    if Grid.is_key_char ch = true ∧ p._key_hit_counters.length ≤ ch.toNat - 'a'.toNat then
      p.visit G c d = .error .out_of_range
    else ∃ q, p.visit G c d = .ok q := by
  have e1 : 'a'.toNat = 97 := rfl
  rw [e1] at hcnt ⊢
  unfold Path.visit
  simp only []
  have h1 : ∃ v, (if (d != kDirMax) = true then do
        c_assert ((← marker_at p._visited_directional d c) == false)
        let v ← marker_put p._visited_directional d c true
        pure ({ p with _path_vec := p._path_vec ++ [(c, d)], _visited_directional := v } : Path)
      else pure { p with _path_vec := p._path_vec ++ [(c, d)] } : Res Path) =
      .ok { p with _path_vec := p._path_vec ++ [(c, d)], _visited_directional := v } := by
    by_cases hdm : d = kDirMax
    · exact ⟨p._visited_directional, by simp [hdm]⟩
    · obtain ⟨v', hv'⟩ := marker_put_of_at (hd hdm) true
      have hd' : (d != kDirMax) = true := by simpa using hdm
      exact ⟨v', by simp [hd', hd hdm, hv']⟩
  obtain ⟨v, hv⟩ := h1
  simp only [pure_eq_ok] at hv ⊢
  rw [hv]
  simp only [ok_bind, Grid.is_key, Grid.get_key_index, Grid.get_char, hc, pure_eq_ok]
  by_cases hk : Grid.is_key_char ch = true
  · simp only [hk, if_true, true_and, Grid.get_key_index_char, c_assert_true, ok_bind,
      pure_eq_ok, e1]
    by_cases hlen : p._key_hit_counters.length ≤ ch.toNat - 97
    · rw [if_pos hlen]
      have : p._key_hit_counters[ch.toNat - 97]? = none :=
        List.getElem?_eq_none hlen
      simp [vec_at, this]
    · rw [if_neg hlen]
      have hlt : ch.toNat - 97 < p._key_hit_counters.length := by omega
      have hget := List.getElem?_eq_getElem hlt
      have h0 := hcnt _ hget
      simp only [vec_at, hget, ok_bind, vec_put, hlt, if_true]
      have : decide (p._key_hit_counters[ch.toNat - 97] ≥ 0) = true := by
        simpa using h0
      simp only [this, c_assert_true, ok_bind]
      split_ifs <;> exact ⟨_, rfl⟩
  · have hk' : Grid.is_key_char ch = false := by simpa using hk
    simp only [hk', Bool.false_eq_true, if_false, false_and]
    exact ⟨_, rfl⟩

/-- When `key_was_acquired_for_lock` returns on a cell holding a lock letter: it does
unless the counter it reads lies outside `_key_hit_counters`. -/
theorem key_acquired_total {G : Grid} {p : Path} {c : Cell} {ch : Char}
    (hc : char_at G._grid c = .ok ch) (hl : Grid.is_lock_char ch = true) :
    if p._key_hit_counters.length ≤ ch.toNat - 'A'.toNat then
      p.key_was_acquired_for_lock G c = .error .out_of_range
    else ∃ b, p.key_was_acquired_for_lock G c = .ok b := by
  have e1 : 'A'.toNat = 65 := rfl
  rw [e1]
  unfold Path.key_was_acquired_for_lock
  simp only [Grid.is_lock, Grid.get_lock_index, Grid.get_char, hc, ok_bind, pure_eq_ok, hl,
    c_assert_true, Grid.get_lock_index_char, e1]
  by_cases hlen : p._key_hit_counters.length ≤ ch.toNat - 65
  · rw [if_pos hlen]
    have : p._key_hit_counters[ch.toNat - 65]? = none := List.getElem?_eq_none hlen
    simp [vec_at, this]
  · rw [if_neg hlen]
    have hlt : ch.toNat - 65 < p._key_hit_counters.length := by omega
    simp [vec_at, List.getElem?_eq_getElem hlt]

/-! ## Auxiliary lemmas: the shape of the paths of the search -/

theorem inside_char {m : List (List Char)} {G : Grid} (hA : Accepted m G) {c : Cell}
    (h : G.inside c) : ∃ ch, char_at m c = .ok ch ∧ legal_char ch = true := by
  have := hA.legal c (mem_all_cells.mpr h)
  unfold holds at this
  cases hc : char_at m c with
  | error e => simp [hc] at this
  | ok ch => exact ⟨ch, rfl, by simpa [hc] using this⟩

theorem deref_inside {G : Grid} {parent c : Cell} {d : Dir}
    (h : NeighbourIter.deref G { _cell := parent, _dir := d } = .ok c)
    (hv : c.is_valid = true) (hp : G.inside parent) : G.inside c := by
  have hd := deref_real_dir h
  unfold kDirMax Dir at *
  unfold NeighbourIter.deref at h
  simp only [Cell.is_valid, decide_eq_true_eq] at hv
  unfold Grid.inside at *
  simp only [Grid.num_rows, Grid.num_cols] at h
  interval_cases d <;> simp only [pure_eq_ok] at h <;> split_ifs at h <;>
    simp only [Except.ok.injEq] at h <;> subst h <;> simp at hv ⊢ <;> omega

theorem marker_at_initial {G : Grid} {d : Dir} {c : Cell} (hd : d < kDirMax)
    (hc : G.inside c) : marker_at (Path.ctor G)._visited_directional d c = .ok false := by
  obtain ⟨h1, h2, h3, h4⟩ := hc
  rw [marker_at_ok_iff]
  refine ⟨h1, h3, List.replicate G._num_rows.toNat (List.replicate G._num_cols.toNat false),
    List.replicate G._num_cols.toNat false, ?_, ?_, ?_⟩
  · simp only [Path.ctor, build_2d_vector, Grid.num_rows, Grid.num_cols,
      List.getElem?_replicate, hd, if_true]
  · have : c._row.toNat < G._num_rows.toNat := by omega
    simp only [List.getElem?_replicate, this, if_true]
  · have : c._col.toNat < G._num_cols.toNat := by omega
    simp only [List.getElem?_replicate, this, if_true]

theorem current_mem_cells {p : Path} {parent : Cell} (h : p.current = some parent) :
    parent ∈ p.cells :=
  List.mem_of_getLast?_eq_some (cells_getLast h)

/-- The path after the first `visit`, of the start cell, has the shape of a path of the
search. -/
theorem shapeInv_initial {m : List (List Char)} {G : Grid} (hA : Accepted m G) {p1 : Path}
    (h : (Path.ctor G).visit G G._start kDirMax = .ok p1) : ShapeInv G p1 := by
  have hstart : char_at G._grid G._start = .ok '@' := by
    rw [hA.grid_eq]; exact hA.start_char
  rw [visit_start hstart (by decide)] at h
  simp only [Except.ok.injEq] at h
  subst h
  refine ⟨fun d c hd hc => ⟨false, marker_at_initial hd hc⟩, ?_, by simp [Path.ctor], ?_⟩
  · intro c hc
    simp only [Path.ctor, Path.cells, List.nil_append, List.map_cons, List.map_nil,
      List.mem_singleton] at hc
    subst hc
    exact mem_all_cells.mp hA.start_mem
  · show unset_markers (Path.ctor G)._visited_directional + _ = _
    rw [unset_markers_initial]
    simp [Path.ctor]

/-- A `visit` of a neighbour in a real direction keeps the shape of the path. -/
theorem shapeInv_visit {G : Grid} {p q : Path} {c parent : Cell} {d : Dir}
    (hvisit : p.visit G c d = .ok q) (hd : d < kDirMax) (hcur : p.current = some parent)
    (hderef : NeighbourIter.deref G { _cell := parent, _dir := d } = .ok c)
    (hvalid : c.is_valid = true) (hm : MarkInv G p) (hs : ShapeInv G p) : ShapeInv G q := by
  obtain ⟨ch, hc, h1, h2, h3⟩ := visit_ok hvisit
  have hdne : d ≠ kDirMax := by
    unfold kDirMax Dir at *
    omega
  rw [if_neg hdne] at h2
  refine ⟨?_, ?_, ?_, ?_⟩
  · intro d' c' hd' hc'
    by_cases heq : (c', d') = (c, d)
    · simp only [Prod.mk.injEq] at heq
      obtain ⟨rfl, rfl⟩ := heq
      exact ⟨true, marker_at_put_same h2.2⟩
    · rw [marker_at_put_other h2.2 heq]
      exact hs.readable d' c' hd' hc'
  · intro c' hc'
    have hcells : q.cells = p.cells ++ [c] := by simp [Path.cells, h1]
    rw [hcells, List.mem_append, List.mem_singleton] at hc'
    rcases hc' with h | rfl
    · exact hs.inside c' h
    · exact deref_inside hderef hvalid (hs.inside parent (current_mem_cells hcur))
  · rw [h1, List.nodup_append]
    refine ⟨hs.nodup, List.nodup_singleton _, ?_⟩
    intro x hx hx'
    simp only [List.mem_singleton] at hx'
    subst hx'
    have := (hm.marks d c false h2.1).mpr hx
    exact absurd this (by simp)
  · have := unset_markers_put h2.1 h2.2
    have := hs.budget
    rw [h1, List.length_append, List.length_singleton]
    omega

theorem searchInv_initial {m : List (List Char)} {G : Grid} (hA : Accepted m G) {p1 : Path}
    (h : (Path.ctor G).visit G G._start kDirMax = .ok p1) : SearchInv m G p1 :=
  ⟨hA, pathInv_initial hA h, markInv_initial hA h, shapeInv_initial hA h⟩

theorem searchInv_step {m : List (List Char)} {G : Grid} {p q : Path} {c : Cell} {d : Dir}
    (hd : Descent G p c d q) (hp : SearchInv m G p) : SearchInv m G q := by
  obtain ⟨parent, hcur, hderef⟩ := hd.neighbour
  exact ⟨hp.accepted, pathInv_step hd hp.path,
    markInv_visit hd.visit hd.real_dir hcur hderef hd.valid hp.mark,
    shapeInv_visit hd.visit hd.real_dir hcur hderef hd.valid hp.mark hp.shape⟩

theorem searchInv_reach {m : List (List Char)} {G : Grid} {p q : Path} (hr : Reach G p q)
    (hp : SearchInv m G p) : SearchInv m G q := by
  induction hr with
  | refl => exact hp
  | tail _ hstep ih =>
    obtain ⟨c, d, hd⟩ := hstep
    exact searchInv_step hd ih

/-- A state of the search on an accepted matrix is the path built by the constructor of
`Path` or satisfies `SearchInv`. -/
theorem searchInv_state {m : List (List Char)} {G : Grid} (hG : Grid.ctor m = .ok G)
    {p : Path} (hp : SearchState G p) : p = Path.ctor G ∨ SearchInv m G p := by
  rcases hp with h | ⟨p1, h1, hr⟩
  · exact Or.inl h
  · exact Or.inr (searchInv_reach hr (searchInv_initial (ctor_accepted hG) h1))

/-! ## Auxiliary lemmas: how a run of the search can end -/

theorem benign_ok (fit : Prop) {α : Type} (a : α) : benign fit (Except.ok a : Res α) := by
  intro e h
  simp at h

theorem benign_bind {fit : Prop} {α β : Type} {x : Res α} {f : α → Res β}
    (hx : benign fit x) (hf : ∀ a, x = .ok a → benign fit (f a)) : benign fit (x >>= f) := by
  cases x with
  | error e =>
    intro e' h
    simp only [error_bind, Except.error.injEq] at h
    subst h
    exact hx e rfl
  | ok a => simpa using hf a rfl

theorem benign_out_of_range {fit : Prop} {α : Type} (h : ¬ fit) :
    benign fit (Except.error .out_of_range : Res α) := by
  intro e he
  simp only [Except.error.injEq] at he
  subst he
  exact Or.inr ⟨rfl, h⟩

/-- The counters of a path of the search are as many as the matrix has key cells. -/
theorem counters_length {m : List (List Char)} {G : Grid} {p : Path}
    (hinv : SearchInv m G p) : p._key_hit_counters.length = num_key_cells m := by
  rw [hinv.path.counters_len, hinv.accepted.num_keys_eq]
  simp

theorem unfit_of_key {m : List (List Char)} {c : Cell} {ch : Char}
    (hc : char_at m c = .ok ch) (hk : Grid.is_key_char ch = true)
    (h : num_key_cells m ≤ ch.toNat - 'a'.toNat) : ¬ letters_fit m := by
  intro hfit
  have := (hfit ch (mem_of_char_at hc)).1 hk
  omega

theorem unfit_of_lock {m : List (List Char)} {c : Cell} {ch : Char}
    (hc : char_at m c = .ok ch) (hl : Grid.is_lock_char ch = true)
    (h : num_key_cells m ≤ ch.toNat - 'A'.toNat) : ¬ letters_fit m := by
  intro hfit
  have := (hfit ch (mem_of_char_at hc)).2 hl
  omega

theorem counters_nonneg {G : Grid} {p : Path} (hp : PathInv G p) (i : Nat) (cnt : Int)
    (h : p._key_hit_counters[i]? = some cnt) : 0 ≤ cnt := by
  rw [hp.counters i cnt h]
  exact Int.natCast_nonneg _

/-- `examine_child` on a neighbour inside the grid ends benignly when its callee does. -/
theorem examine_benign {recurse : Grid → Solution → Path → Cell → Dir → Search}
    {m : List (List Char)} {G : Grid} {p : Path} {child : Cell} {dir : Dir}
    (hinv : SearchInv m G p) (hd : dir < kDirMax)
    (hnb : ∃ parent, p.current = some parent ∧
      NeighbourIter.deref G { _cell := parent, _dir := dir } = .ok child)
    (hv : child.is_valid = true) (sol : Solution)
    (hb : Passes G p child dir → benign (letters_fit m) (recurse G sol p child dir)) :
    benign (letters_fit m) (Solution.examine_child recurse G sol p child dir) := by
  obtain ⟨parent, hcur, hderef⟩ := hnb
  have hin : G.inside child :=
    deref_inside hderef hv (hinv.shape.inside parent (current_mem_cells hcur))
  obtain ⟨ch, hch, _⟩ := inside_char hinv.accepted hin
  have hch' : char_at G._grid child = .ok ch := by rw [hinv.accepted.grid_eq]; exact hch
  obtain ⟨b1, hb1⟩ := hinv.shape.readable dir child hd hin
  have hvis : p.visited child dir = .ok b1 := hb1
  have hwall : G.is_wall child = .ok (ch == '#') := by
    simp [Grid.is_wall, Grid.get_char, hch']
  have hlock : G.is_lock child = .ok (Grid.is_lock_char ch) := by
    simp [Grid.is_lock, Grid.get_char, hch']
  rw [examine_unfold, hvis, hwall, hlock]
  simp only [ok_bind]
  cases b1 with
  | true => exact benign_ok _ _
  | false =>
    simp only [Bool.false_eq_true, if_false]
    cases hw : (ch == '#') with
    | true => exact benign_ok _ _
    | false =>
      simp only [Bool.false_eq_true, if_false]
      cases hl : Grid.is_lock_char ch with
      | false =>
        simp only [Bool.false_eq_true, if_false]
        exact hb ⟨hd, ⟨parent, hcur, hderef⟩, hv, hvis, by rw [hwall, hw],
          Or.inl (by rw [hlock, hl])⟩
      | true =>
        simp only [if_true]
        have ht := key_acquired_total (p := p) hch' hl
        split_ifs at ht with hlen
        · rw [ht]
          refine benign_out_of_range (unfit_of_lock hch hl ?_)
          rw [← counters_length hinv]
          exact hlen
        · obtain ⟨b4, hb4⟩ := ht
          rw [hb4]
          simp only [ok_bind]
          cases b4 with
          | false => exact benign_ok _ _
          | true =>
            simp only [if_true]
            exact hb ⟨hd, ⟨parent, hcur, hderef⟩, hv, hvis, by rw [hwall, hw],
              Or.inr ⟨by rw [hlock, hl], hb4⟩⟩

theorem deref_ok {G : Grid} {parent : Cell} {d : Dir} (hd : d < kDirMax) :
    ∃ c, NeighbourIter.deref G { _cell := parent, _dir := d } = .ok c := by
  unfold kDirMax Dir at *
  unfold NeighbourIter.deref
  interval_cases d <;> simp only [pure_eq_ok] <;> split_ifs <;> exact ⟨_, rfl⟩

/-- The loop over the neighbours ends benignly when the callee of `examine_child` does. -/
theorem loop_benign {recurse : Grid → Solution → Path → Cell → Dir → Search}
    {m : List (List Char)} {G : Grid} (hrec : RecursionSpec G recurse) {p : Path}
    {parent : Cell} (hinv : SearchInv m G p) (hcur : p.current = some parent)
    (hinc : p.complete G = false)
    (hb : ∀ sol' c d, Passes G p c d → benign (letters_fit m) (recurse G sol' p c d)) :
    ∀ (k : Nat) (d0 : Dir) (sol : Solution), d0 ≤ kDirMax →
      benign (letters_fit m) (Solution.neighbour_loop recurse G (end_neighbour G parent) k
        { _cell := parent, _dir := d0 } sol p) := by
  intro k
  induction k with
  | zero =>
    intro d0 sol _ e he
    simp only [Solution.neighbour_loop, Except.error.injEq] at he
    exact Or.inl he.symm
  | succ k ih =>
    intro d0 sol hle
    unfold Solution.neighbour_loop
    by_cases hd : d0 = kDirMax
    · have hne : NeighbourIter.ne { _cell := parent, _dir := d0 } (end_neighbour G parent) =
          false := by
        simp [NeighbourIter.ne, end_neighbour, hd]
      simp only [hne, Bool.false_eq_true, if_false]
      exact benign_ok _ _
    · have hne : NeighbourIter.ne { _cell := parent, _dir := d0 } (end_neighbour G parent) =
          true := by
        simp [NeighbourIter.ne, end_neighbour, hd]
      simp only [hne, if_true]
      have hd' : d0 < kDirMax := by
        unfold kDirMax Dir at *
        omega
      obtain ⟨child, hchild⟩ := @deref_ok G parent d0 hd'
      rw [hchild]
      simp only [ok_bind]
      · refine benign_bind ?_ fun r hr => ?_
        · cases hvalid : child.is_valid with
          | true =>
            simp only [if_true]
            exact examine_benign hinv hd' ⟨parent, hcur, hchild⟩ hvalid sol
              fun hp => hb sol child d0 hp
          | false =>
            simp only [Bool.false_eq_true, if_false]
            exact benign_ok _ _
        · have hp : r.2 = p := by
            cases hvalid : child.is_valid with
            | true =>
              simp only [hvalid, if_true] at hr
              exact (examine_spec hrec hinc hd' ⟨parent, hcur, hchild⟩ hvalid hr).1
            | false =>
              simp only [hvalid, Bool.false_eq_true, if_false, pure_eq_ok,
                Except.ok.injEq] at hr
              rw [← hr]
          rw [hp]
          exact ih (d0 + 1) r.1 hd'

/-- `perform_this_visit` ends benignly when the callee of `examine_child` does. -/
theorem perform_benign {recurse : Grid → Solution → Path → Cell → Dir → Search}
    {m : List (List Char)} {G : Grid} (hrec : RecursionSpec G recurse) {p : Path}
    {parent : Cell} (hinv : SearchInv m G p) (hcur : p.current = some parent)
    (sol : Solution)
    (hb : ∀ sol' c d, p.complete G = false → Passes G p c d →
      benign (letters_fit m) (recurse G sol' p c d)) :
    benign (letters_fit m) (Solution.perform_this_visit recurse G sol p parent) := by
  unfold Solution.perform_this_visit
  cases hc : p.complete G with
  | true =>
    simp only [if_true]
    split
    · exact benign_ok _ _
    · split_ifs <;> exact benign_ok _ _
  | false =>
    simp only [Bool.false_eq_true, if_false]
    exact loop_benign hrec hinv hcur hc (fun sol' c d hp => hb sol' c d hc hp) _ _ _
      (Nat.zero_le _)

/-- A descent of `recurse_visit_next_cell` from a path of the search ends benignly,
whatever the nesting budget. -/
theorem recurse_benign {m : List (List Char)} {G : Grid} :
    ∀ (n : Nat) (sol : Solution) (p : Path) (c : Cell) (d : Dir),
      SearchInv m G p → p.complete G = false → Passes G p c d →
      benign (letters_fit m) (Solution.recurse_visit_next_cell n G sol p c d) := by
  intro n
  induction n with
  | zero =>
    intro sol p c d _ _ _ e he
    simp only [Solution.recurse_visit_next_cell, Except.error.injEq] at he
    exact Or.inl he.symm
  | succ n ih =>
    intro sol p c d hinv hinc hpass
    simp only [Solution.recurse_visit_next_cell]
    obtain ⟨parent, hcur, hderef⟩ := hpass.neighbour
    have hin : G.inside c :=
      deref_inside hderef hpass.valid (hinv.shape.inside parent (current_mem_cells hcur))
    obtain ⟨ch, hch, _⟩ := inside_char hinv.accepted hin
    have hch' : char_at G._grid c = .ok ch := by rw [hinv.accepted.grid_eq]; exact hch
    have ht := visit_total (p := p) (d := d) hch' (fun _ => hpass.unvisited)
      (counters_nonneg hinv.path _)
    split_ifs at ht with hbad
    · rw [ht]
      refine benign_out_of_range (unfit_of_key hch hbad.1 ?_)
      rw [← counters_length hinv]
      exact hbad.2
    · obtain ⟨q, hq⟩ := ht
      rw [hq]
      simp only [ok_bind]
      have hqinv : SearchInv m G q :=
        searchInv_step ⟨hinc, hpass.real_dir, hpass.neighbour, hpass.valid, hpass.unvisited,
          hpass.no_wall, hpass.unlocked, hq⟩ hinv
      refine benign_bind ?_ fun r hr => ?_
      · exact perform_benign (recurse_spec G n) hqinv (visit_current hq) sol
          fun sol' c' d' hinc' hp' => ih sol' q c' d' hqinv hinc' hp'
      · obtain ⟨hr2, _⟩ := perform_spec (recurse_spec G n) (visit_current hq)
          (show Solution.perform_this_visit _ G sol q c = .ok (r.1, r.2) from hr)
        rw [show r = (r.1, r.2) from rfl]
        simp only
        rw [hr2, unvisit_visit hq]
        exact benign_ok _ _

/-- How a run of `shortestPathAllKeys` on an accepted matrix can end: with an integer,
or at an access outside `_key_hit_counters`, which needs a letter that does not fit. -/
theorem shortest_ends {m : List (List Char)} (hacc : accepts m = true) :
    (∃ n, ({} : Solution).shortestPathAllKeys m = .ok n) ∨
      (({} : Solution).shortestPathAllKeys m = .error .out_of_range ∧ ¬ letters_fit m) := by
  obtain ⟨G, hG⟩ := (accepts_iff m).mp hacc
  have hA := ctor_accepted hG
  have hstart : char_at G._grid G.get_start_cell = .ok '@' := by
    rw [hA.grid_eq]; exact hA.start_char
  have hv := visit_start (p := Path.ctor G) hstart (by decide)
  have hinv : SearchInv m G _ := searchInv_initial hA hv
  have hben : benign (letters_fit m) (({} : Solution).shortestPathAllKeys m) := by
    unfold Solution.shortestPathAllKeys
    rw [hG]
    simp only [ok_bind]
    refine benign_bind ?_ fun r _ => ?_
    · unfold depth_budget
      rw [Solution.recurse_visit_next_cell, hv]
      simp only [ok_bind]
      refine benign_bind ?_ fun r hr => ?_
      · exact perform_benign (recurse_spec G _) hinv (visit_current hv) _
          fun sol' c' d' hinc' hp' => recurse_benign _ sol' _ c' d' hinv hinc' hp'
      · obtain ⟨hr2, _⟩ := perform_spec (recurse_spec G _) (visit_current hv)
          (show Solution.perform_this_visit _ G _ _ _ = .ok (r.1, r.2) from hr)
        rw [show r = (r.1, r.2) from rfl]
        simp only
        rw [hr2, unvisit_visit hv]
        exact benign_ok _ _
    · obtain ⟨self, _⟩ := r
      show benign _ (match self._best_solution with
        | none => pure (-1)
        | some best => pure (best.num_steps - 1))
      split <;> exact benign_ok _ _
  cases hres : ({} : Solution).shortestPathAllKeys m with
  | ok n => exact Or.inl ⟨n, rfl⟩
  | error e =>
    right
    rcases hben e hres with h | ⟨h, hfit⟩
    · subst h
      exact absurd hres (shortest_within m)
    · subst h
      exact ⟨rfl, hfit⟩

/-- On a matrix that the constructor of `Grid` accepts and whose letters fit,
`shortestPathAllKeys` returns an integer: every index into `_key_hit_counters` is in
range throughout the search. -/
theorem fitting_letters_return (m : List (List Char)) (hacc : accepts m = true)
    (hfit : letters_fit m) : ∃ n, ({} : Solution).shortestPathAllKeys m = .ok n := by
  rcases shortest_ends hacc with h | ⟨_, h⟩
  · exact h
  · exact absurd hfit h

/-! ## Auxiliary lemmas: the states of a run -/

@[simp] theorem Traced.lift_ok_bind {α β : Type} (a : α) (f : α → Traced β) :
    (Traced.lift (Except.ok a) >>= f) = f a := rfl

@[simp] theorem Traced.lift_error_bind {α β : Type} (e : Fault) (f : α → Traced β) :
    (Traced.lift (Except.error e : Res α) >>= f) = Traced.lift (.error e) := rfl

@[simp] theorem Traced.pure_bind {α β : Type} (a : α) (f : α → Traced β) :
    ((pure a : Traced α) >>= f) = f a := rfl

@[simp] theorem Traced.result_pure {α : Type} (a : α) :
    (pure a : Traced α).result = .ok a := rfl

@[simp] theorem Traced.states_pure {α : Type} (a : α) :
    (pure a : Traced α).states = [] := rfl

@[simp] theorem Traced.result_lift {α : Type} (r : Res α) : (Traced.lift r).result = r := rfl

@[simp] theorem Traced.states_lift {α : Type} (r : Res α) : (Traced.lift r).states = [] := rfl

theorem Traced.result_bind {α β : Type} (x : Traced α) (f : α → Traced β) :
    (x >>= f).result = x.result >>= fun a => (f a).result := by
  obtain ⟨s, r⟩ := x
  cases r <;> rfl

theorem Traced.mem_states_bind {α β : Type} (x : Traced α) (f : α → Traced β) (q : Path) :
    q ∈ (x >>= f).states ↔ q ∈ x.states ∨ ∃ a, x.result = .ok a ∧ q ∈ (f a).states := by
  obtain ⟨s, r⟩ := x
  cases r with
  | error e =>
    show q ∈ s ↔ _
    simp
  | ok a =>
    show q ∈ s ++ (f a).states ↔ _
    simp

theorem examine_states_unfold
    (rs : Grid → Solution → Path → Cell → Dir → Traced (Solution × Path))
    (G : Grid) (sol : Solution) (p : Path) (child : Cell) (dir : Dir) :
    Solution.examine_child_states rs G sol p child dir =
      (Traced.lift (p.visited child dir) >>= fun b1 =>
        if b1 = true then pure (sol, p) else
        Traced.lift (G.is_wall child) >>= fun b2 =>
        if b2 = true then pure (sol, p) else
        Traced.lift (G.is_lock child) >>= fun b3 =>
        if b3 = true then
          Traced.lift (p.key_was_acquired_for_lock G child) >>= fun b4 =>
          if b4 = true then rs G sol p child dir else pure (sol, p)
        else rs G sol p child dir) := by
  unfold Solution.examine_child_states
  cases h1 : p.visited child dir with
  | error e => simp
  | ok b1 =>
    cases b1
    · cases h2 : G.is_wall child with
      | error e => simp
      | ok b2 =>
        cases b2
        · cases h3 : G.is_lock child with
          | error e => simp
          | ok b3 =>
            cases b3
            · simp
            · cases h4 : p.key_was_acquired_for_lock G child with
              | error e => simp
              | ok b4 => cases b4 <;> simp
        · simp
    · simp

/-- The result of `examine_child_states` is that of `examine_child`. -/
theorem examine_states_result
    {rs : Grid → Solution → Path → Cell → Dir → Traced (Solution × Path)}
    {r : Grid → Solution → Path → Cell → Dir → Search}
    (hr : ∀ G sol p c d, (rs G sol p c d).result = r G sol p c d)
    (G : Grid) (sol : Solution) (p : Path) (child : Cell) (dir : Dir) :
    (Solution.examine_child_states rs G sol p child dir).result =
      Solution.examine_child r G sol p child dir := by
  rw [examine_states_unfold, examine_unfold]
  cases h1 : p.visited child dir with
  | error e => rfl
  | ok b1 =>
    cases b1
    · cases h2 : G.is_wall child with
      | error e => rfl
      | ok b2 =>
        cases b2
        · cases h3 : G.is_lock child with
          | error e => rfl
          | ok b3 =>
            cases b3
            · simp [hr]
            · cases h4 : p.key_was_acquired_for_lock G child with
              | error e => rfl
              | ok b4 => cases b4 <;> simp [hr]
        · rfl
    · rfl

/-- The result of `neighbour_loop_states` is that of `neighbour_loop`. -/
theorem loop_states_result
    {rs : Grid → Solution → Path → Cell → Dir → Traced (Solution × Path)}
    {r : Grid → Solution → Path → Cell → Dir → Search}
    (hr : ∀ G sol p c d, (rs G sol p c d).result = r G sol p c d)
    (G : Grid) (end_iter : NeighbourIter) :
    ∀ (n : Nat) (iter : NeighbourIter) (sol : Solution) (p : Path),
      (Solution.neighbour_loop_states rs G end_iter n iter sol p).result =
        Solution.neighbour_loop r G end_iter n iter sol p := by
  intro n
  induction n with
  | zero => intro iter sol p; rfl
  | succ n ih =>
    intro iter sol p
    unfold Solution.neighbour_loop_states Solution.neighbour_loop
    by_cases hne : iter.ne end_iter = true
    · simp only [hne, if_true]
      cases hc : iter.deref G with
      | error e => rfl
      | ok child =>
        simp only [Traced.lift_ok_bind, ok_bind]
        rw [Traced.result_bind]
        by_cases hv : child.is_valid = true
        · simp only [hv, if_true]
          rw [examine_states_result hr]
          congr 1
          funext x
          exact ih _ _ _
        · simp only [hv, if_false]
          simp only [Traced.result_pure, pure_eq_ok, ok_bind]
          exact ih _ _ _
    · simp only [hne, if_false]
      rfl

/-- The result of `perform_this_visit_states` is that of `perform_this_visit`. -/
theorem perform_states_result
    {rs : Grid → Solution → Path → Cell → Dir → Traced (Solution × Path)}
    {r : Grid → Solution → Path → Cell → Dir → Search}
    (hr : ∀ G sol p c d, (rs G sol p c d).result = r G sol p c d)
    (G : Grid) (sol : Solution) (p : Path) (parent : Cell) :
    (Solution.perform_this_visit_states rs G sol p parent).result =
      Solution.perform_this_visit r G sol p parent := by
  unfold Solution.perform_this_visit_states Solution.perform_this_visit
  by_cases hc : p.complete G = true
  · simp only [hc, if_true]
    cases sol._best_solution with
    | none => rfl
    | some best =>
      simp only []
      by_cases hlt : p.lt best = true
      · simp only [hlt, if_true]; rfl
      · simp only [hlt, if_false]; rfl
  · simp only [hc, if_false]
    exact loop_states_result hr G _ _ _ _ _

/-- The result of `recurse_visit_next_cell_states` is that of `recurse_visit_next_cell`:
recording the states changes nothing in the run. -/
theorem recurse_states_result :
    ∀ (n : Nat) (G : Grid) (sol : Solution) (p : Path) (c : Cell) (d : Dir),
      (Solution.recurse_visit_next_cell_states n G sol p c d).result =
        Solution.recurse_visit_next_cell n G sol p c d := by
  intro n
  induction n with
  | zero => intro G sol p c d; rfl
  | succ n ih =>
    intro G sol p c d
    simp only [Solution.recurse_visit_next_cell_states, Solution.recurse_visit_next_cell]
    cases hv : p.visit G c d with
    | error e => rfl
    | ok p1 =>
      simp only [Traced.lift_ok_bind, ok_bind]
      rw [Traced.result_bind]
      simp only [Traced.log, ok_bind]
      rw [Traced.result_bind, perform_states_result ih]
      congr 1
      funext x
      obtain ⟨sol1, p2⟩ := x
      simp only []
      cases hu : p2.unvisit G with
      | error e => rfl
      | ok p3 => rfl

/-- The result of `shortestPathAllKeys_states` is that of `shortestPathAllKeys_mem`. -/
theorem shortest_states_result (mem : List Int) (sol : Solution) (m : List (List Char)) :
    (Solution.shortestPathAllKeys_states mem sol m).result =
      sol.shortestPathAllKeys_mem mem m := by
  unfold Solution.shortestPathAllKeys_states Solution.shortestPathAllKeys_mem
  cases hG : Grid.ctor m with
  | error e => rfl
  | ok G =>
    simp only [Traced.lift_ok_bind, ok_bind]
    rw [Traced.result_bind]
    simp only [Traced.log, ok_bind]
    rw [Traced.result_bind, recurse_states_result]
    congr 1
    funext x
    obtain ⟨sol1, p2⟩ := x
    simp only []
    cases sol1._best_solution <;> rfl

theorem ctor_mem_nil (G : Grid) : Path.ctor_mem G [] = Path.ctor G := by
  simp [Path.ctor_mem]

/-- With no word of memory after the buffer, `shortestPathAllKeys_mem` is
`shortestPathAllKeys`. -/
theorem shortest_mem_nil (sol : Solution) (m : List (List Char)) :
    sol.shortestPathAllKeys_mem [] m = sol.shortestPathAllKeys m := by
  unfold Solution.shortestPathAllKeys_mem Solution.shortestPathAllKeys
  cases hG : Grid.ctor m with
  | error e => rfl
  | ok G =>
    simp only [ok_bind, ctor_mem_nil]

/-! ## Auxiliary lemmas: the states of the search -/

/-- Every state of `examine_child_states` is one of its call of
`recurse_visit_next_cell`, which it makes only for a child that passes its filters. -/
theorem examine_states_mem
    {rs : Grid → Solution → Path → Cell → Dir → Traced (Solution × Path)} {G : Grid}
    {I : Path → Prop} {sol : Solution} {p : Path} {child : Cell} {dir : Dir}
    (hcall : Passes G p child dir → ∀ q ∈ (rs G sol p child dir).states, I q)
    (hd : dir < kDirMax)
    (hnb : ∃ parent, p.current = some parent ∧
      NeighbourIter.deref G { _cell := parent, _dir := dir } = .ok child)
    (hv : child.is_valid = true) :
    ∀ q ∈ (Solution.examine_child_states rs G sol p child dir).states, I q := by
  rw [examine_states_unfold]
  cases h1 : p.visited child dir with
  | error e => intro q hq; simp at hq
  | ok b1 =>
    cases b1
    · cases h2 : G.is_wall child with
      | error e => intro q hq; simp at hq
      | ok b2 =>
        cases b2
        · cases h3 : G.is_lock child with
          | error e => intro q hq; simp at hq
          | ok b3 =>
            cases b3
            · simp only [Traced.lift_ok_bind, Bool.false_eq_true, if_false]
              exact hcall ⟨hd, hnb, hv, h1, h2, Or.inl h3⟩
            · cases h4 : p.key_was_acquired_for_lock G child with
              | error e => intro q hq; simp at hq
              | ok b4 =>
                cases b4
                · intro q hq; simp at hq
                · simp only [Traced.lift_ok_bind, Bool.false_eq_true, if_false, if_true]
                  exact hcall ⟨hd, hnb, hv, h1, h2, Or.inr ⟨h3, h4⟩⟩
        · intro q hq; simp at hq
    · intro q hq; simp at hq

/-- Every state of the loop over the neighbours is one of a call of
`recurse_visit_next_cell` on the path the loop started with. -/
theorem loop_states_mem
    {rs : Grid → Solution → Path → Cell → Dir → Traced (Solution × Path)}
    {r : Grid → Solution → Path → Cell → Dir → Search}
    (hr : ∀ G sol p c d, (rs G sol p c d).result = r G sol p c d) {G : Grid}
    (hrec : RecursionSpec G r) {I : Path → Prop} {p : Path} {parent : Cell}
    (hcur : p.current = some parent) (hinc : p.complete G = false)
    (hcall : ∀ sol c d, Passes G p c d → ∀ q ∈ (rs G sol p c d).states, I q) :
    ∀ (n : Nat) (d0 : Dir) (sol : Solution),
      ∀ q ∈ (Solution.neighbour_loop_states rs G (end_neighbour G parent) n
        { _cell := parent, _dir := d0 } sol p).states, I q := by
  intro n
  induction n with
  | zero => intro d0 sol q hq; simp [Solution.neighbour_loop_states] at hq
  | succ n ih =>
    intro d0 sol q hq
    unfold Solution.neighbour_loop_states at hq
    by_cases hne : NeighbourIter.ne { _cell := parent, _dir := d0 } (end_neighbour G parent) =
        true
    · simp only [hne, if_true] at hq
      cases hc : NeighbourIter.deref G { _cell := parent, _dir := d0 } with
      | error e => simp [hc] at hq
      | ok child =>
        simp only [hc, Traced.lift_ok_bind] at hq
        rw [Traced.mem_states_bind] at hq
        have hd' : d0 < kDirMax := deref_real_dir hc
        by_cases hv : child.is_valid = true
        · simp only [hv, if_true] at hq
          rcases hq with hq | ⟨⟨sol1, p1⟩, hres, hq⟩
          · exact examine_states_mem (hcall sol child d0) hd' ⟨parent, hcur, hc⟩ hv q hq
          · rw [examine_states_result hr] at hres
            obtain ⟨rfl, _⟩ := examine_spec hrec hinc hd' ⟨parent, hcur, hc⟩ hv hres
            exact ih _ _ q hq
        · simp only [hv, if_false] at hq
          rcases hq with hq | ⟨⟨sol1, p1⟩, hres, hq⟩
          · simp at hq
          · simp only [Bool.false_eq_true, if_false, Traced.result_pure, Except.ok.injEq,
              Prod.mk.injEq] at hres
            obtain ⟨rfl, rfl⟩ := hres
            exact ih _ _ q hq
    · simp only [hne, if_false] at hq
      simp at hq

/-- Every state of `perform_this_visit_states` is one of a call of
`recurse_visit_next_cell` on its path, made when the path is not complete. -/
theorem perform_states_mem
    {rs : Grid → Solution → Path → Cell → Dir → Traced (Solution × Path)}
    {r : Grid → Solution → Path → Cell → Dir → Search}
    (hr : ∀ G sol p c d, (rs G sol p c d).result = r G sol p c d) {G : Grid}
    (hrec : RecursionSpec G r) {I : Path → Prop} {p : Path} {parent : Cell}
    (hcur : p.current = some parent)
    (hcall : p.complete G = false →
      ∀ sol c d, Passes G p c d → ∀ q ∈ (rs G sol p c d).states, I q)
    (sol : Solution) :
    ∀ q ∈ (Solution.perform_this_visit_states rs G sol p parent).states, I q := by
  intro q hq
  unfold Solution.perform_this_visit_states at hq
  by_cases hc : p.complete G = true
  · simp only [hc, if_true] at hq
    cases hb : sol._best_solution with
    | none => simp [hb] at hq
    | some best =>
      simp only [hb] at hq
      by_cases hlt : p.lt best = true
      · simp [hlt] at hq
      · simp [hlt] at hq
  · simp only [hc, if_false] at hq
    have hc' : p.complete G = false := by simpa using hc
    exact loop_states_mem hr hrec hcur hc' (hcall hc') _ _ _ q hq

/-- The states of one call of `recurse_visit_next_cell_states`: the path after `visit`,
the states of the calls nested in it, and the path the call started with, after
`unvisit`. -/
theorem recurse_states_succ {G : Grid} {I : Path → Prop} (n : Nat)
    (ih : ∀ sol p c d, I p → p.complete G = false → Passes G p c d →
      ∀ q ∈ (Solution.recurse_visit_next_cell_states n G sol p c d).states, I q)
    (sol : Solution) (p : Path) (c : Cell) (d : Dir)
    (h1 : ∀ p1, p.visit G c d = .ok p1 → I p1) :
    ∀ q ∈ (Solution.recurse_visit_next_cell_states (n + 1) G sol p c d).states,
      q = p ∨ I q := by
  intro q hq
  simp only [Solution.recurse_visit_next_cell_states] at hq
  cases hv : p.visit G c d with
  | error e => simp [hv] at hq
  | ok p1 =>
    simp only [hv, Traced.lift_ok_bind] at hq
    rw [Traced.mem_states_bind] at hq
    rcases hq with hq | ⟨_, _, hq⟩
    · simp only [Traced.log, List.mem_singleton] at hq
      subst hq
      exact Or.inr (h1 _ hv)
    · rw [Traced.mem_states_bind] at hq
      rcases hq with hq | ⟨⟨sol1, p2⟩, hres, hq⟩
      · right
        refine perform_states_mem (recurse_states_result n) (recurse_spec G n)
          (visit_current hv) ?_ sol q hq
        intro hinc sol' c' d' hp
        exact ih sol' p1 c' d' (h1 _ hv) hinc hp
      · rw [perform_states_result (recurse_states_result n)] at hres
        obtain ⟨rfl, _⟩ := perform_spec (recurse_spec G n) (visit_current hv) hres
        simp only [unvisit_visit hv, Traced.lift_ok_bind] at hq
        rw [Traced.mem_states_bind] at hq
        rcases hq with hq | ⟨_, _, hq⟩
        · simp only [Traced.log, List.mem_singleton] at hq
          exact Or.inl hq
        · simp at hq

/-- A property of paths that every descent of the search keeps holds of every state of a
call of `recurse_visit_next_cell_states` made on a path that has it. -/
theorem recurse_states_mem {G : Grid} {I : Path → Prop}
    (hstep : ∀ p c d q, I p → p.complete G = false → Passes G p c d →
      p.visit G c d = .ok q → I q) :
    ∀ (n : Nat) (sol : Solution) (p : Path) (c : Cell) (d : Dir), I p →
      p.complete G = false → Passes G p c d →
      ∀ q ∈ (Solution.recurse_visit_next_cell_states n G sol p c d).states, I q := by
  intro n
  induction n with
  | zero => intro sol p c d _ _ _ q hq; simp [Solution.recurse_visit_next_cell_states] at hq
  | succ n ih =>
    intro sol p c d hI hinc hp q hq
    rcases recurse_states_succ n ih sol p c d (fun p1 hv => hstep p c d p1 hI hinc hp hv)
      q hq with h | h
    · rw [h]; exact hI
    · exact h

/-- The states of a run of `shortestPathAllKeys_states` on an accepted matrix: the path
built by the constructor, and states with every property that the path after the first
`visit` has and that every descent of the search keeps. -/
theorem shortest_states_mem {m : List (List Char)} {G : Grid} (hG : Grid.ctor m = .ok G)
    (mem : List Int) {I : Path → Prop}
    (hstep : ∀ p c d q, I p → p.complete G = false → Passes G p c d →
      p.visit G c d = .ok q → I q)
    (h1 : ∀ p1, (Path.ctor_mem G mem).visit G G.get_start_cell kDirMax = .ok p1 → I p1)
    (sol : Solution) :
    ∀ q ∈ (Solution.shortestPathAllKeys_states mem sol m).states,
      q = Path.ctor_mem G mem ∨ I q := by
  intro q hq
  unfold Solution.shortestPathAllKeys_states at hq
  simp only [hG, Traced.lift_ok_bind] at hq
  rw [Traced.mem_states_bind] at hq
  rcases hq with hq | ⟨_, _, hq⟩
  · simp only [Traced.log, List.mem_singleton] at hq
    exact Or.inl hq
  · rw [Traced.mem_states_bind] at hq
    rcases hq with hq | ⟨⟨sol1, p2⟩, _, hq⟩
    · unfold depth_budget at hq
      exact recurse_states_succ _ (recurse_states_mem hstep _) sol _ _ _ h1 q hq
    · simp only [] at hq
      cases hb : sol1._best_solution with
      | none => simp [hb] at hq
      | some best => simp [hb] at hq

/-- The path after the first `visit`, of the start cell, satisfies `HistoryInv`,
whatever memory follows the buffer of `_key_hit_counters`. -/
theorem historyInv_initial {m : List (List Char)} {G : Grid} (hA : Accepted m G)
    (mem : List Int) {p1 : Path}
    (h : (Path.ctor_mem G mem).visit G G._start kDirMax = .ok p1) : HistoryInv G p1 := by
  have hstart : char_at G._grid G._start = .ok '@' := by
    rw [hA.grid_eq]; exact hA.start_char
  rw [visit_start hstart (by decide)] at h
  simp only [Except.ok.injEq] at h
  subst h
  refine ⟨by simp [Path.ctor_mem, Path.ctor], ⟨?_, by simp [Path.ctor_mem, Path.ctor], ?_⟩,
    ⟨fun d c hd hc => ⟨false, marker_at_initial hd hc⟩, ?_, by simp [Path.ctor_mem, Path.ctor],
      ?_⟩⟩
  · intro d c b hb
    have hb' : marker_at (Path.ctor G)._visited_directional d c = .ok b := hb
    have hd : d < kDirMax := by
      rw [marker_at_ok_iff] at hb'
      obtain ⟨_, _, plane, row, h1, _⟩ := hb'
      simp only [Path.ctor, List.getElem?_replicate] at h1
      split_ifs at h1 with hd
      exact hd
    have hin : G.inside c := by
      rw [marker_at_ok_iff] at hb'
      obtain ⟨h0, h0', plane, row, h1, h2, h3⟩ := hb'
      simp only [Path.ctor, build_2d_vector, List.getElem?_replicate, Grid.num_rows,
        Grid.num_cols, hd, if_true] at h1
      simp only [Option.some.injEq] at h1
      subst h1
      simp only [List.getElem?_replicate] at h2
      split_ifs at h2 with hr
      simp only [Option.some.injEq] at h2
      subst h2
      simp only [List.getElem?_replicate] at h3
      split_ifs at h3 with hc
      unfold Grid.inside
      omega
    rw [marker_at_initial hd hin] at hb'
    simp only [Except.ok.injEq] at hb'
    subst hb'
    simp only [Bool.false_eq_true, Path.ctor_mem, Path.ctor, List.nil_append,
      List.mem_singleton, Prod.mk.injEq, false_iff, not_and]
    intro _ hd'
    unfold kDirMax Dir at *
    omega
  · intro c hc ch hch hk
    simp only [Path.ctor_mem, Path.ctor, Path.cells, List.nil_append, List.map_cons,
      List.map_nil, List.mem_singleton] at hc
    subst hc
    rw [hstart] at hch
    simp only [Except.ok.injEq] at hch
    subst hch
    exact absurd hk (by decide)
  · intro c hc
    simp only [Path.ctor_mem, Path.ctor, Path.cells, List.nil_append, List.map_cons,
      List.map_nil, List.mem_singleton] at hc
    subst hc
    exact mem_all_cells.mp hA.start_mem
  · show unset_markers (Path.ctor G)._visited_directional + _ = _
    rw [unset_markers_initial]
    simp [Path.ctor_mem, Path.ctor]

/-- A descent of the search keeps `HistoryInv`. -/
theorem historyInv_visit {G : Grid} {p q : Path} {c : Cell} {d : Dir}
    (hp : HistoryInv G p) (hpass : Passes G p c d) (hvisit : p.visit G c d = .ok q) :
    HistoryInv G q := by
  obtain ⟨parent, hcur, hderef⟩ := hpass.neighbour
  refine ⟨?_, markInv_visit hvisit hpass.real_dir hcur hderef hpass.valid hp.mark,
    shapeInv_visit hvisit hpass.real_dir hcur hderef hpass.valid hp.mark hp.shape⟩
  obtain ⟨_, _, h1, _⟩ := visit_ok hvisit
  have hhead := hp.head
  rw [h1]
  cases hpv : p._path_vec with
  | nil => rw [hpv] at hhead; simp at hhead
  | cons x xs => rw [hpv] at hhead; simpa using hhead

/-- Every state of a run in which the index of `_key_hit_counters` is checked is a state
of the search in the sense of `SearchState`. -/
theorem states_search_state {m : List (List Char)} {G : Grid} (hG : Grid.ctor m = .ok G)
    (sol : Solution) :
    ∀ q ∈ (Solution.shortestPathAllKeys_states [] sol m).states, SearchState G q := by
  intro q hq
  have h := @shortest_states_mem m G hG []
    (fun q => ∃ p1, (Path.ctor G).visit G G.get_start_cell kDirMax = .ok p1 ∧ Reach G p1 q)
    (by
      rintro p c d q ⟨p1, h1, hr⟩ hinc hpass hv
      exact ⟨p1, h1, Relation.ReflTransGen.tail hr ⟨c, d, ⟨hinc, hpass.real_dir,
        hpass.neighbour, hpass.valid, hpass.unvisited, hpass.no_wall, hpass.unlocked,
        hv⟩⟩⟩)
    (by
      intro p1 h1
      rw [ctor_mem_nil] at h1
      exact ⟨p1, h1, Relation.ReflTransGen.refl⟩)
    sol q hq
  rcases h with h | h
  · left
    rw [h, ctor_mem_nil]
  · exact Or.inr h

/-- The recursion of the search, given the nesting budget `depth_budget`, does not use it
up, whatever memory follows the buffer of `_key_hit_counters`. -/
theorem search_within (G : Grid) (mem : List Int) :
    Solution.recurse_visit_next_cell (depth_budget G) G {} (Path.ctor_mem G mem)
      G.get_start_cell kDirMax ≠ .error .depth := by
  refine recurse_within G _ _ _ _ _ ?_ ?_
  · intro _
    show unset_markers (Path.ctor G)._visited_directional < _
    rw [unset_markers_initial]
    unfold depth_budget
    omega
  · intro h
    exact absurd rfl h

/-- The run on an accepted matrix goes through the path built by the constructor and
through the path that has entered the start cell. -/
theorem states_begin {m : List (List Char)} {G : Grid} (hG : Grid.ctor m = .ok G)
    (mem : List Int) (sol : Solution) :
    ∃ p1, (Path.ctor_mem G mem).visit G G.get_start_cell kDirMax = .ok p1 ∧
      Path.ctor_mem G mem ∈ (Solution.shortestPathAllKeys_states mem sol m).states ∧
      p1 ∈ (Solution.shortestPathAllKeys_states mem sol m).states := by
  have hA := ctor_accepted hG
  have hstart : char_at G._grid G.get_start_cell = .ok '@' := by
    rw [hA.grid_eq]; exact hA.start_char
  have hv := visit_start (p := Path.ctor_mem G mem) hstart (by decide)
  refine ⟨_, hv, ?_, ?_⟩
  · unfold Solution.shortestPathAllKeys_states
    simp only [hG, Traced.lift_ok_bind]
    rw [Traced.mem_states_bind]
    left
    simp [Traced.log]
  · unfold Solution.shortestPathAllKeys_states
    simp only [hG, Traced.lift_ok_bind]
    rw [Traced.mem_states_bind]
    right
    refine ⟨(), rfl, ?_⟩
    rw [Traced.mem_states_bind]
    left
    unfold depth_budget
    rw [Solution.recurse_visit_next_cell_states, hv]
    simp only [Traced.lift_ok_bind]
    rw [Traced.mem_states_bind]
    left
    simp [Traced.log]

/-! ## Auxiliary lemmas: how a run that does not check the index can end -/

theorem countersInv_initial (G : Grid) {mem : List Int} (hlen : kNumLetters ≤ mem.length)
    (hmem : ∀ x ∈ mem, 0 ≤ x) : CountersInv (Path.ctor_mem G mem) := by
  constructor
  · simp only [Path.ctor_mem, List.length_append]
    omega
  · intro i cnt h
    have hm := List.getElem?_mem h
    simp only [Path.ctor_mem, Path.ctor, List.mem_append, List.mem_replicate] at hm
    rcases hm with ⟨_, h0⟩ | hm
    · omega
    · exact hmem cnt hm

theorem countersInv_visit {G : Grid} {p q : Path} {c : Cell} {d : Dir}
    (hk : CountersInv p) (hvisit : p.visit G c d = .ok q) : CountersInv q := by
  obtain ⟨ch, _, _, _, h3⟩ := visit_ok hvisit
  split_ifs at h3 with hkey
  · obtain ⟨cnt, _, h0, h4, _⟩ := h3
    constructor
    · rw [h4, List.length_set]
      exact hk.room
    · intro i cnt' h
      rw [h4, List.getElem?_set] at h
      split_ifs at h with h1 h2
      · simp only [Option.some.injEq] at h
        omega
      · exact hk.nonneg i cnt' h
  · exact ⟨by rw [h3.1]; exact hk.room, by rw [h3.1]; exact hk.nonneg⟩

/-- In such a run `examine_child` on a neighbour inside the grid returns when its callee
does. -/
theorem examine_returns {recurse : Grid → Solution → Path → Cell → Dir → Search}
    {m : List (List Char)} {G : Grid} (hA : Accepted m G) {p : Path} {child : Cell}
    {dir : Dir} (hh : HistoryInv G p) (hk : CountersInv p) (hd : dir < kDirMax)
    (hnb : ∃ parent, p.current = some parent ∧
      NeighbourIter.deref G { _cell := parent, _dir := dir } = .ok child)
    (hv : child.is_valid = true) (sol : Solution)
    (hb : Passes G p child dir → benign True (recurse G sol p child dir)) :
    benign True (Solution.examine_child recurse G sol p child dir) := by
  obtain ⟨parent, hcur, hderef⟩ := hnb
  have hin : G.inside child :=
    deref_inside hderef hv (hh.shape.inside parent (current_mem_cells hcur))
  obtain ⟨ch, hch, _⟩ := inside_char hA hin
  have hch' : char_at G._grid child = .ok ch := by rw [hA.grid_eq]; exact hch
  obtain ⟨b1, hb1⟩ := hh.shape.readable dir child hd hin
  have hvis : p.visited child dir = .ok b1 := hb1
  have hwall : G.is_wall child = .ok (ch == '#') := by
    simp [Grid.is_wall, Grid.get_char, hch']
  have hlock : G.is_lock child = .ok (Grid.is_lock_char ch) := by
    simp [Grid.is_lock, Grid.get_char, hch']
  rw [examine_unfold, hvis, hwall, hlock]
  simp only [ok_bind]
  cases b1 with
  | true => exact benign_ok _ _
  | false =>
    simp only [Bool.false_eq_true, if_false]
    cases hw : (ch == '#') with
    | true => exact benign_ok _ _
    | false =>
      simp only [Bool.false_eq_true, if_false]
      cases hl : Grid.is_lock_char ch with
      | false =>
        simp only [Bool.false_eq_true, if_false]
        exact hb ⟨hd, ⟨parent, hcur, hderef⟩, hv, hvis, by rw [hwall, hw],
          Or.inl (by rw [hlock, hl])⟩
      | true =>
        simp only [if_true]
        have ht := key_acquired_total (p := p) hch' hl
        have hroom := hk.room
        have hbd := is_lock_char_bounds hl
        have e1 : 'A'.toNat = 65 := rfl
        have e2 : kNumLetters = 26 := rfl
        rw [e1] at ht
        rw [e2] at hroom
        rw [if_neg (by omega)] at ht
        obtain ⟨b4, hb4⟩ := ht
        rw [hb4]
        simp only [ok_bind]
        cases b4 with
        | false => exact benign_ok _ _
        | true =>
          simp only [if_true]
          exact hb ⟨hd, ⟨parent, hcur, hderef⟩, hv, hvis, by rw [hwall, hw],
            Or.inr ⟨by rw [hlock, hl], hb4⟩⟩

/-- In such a run the loop over the neighbours returns when the callee of `examine_child`
does. -/
theorem loop_returns {recurse : Grid → Solution → Path → Cell → Dir → Search}
    {m : List (List Char)} {G : Grid} (hA : Accepted m G) (hrec : RecursionSpec G recurse)
    {p : Path} {parent : Cell} (hh : HistoryInv G p) (hk : CountersInv p)
    (hcur : p.current = some parent) (hinc : p.complete G = false)
    (hb : ∀ sol' c d, Passes G p c d → benign True (recurse G sol' p c d)) :
    ∀ (k : Nat) (d0 : Dir) (sol : Solution), d0 ≤ kDirMax →
      benign True (Solution.neighbour_loop recurse G (end_neighbour G parent) k
        { _cell := parent, _dir := d0 } sol p) := by
  intro k
  induction k with
  | zero =>
    intro d0 sol _ e he
    simp only [Solution.neighbour_loop, Except.error.injEq] at he
    exact Or.inl he.symm
  | succ k ih =>
    intro d0 sol hle
    unfold Solution.neighbour_loop
    by_cases hd : d0 = kDirMax
    · have hne : NeighbourIter.ne { _cell := parent, _dir := d0 } (end_neighbour G parent) =
          false := by
        simp [NeighbourIter.ne, end_neighbour, hd]
      simp only [hne, Bool.false_eq_true, if_false]
      exact benign_ok _ _
    · have hne : NeighbourIter.ne { _cell := parent, _dir := d0 } (end_neighbour G parent) =
          true := by
        simp [NeighbourIter.ne, end_neighbour, hd]
      simp only [hne, if_true]
      have hd' : d0 < kDirMax := by
        unfold kDirMax Dir at *
        omega
      obtain ⟨child, hchild⟩ := @deref_ok G parent d0 hd'
      rw [hchild]
      simp only [ok_bind]
      · refine benign_bind ?_ fun r hr => ?_
        · cases hvalid : child.is_valid with
          | true =>
            simp only [if_true]
            exact examine_returns hA hh hk hd' ⟨parent, hcur, hchild⟩ hvalid sol
              fun hp => hb sol child d0 hp
          | false =>
            simp only [Bool.false_eq_true, if_false]
            exact benign_ok _ _
        · have hp : r.2 = p := by
            cases hvalid : child.is_valid with
            | true =>
              simp only [hvalid, if_true] at hr
              exact (examine_spec hrec hinc hd' ⟨parent, hcur, hchild⟩ hvalid hr).1
            | false =>
              simp only [hvalid, Bool.false_eq_true, if_false, pure_eq_ok,
                Except.ok.injEq] at hr
              rw [← hr]
          rw [hp]
          exact ih (d0 + 1) r.1 hd'

/-- In such a run `perform_this_visit` returns when the callee of `examine_child` does. -/
theorem perform_returns {recurse : Grid → Solution → Path → Cell → Dir → Search}
    {m : List (List Char)} {G : Grid} (hA : Accepted m G) (hrec : RecursionSpec G recurse)
    {p : Path} {parent : Cell} (hh : HistoryInv G p) (hk : CountersInv p)
    (hcur : p.current = some parent) (sol : Solution)
    (hb : ∀ sol' c d, p.complete G = false → Passes G p c d →
      benign True (recurse G sol' p c d)) :
    benign True (Solution.perform_this_visit recurse G sol p parent) := by
  unfold Solution.perform_this_visit
  cases hc : p.complete G with
  | true =>
    simp only [if_true]
    split
    · exact benign_ok _ _
    · split_ifs <;> exact benign_ok _ _
  | false =>
    simp only [Bool.false_eq_true, if_false]
    exact loop_returns hA hrec hh hk hcur hc (fun sol' c d hp => hb sol' c d hc hp) _ _ _
      (Nat.zero_le _)

/-- In such a run a descent of `recurse_visit_next_cell` returns unless the nesting budget
is used up. -/
theorem recurse_returns {m : List (List Char)} {G : Grid} (hA : Accepted m G) :
    ∀ (n : Nat) (sol : Solution) (p : Path) (c : Cell) (d : Dir),
      HistoryInv G p → CountersInv p → p.complete G = false → Passes G p c d →
      benign True (Solution.recurse_visit_next_cell n G sol p c d) := by
  intro n
  induction n with
  | zero =>
    intro sol p c d _ _ _ _ e he
    simp only [Solution.recurse_visit_next_cell, Except.error.injEq] at he
    exact Or.inl he.symm
  | succ n ih =>
    intro sol p c d hh hk hinc hpass
    simp only [Solution.recurse_visit_next_cell]
    obtain ⟨parent, hcur, hderef⟩ := hpass.neighbour
    have hin : G.inside c :=
      deref_inside hderef hpass.valid (hh.shape.inside parent (current_mem_cells hcur))
    obtain ⟨ch, hch, _⟩ := inside_char hA hin
    have hch' : char_at G._grid c = .ok ch := by rw [hA.grid_eq]; exact hch
    have ht := visit_total (p := p) (d := d) hch' (fun _ => hpass.unvisited)
      (hk.nonneg _)
    have hroom := hk.room
    have e1 : 'a'.toNat = 97 := rfl
    have e2 : kNumLetters = 26 := rfl
    rw [e1] at ht
    rw [e2] at hroom
    have hgood : ¬ (Grid.is_key_char ch = true ∧
        p._key_hit_counters.length ≤ ch.toNat - 97) := by
      rintro ⟨h1, h2⟩
      have := is_key_char_bounds h1
      omega
    rw [if_neg hgood] at ht
    obtain ⟨q, hq⟩ := ht
    rw [hq]
    simp only [ok_bind]
    have hqh : HistoryInv G q := historyInv_visit hh hpass hq
    have hqk : CountersInv q := countersInv_visit hk hq
    refine benign_bind ?_ fun r hr => ?_
    · exact perform_returns hA (recurse_spec G n) hqh hqk (visit_current hq) sol
        fun sol' c' d' hinc' hp' => ih sol' q c' d' hqh hqk hinc' hp'
    · obtain ⟨hr2, _⟩ := perform_spec (recurse_spec G n) (visit_current hq)
        (show Solution.perform_this_visit _ G sol q c = .ok (r.1, r.2) from hr)
      rw [show r = (r.1, r.2) from rfl]
      simp only
      rw [hr2, unvisit_visit hq]
      exact benign_ok _ _

/-- A run that does not check the index of `_key_hit_counters` returns an integer on
every matrix that the constructor of `Grid` accepts, when the memory after the buffer of
the vector has a word for every letter and none of the words is negative: no access ends
the run and no assertion fails. -/
theorem unchecked_run_returns (m : List (List Char)) (mem : List Int)
    (hacc : accepts m = true) (hlen : kNumLetters ≤ mem.length) (hmem : ∀ x ∈ mem, 0 ≤ x) :
    ∃ n, ({} : Solution).shortestPathAllKeys_mem mem m = .ok n := by
  obtain ⟨G, hG⟩ := (accepts_iff m).mp hacc
  have hA := ctor_accepted hG
  have hstart : char_at G._grid G.get_start_cell = .ok '@' := by
    rw [hA.grid_eq]; exact hA.start_char
  have hv := visit_start (p := Path.ctor_mem G mem) hstart (by decide)
  have hh : HistoryInv G _ := historyInv_initial hA mem hv
  have hk : CountersInv _ := countersInv_visit (countersInv_initial G hlen hmem) hv
  have hwithin := search_within G mem
  have hben : benign True (Solution.recurse_visit_next_cell (depth_budget G) G {}
      (Path.ctor_mem G mem) G.get_start_cell kDirMax) := by
    unfold depth_budget
    rw [Solution.recurse_visit_next_cell, hv]
    simp only [ok_bind]
    refine benign_bind ?_ fun r hr => ?_
    · exact perform_returns hA (recurse_spec G _) hh hk (visit_current hv) _
        fun sol' c' d' hinc' hp' => recurse_returns hA _ sol' _ c' d' hh hk hinc' hp'
    · obtain ⟨hr2, _⟩ := perform_spec (recurse_spec G _) (visit_current hv)
        (show Solution.perform_this_visit _ G _ _ _ = .ok (r.1, r.2) from hr)
      rw [show r = (r.1, r.2) from rfl]
      simp only
      rw [hr2, unvisit_visit hv]
      exact benign_ok _ _
  cases hres : Solution.recurse_visit_next_cell (depth_budget G) G {}
      (Path.ctor_mem G mem) G.get_start_cell kDirMax with
  | error e =>
    rcases hben e hres with h | ⟨_, h⟩
    · subst h
      exact absurd hres hwithin
    · exact absurd trivial h
  | ok r =>
    obtain ⟨self, q⟩ := r
    unfold Solution.shortestPathAllKeys_mem
    rw [hG]
    simp only [ok_bind, hres]
    cases self._best_solution with
    | none => exact ⟨-1, rfl⟩
    | some best => exact ⟨best.num_steps - 1, rfl⟩

/-! ## Auxiliary lemmas: no access ends a run that does not check the index -/

theorem goes_on_ok {α : Type} (a : α) : goes_on (Except.ok a : Res α) := by
  intro h
  simp at h

theorem goes_on_bind {α β : Type} {x : Res α} {f : α → Res β}
    (hx : goes_on x) (hf : ∀ a, x = .ok a → goes_on (f a)) : goes_on (x >>= f) := by
  cases x with
  | error e =>
    intro h
    simp only [error_bind, Except.error.injEq] at h
    subst h
    exact hx rfl
  | ok a => simpa using hf a rfl

/-- When the counter of the key on the cell lies inside the list, `visit` returns or ends
in its failed assert on the counter. -/
theorem visit_ends {G : Grid} {p : Path} {c : Cell} {d : Dir} {ch : Char}
    (hc : char_at G._grid c = .ok ch)
    (hd : d ≠ kDirMax → marker_at p._visited_directional d c = .ok false)
    (hroom : Grid.is_key_char ch = true → ch.toNat - 'a'.toNat < p._key_hit_counters.length) :
    (∃ q, p.visit G c d = .ok q) ∨ p.visit G c d = .error .assertion := by
  have e1 : 'a'.toNat = 97 := rfl
  rw [e1] at hroom
  unfold Path.visit
  simp only []
  have h1 : ∃ v, (if (d != kDirMax) = true then do
        c_assert ((← marker_at p._visited_directional d c) == false)
        let v ← marker_put p._visited_directional d c true
        pure ({ p with _path_vec := p._path_vec ++ [(c, d)], _visited_directional := v } : Path)
      else pure { p with _path_vec := p._path_vec ++ [(c, d)] } : Res Path) =
      .ok { p with _path_vec := p._path_vec ++ [(c, d)], _visited_directional := v } := by
    by_cases hdm : d = kDirMax
    · exact ⟨p._visited_directional, by simp [hdm]⟩
    · obtain ⟨v', hv'⟩ := marker_put_of_at (hd hdm) true
      have hd' : (d != kDirMax) = true := by simpa using hdm
      exact ⟨v', by simp [hd', hd hdm, hv']⟩
  obtain ⟨v, hv⟩ := h1
  simp only [pure_eq_ok] at hv ⊢
  rw [hv]
  simp only [ok_bind, Grid.is_key, Grid.get_key_index, Grid.get_char, hc, pure_eq_ok]
  by_cases hk : Grid.is_key_char ch = true
  · simp only [hk, if_true, Grid.get_key_index_char, c_assert_true, ok_bind, pure_eq_ok, e1]
    have hlt := hroom hk
    have hget := List.getElem?_eq_getElem hlt
    simp only [vec_at, hget, ok_bind, vec_put, hlt, if_true]
    by_cases h0 : p._key_hit_counters[ch.toNat - 97] ≥ 0
    · left
      have : decide (p._key_hit_counters[ch.toNat - 97] ≥ 0) = true := by simpa using h0
      simp only [this, c_assert_true, ok_bind]
      split_ifs <;> exact ⟨_, rfl⟩
    · right
      have : decide (p._key_hit_counters[ch.toNat - 97] ≥ 0) = false := by simpa using h0
      simp only [this, c_assert_false, error_bind]
  · left
    have hk' : Grid.is_key_char ch = false := by simpa using hk
    simp only [hk', Bool.false_eq_true, if_false]
    exact ⟨_, rfl⟩

theorem room_visit {G : Grid} {p q : Path} {c : Cell} {d : Dir}
    (hk : kNumLetters ≤ p._key_hit_counters.length) (hvisit : p.visit G c d = .ok q) :
    kNumLetters ≤ q._key_hit_counters.length := by
  obtain ⟨ch, _, _, _, h3⟩ := visit_ok hvisit
  split_ifs at h3 with hkey
  · obtain ⟨cnt, _, _, h4, _⟩ := h3
    rw [h4, List.length_set]
    exact hk
  · rw [h3.1]
    exact hk

theorem examine_goes_on {recurse : Grid → Solution → Path → Cell → Dir → Search}
    {m : List (List Char)} {G : Grid} (hA : Accepted m G) {p : Path} {child : Cell}
    {dir : Dir} (hh : HistoryInv G p) (hk : kNumLetters ≤ p._key_hit_counters.length)
    (hd : dir < kDirMax)
    (hnb : ∃ parent, p.current = some parent ∧
      NeighbourIter.deref G { _cell := parent, _dir := dir } = .ok child)
    (hv : child.is_valid = true) (sol : Solution)
    (hb : Passes G p child dir → goes_on (recurse G sol p child dir)) :
    goes_on (Solution.examine_child recurse G sol p child dir) := by
  obtain ⟨parent, hcur, hderef⟩ := hnb
  have hin : G.inside child :=
    deref_inside hderef hv (hh.shape.inside parent (current_mem_cells hcur))
  obtain ⟨ch, hch, _⟩ := inside_char hA hin
  have hch' : char_at G._grid child = .ok ch := by rw [hA.grid_eq]; exact hch
  obtain ⟨b1, hb1⟩ := hh.shape.readable dir child hd hin
  have hvis : p.visited child dir = .ok b1 := hb1
  have hwall : G.is_wall child = .ok (ch == '#') := by
    simp [Grid.is_wall, Grid.get_char, hch']
  have hlock : G.is_lock child = .ok (Grid.is_lock_char ch) := by
    simp [Grid.is_lock, Grid.get_char, hch']
  rw [examine_unfold, hvis, hwall, hlock]
  simp only [ok_bind]
  cases b1 with
  | true => exact goes_on_ok _
  | false =>
    simp only [Bool.false_eq_true, if_false]
    cases hw : (ch == '#') with
    | true => exact goes_on_ok _
    | false =>
      simp only [Bool.false_eq_true, if_false]
      cases hl : Grid.is_lock_char ch with
      | false =>
        simp only [Bool.false_eq_true, if_false]
        exact hb ⟨hd, ⟨parent, hcur, hderef⟩, hv, hvis, by rw [hwall, hw],
          Or.inl (by rw [hlock, hl])⟩
      | true =>
        simp only [if_true]
        have ht := key_acquired_total (p := p) hch' hl
        have hbd := is_lock_char_bounds hl
        have e1 : 'A'.toNat = 65 := rfl
        have e2 : kNumLetters = 26 := rfl
        rw [e1] at ht
        rw [e2] at hk
        rw [if_neg (by omega)] at ht
        obtain ⟨b4, hb4⟩ := ht
        rw [hb4]
        simp only [ok_bind]
        cases b4 with
        | false => exact goes_on_ok _
        | true =>
          simp only [if_true]
          exact hb ⟨hd, ⟨parent, hcur, hderef⟩, hv, hvis, by rw [hwall, hw],
            Or.inr ⟨by rw [hlock, hl], hb4⟩⟩

theorem loop_goes_on {recurse : Grid → Solution → Path → Cell → Dir → Search}
    {m : List (List Char)} {G : Grid} (hA : Accepted m G) (hrec : RecursionSpec G recurse)
    {p : Path} {parent : Cell} (hh : HistoryInv G p)
    (hk : kNumLetters ≤ p._key_hit_counters.length)
    (hcur : p.current = some parent) (hinc : p.complete G = false)
    (hb : ∀ sol' c d, Passes G p c d → goes_on (recurse G sol' p c d)) :
    ∀ (k : Nat) (d0 : Dir) (sol : Solution), d0 ≤ kDirMax →
      goes_on (Solution.neighbour_loop recurse G (end_neighbour G parent) k
        { _cell := parent, _dir := d0 } sol p) := by
  intro k
  induction k with
  | zero =>
    intro d0 sol _ he
    simp [Solution.neighbour_loop] at he
  | succ k ih =>
    intro d0 sol hle
    unfold Solution.neighbour_loop
    by_cases hd : d0 = kDirMax
    · have hne : NeighbourIter.ne { _cell := parent, _dir := d0 } (end_neighbour G parent) =
          false := by
        simp [NeighbourIter.ne, end_neighbour, hd]
      simp only [hne, Bool.false_eq_true, if_false]
      exact goes_on_ok _
    · have hne : NeighbourIter.ne { _cell := parent, _dir := d0 } (end_neighbour G parent) =
          true := by
        simp [NeighbourIter.ne, end_neighbour, hd]
      simp only [hne, if_true]
      have hd' : d0 < kDirMax := by
        unfold kDirMax Dir at *
        omega
      obtain ⟨child, hchild⟩ := @deref_ok G parent d0 hd'
      rw [hchild]
      simp only [ok_bind]
      · refine goes_on_bind ?_ fun r hr => ?_
        · cases hvalid : child.is_valid with
          | true =>
            simp only [if_true]
            exact examine_goes_on hA hh hk hd' ⟨parent, hcur, hchild⟩ hvalid sol
              fun hp => hb sol child d0 hp
          | false =>
            simp only [Bool.false_eq_true, if_false]
            exact goes_on_ok _
        · have hp : r.2 = p := by
            cases hvalid : child.is_valid with
            | true =>
              simp only [hvalid, if_true] at hr
              exact (examine_spec hrec hinc hd' ⟨parent, hcur, hchild⟩ hvalid hr).1
            | false =>
              simp only [hvalid, Bool.false_eq_true, if_false, pure_eq_ok,
                Except.ok.injEq] at hr
              rw [← hr]
          rw [hp]
          exact ih (d0 + 1) r.1 hd'

theorem perform_goes_on {recurse : Grid → Solution → Path → Cell → Dir → Search}
    {m : List (List Char)} {G : Grid} (hA : Accepted m G) (hrec : RecursionSpec G recurse)
    {p : Path} {parent : Cell} (hh : HistoryInv G p)
    (hk : kNumLetters ≤ p._key_hit_counters.length)
    (hcur : p.current = some parent) (sol : Solution)
    (hb : ∀ sol' c d, p.complete G = false → Passes G p c d →
      goes_on (recurse G sol' p c d)) :
    goes_on (Solution.perform_this_visit recurse G sol p parent) := by
  unfold Solution.perform_this_visit
  cases hc : p.complete G with
  | true =>
    simp only [if_true]
    split
    · exact goes_on_ok _
    · split_ifs <;> exact goes_on_ok _
  | false =>
    simp only [Bool.false_eq_true, if_false]
    exact loop_goes_on hA hrec hh hk hcur hc (fun sol' c d hp => hb sol' c d hc hp) _ _ _
      (Nat.zero_le _)

theorem recurse_goes_on {m : List (List Char)} {G : Grid} (hA : Accepted m G) :
    ∀ (n : Nat) (sol : Solution) (p : Path) (c : Cell) (d : Dir),
      HistoryInv G p → kNumLetters ≤ p._key_hit_counters.length → p.complete G = false →
      Passes G p c d → goes_on (Solution.recurse_visit_next_cell n G sol p c d) := by
  intro n
  induction n with
  | zero =>
    intro sol p c d _ _ _ _ he
    simp [Solution.recurse_visit_next_cell] at he
  | succ n ih =>
    intro sol p c d hh hk hinc hpass
    simp only [Solution.recurse_visit_next_cell]
    obtain ⟨parent, hcur, hderef⟩ := hpass.neighbour
    have hin : G.inside c :=
      deref_inside hderef hpass.valid (hh.shape.inside parent (current_mem_cells hcur))
    obtain ⟨ch, hch, _⟩ := inside_char hA hin
    have hch' : char_at G._grid c = .ok ch := by rw [hA.grid_eq]; exact hch
    have hroom : Grid.is_key_char ch = true →
        ch.toNat - 'a'.toNat < p._key_hit_counters.length := by
      intro h1
      have := is_key_char_bounds h1
      have e1 : 'a'.toNat = 97 := rfl
      have e2 : kNumLetters = 26 := rfl
      rw [e1]
      rw [e2] at hk
      omega
    rcases visit_ends (p := p) (d := d) hch' (fun _ => hpass.unvisited) hroom with
      ⟨q, hq⟩ | hfail
    · rw [hq]
      simp only [ok_bind]
      have hqh : HistoryInv G q := historyInv_visit hh hpass hq
      have hqk := room_visit hk hq
      refine goes_on_bind ?_ fun r hr => ?_
      · exact perform_goes_on hA (recurse_spec G n) hqh hqk (visit_current hq) sol
          fun sol' c' d' hinc' hp' => ih sol' q c' d' hqh hqk hinc' hp'
      · obtain ⟨hr2, _⟩ := perform_spec (recurse_spec G n) (visit_current hq)
          (show Solution.perform_this_visit _ G sol q c = .ok (r.1, r.2) from hr)
        rw [show r = (r.1, r.2) from rfl]
        simp only
        rw [hr2, unvisit_visit hq]
        exact goes_on_ok _
    · rw [hfail]
      intro h
      simp at h

/-- No access ends a run that does not check the index of `_key_hit_counters`, when the
memory after the buffer of the vector has a word for every letter, whatever the words
hold: on every matrix that the constructor of `Grid` accepts the run returns an integer
or ends in a failed assert. -/
theorem unchecked_run_goes_on (m : List (List Char)) (mem : List Int)
    (hacc : accepts m = true) (hlen : kNumLetters ≤ mem.length) :
    (∃ n, ({} : Solution).shortestPathAllKeys_mem mem m = .ok n) ∨
      ({} : Solution).shortestPathAllKeys_mem mem m = .error .assertion := by
  obtain ⟨G, hG⟩ := (accepts_iff m).mp hacc
  have hA := ctor_accepted hG
  have hstart : char_at G._grid G.get_start_cell = .ok '@' := by
    rw [hA.grid_eq]; exact hA.start_char
  have hv := visit_start (p := Path.ctor_mem G mem) hstart (by decide)
  have hh : HistoryInv G _ := historyInv_initial hA mem hv
  have hk0 : kNumLetters ≤ (Path.ctor_mem G mem)._key_hit_counters.length := by
    simp only [Path.ctor_mem, List.length_append]
    omega
  have hk := room_visit hk0 hv
  have hwithin := search_within G mem
  have hgo : goes_on (Solution.recurse_visit_next_cell (depth_budget G) G {}
      (Path.ctor_mem G mem) G.get_start_cell kDirMax) := by
    unfold depth_budget
    rw [Solution.recurse_visit_next_cell, hv]
    simp only [ok_bind]
    refine goes_on_bind ?_ fun r hr => ?_
    · exact perform_goes_on hA (recurse_spec G _) hh hk (visit_current hv) _
        fun sol' c' d' hinc' hp' => recurse_goes_on hA _ sol' _ c' d' hh hk hinc' hp'
    · obtain ⟨hr2, _⟩ := perform_spec (recurse_spec G _) (visit_current hv)
        (show Solution.perform_this_visit _ G _ _ _ = .ok (r.1, r.2) from hr)
      rw [show r = (r.1, r.2) from rfl]
      simp only
      rw [hr2, unvisit_visit hv]
      exact goes_on_ok _
  unfold Solution.shortestPathAllKeys_mem
  rw [hG]
  simp only [ok_bind]
  cases hres : Solution.recurse_visit_next_cell (depth_budget G) G {}
      (Path.ctor_mem G mem) G.get_start_cell kDirMax with
  | error e =>
    right
    cases e with
    | assertion => rfl
    | out_of_range => exact absurd hres hgo
    | depth => exact absurd hres hwithin
  | ok r =>
    left
    obtain ⟨self, q⟩ := r
    simp only [ok_bind]
    cases self._best_solution with
    | none => exact ⟨-1, rfl⟩
    | some best => exact ⟨best.num_steps - 1, rfl⟩

/-! ## Auxiliary lemmas: a run whose accesses stay inside `_key_hit_counters` -/

/-- A `visit` that stays inside `_key_hit_counters` does the same whatever memory follows
the buffer. -/
theorem visit_with_mem {G : Grid} {p q : Path} {c : Cell} {d : Dir} (mem : List Int)
    (h : p.visit G c d = .ok q) :
    (p.with_mem mem).visit G c d = .ok (q.with_mem mem) := by
  obtain ⟨ch, hc, h1, h2, h3⟩ := visit_ok h
  obtain ⟨pv, vis, cnts, acq⟩ := p
  obtain ⟨pv', vis', cnts', acq'⟩ := q
  simp only at h1 h2 h3
  subst h1
  have e1 : 'a'.toNat = 97 := rfl
  rw [e1] at h3
  unfold Path.visit
  simp only [Path.with_mem]
  have hm : (if (d != kDirMax) = true then do
        c_assert ((← marker_at vis d c) == false)
        let v ← marker_put vis d c true
        pure ({ _path_vec := pv ++ [(c, d)], _visited_directional := v,
                _key_hit_counters := cnts ++ mem, _num_keys_acquired := acq } : Path)
      else pure { _path_vec := pv ++ [(c, d)], _visited_directional := vis,
                  _key_hit_counters := cnts ++ mem, _num_keys_acquired := acq } : Res Path) =
      .ok { _path_vec := pv ++ [(c, d)], _visited_directional := vis',
            _key_hit_counters := cnts ++ mem, _num_keys_acquired := acq } := by
    by_cases hd : d = kDirMax
    · rw [if_pos hd] at h2
      subst h2
      simp [hd]
    · rw [if_neg hd] at h2
      have hd' : (d != kDirMax) = true := by simpa using hd
      simp [hd', h2.1, h2.2]
  simp only [pure_eq_ok] at hm ⊢
  rw [hm]
  simp only [ok_bind, Grid.is_key, Grid.get_key_index, Grid.get_char, hc, pure_eq_ok]
  by_cases hk : Grid.is_key_char ch = true
  · rw [if_pos hk] at h3
    obtain ⟨cnt, g1, g2, g3, g4⟩ := h3
    subst g3 g4
    obtain ⟨g5, _⟩ := List.getElem?_eq_some.mp g1
    have g6 : (cnts ++ mem)[ch.toNat - 97]? = some cnt := by
      rw [List.getElem?_append_left g5]
      exact g1
    have g7 : ch.toNat - 97 < (cnts ++ mem).length := by
      rw [List.length_append]
      omega
    have g8 : decide (cnt ≥ 0) = true := by simpa using g2
    simp only [hk, if_true, Grid.get_key_index_char, c_assert_true, ok_bind, pure_eq_ok, e1,
      vec_at, g6, vec_put, g7, g8, List.set_append_left _ _ g5]
    by_cases h0 : cnt = 0
    · subst h0
      simp
    · have : (cnt == 0) = false := by simpa using h0
      simp [this, h0]
  · have hk' : Grid.is_key_char ch = false := by simpa using hk
    rw [if_neg hk] at h3
    obtain ⟨g1, g2⟩ := h3
    subst g1 g2
    simp [hk']

/-- A `key_was_acquired_for_lock` that stays inside `_key_hit_counters` returns the same
whatever memory follows the buffer. -/
theorem key_acquired_with_mem {G : Grid} {p : Path} {c : Cell} {b : Bool} (mem : List Int)
    (h : p.key_was_acquired_for_lock G c = .ok b) :
    (p.with_mem mem).key_was_acquired_for_lock G c = .ok b := by
  unfold Path.key_was_acquired_for_lock at h ⊢
  rw [bind_ok_iff] at h
  obtain ⟨b1, hb1, h⟩ := h
  rw [bind_ok_iff] at h
  obtain ⟨u, hu, h⟩ := h
  rw [bind_ok_iff] at h
  obtain ⟨i, hi, h⟩ := h
  rw [bind_ok_iff] at h
  obtain ⟨cnt, hcnt, h⟩ := h
  rw [vec_at_ok_iff] at hcnt
  obtain ⟨hlt, _⟩ := List.getElem?_eq_some.mp hcnt
  have hcnt' : vec_at (p.with_mem mem)._key_hit_counters i = .ok cnt := by
    rw [vec_at_ok_iff]
    simp only [Path.with_mem]
    rw [List.getElem?_append_left hlt]
    exact hcnt
  simp only [hb1, hu, hi, hcnt', ok_bind]
  exact h

theorem examine_with_mem {r : Grid → Solution → Path → Cell → Dir → Search} {G : Grid}
    {mem : List Int} (hr : IgnoresMemory G mem r) {sol sol' : Solution} {p p' : Path}
    {child : Cell} {dir : Dir}
    (h : Solution.examine_child r G sol p child dir = .ok (sol', p')) :
    Solution.examine_child r G (sol.with_mem mem) (p.with_mem mem) child dir =
      .ok (sol'.with_mem mem, p'.with_mem mem) := by
  rw [examine_unfold] at h ⊢
  have hvis : (p.with_mem mem).visited child dir = p.visited child dir := rfl
  rw [hvis]
  rw [bind_ok_iff] at h
  obtain ⟨b1, h1, h⟩ := h
  rw [h1]
  simp only [ok_bind]
  cases b1 with
  | true =>
    simp only [if_true, Except.ok.injEq, Prod.mk.injEq] at h ⊢
    obtain ⟨rfl, rfl⟩ := h
    exact ⟨rfl, rfl⟩
  | false =>
    simp only [Bool.false_eq_true, if_false] at h ⊢
    rw [bind_ok_iff] at h
    obtain ⟨b2, h2, h⟩ := h
    rw [h2]
    simp only [ok_bind]
    cases b2 with
    | true =>
      simp only [if_true, Except.ok.injEq, Prod.mk.injEq] at h ⊢
      obtain ⟨rfl, rfl⟩ := h
      exact ⟨rfl, rfl⟩
    | false =>
      simp only [Bool.false_eq_true, if_false] at h ⊢
      rw [bind_ok_iff] at h
      obtain ⟨b3, h3, h⟩ := h
      rw [h3]
      simp only [ok_bind]
      cases b3 with
      | false =>
        simp only [Bool.false_eq_true, if_false] at h ⊢
        exact hr _ _ _ _ _ _ h
      | true =>
        simp only [if_true] at h ⊢
        rw [bind_ok_iff] at h
        obtain ⟨b4, h4, h⟩ := h
        rw [key_acquired_with_mem mem h4]
        simp only [ok_bind]
        cases b4 with
        | false =>
          simp only [Bool.false_eq_true, if_false, Except.ok.injEq, Prod.mk.injEq] at h ⊢
          obtain ⟨rfl, rfl⟩ := h
          exact ⟨rfl, rfl⟩
        | true =>
          simp only [if_true] at h ⊢
          exact hr _ _ _ _ _ _ h

theorem loop_with_mem {r : Grid → Solution → Path → Cell → Dir → Search} {G : Grid}
    {mem : List Int} (hr : IgnoresMemory G mem r) (end_iter : NeighbourIter) :
    ∀ (n : Nat) (iter : NeighbourIter) (sol sol' : Solution) (p p' : Path),
      Solution.neighbour_loop r G end_iter n iter sol p = .ok (sol', p') →
      Solution.neighbour_loop r G end_iter n iter (sol.with_mem mem) (p.with_mem mem) =
        .ok (sol'.with_mem mem, p'.with_mem mem) := by
  intro n
  induction n with
  | zero =>
    intro iter sol sol' p p' h
    simp [Solution.neighbour_loop] at h
  | succ n ih =>
    intro iter sol sol' p p' h
    unfold Solution.neighbour_loop at h ⊢
    by_cases hne : iter.ne end_iter = true
    · simp only [hne, if_true] at h ⊢
      rw [bind_ok_iff] at h
      obtain ⟨child, hchild, h⟩ := h
      rw [hchild]
      simp only [ok_bind]
      rw [bind_ok_iff] at h
      obtain ⟨⟨sol1, p1⟩, h1, h⟩ := h
      have h1' : (if child.is_valid = true then
            Solution.examine_child r G (sol.with_mem mem) (p.with_mem mem) child iter.get_dir
          else pure (sol.with_mem mem, p.with_mem mem) : Search) =
          .ok (sol1.with_mem mem, p1.with_mem mem) := by
        by_cases hv : child.is_valid = true
        · simp only [hv, if_true] at h1 ⊢
          exact examine_with_mem hr h1
        · simp only [hv, if_false, pure_eq_ok, Except.ok.injEq, Prod.mk.injEq] at h1 ⊢
          obtain ⟨rfl, rfl⟩ := h1
          rfl
      rw [h1']
      simp only [ok_bind]
      exact ih _ _ _ _ _ h
    · simp only [hne, if_false, pure_eq_ok, Except.ok.injEq, Prod.mk.injEq] at h ⊢
      obtain ⟨rfl, rfl⟩ := h
      rfl

theorem perform_with_mem {r : Grid → Solution → Path → Cell → Dir → Search} {G : Grid}
    {mem : List Int} (hr : IgnoresMemory G mem r) {sol sol' : Solution} {p p' : Path}
    {parent : Cell} (h : Solution.perform_this_visit r G sol p parent = .ok (sol', p')) :
    Solution.perform_this_visit r G (sol.with_mem mem) (p.with_mem mem) parent =
      .ok (sol'.with_mem mem, p'.with_mem mem) := by
  unfold Solution.perform_this_visit at h ⊢
  have hcomp : (p.with_mem mem).complete G = p.complete G := rfl
  rw [hcomp]
  by_cases hc : p.complete G = true
  · simp only [hc, if_true] at h ⊢
    obtain ⟨best⟩ := sol
    cases best with
    | none =>
      simp only [pure_eq_ok, Except.ok.injEq, Prod.mk.injEq] at h
      obtain ⟨rfl, rfl⟩ := h
      rfl
    | some b =>
      simp only [Solution.with_mem, Option.map_some'] at h ⊢
      have hlt : (p.with_mem mem).lt (b.with_mem mem) = p.lt b := rfl
      rw [hlt]
      by_cases hl : p.lt b = true
      · simp only [hl, if_true, pure_eq_ok, Except.ok.injEq, Prod.mk.injEq] at h ⊢
        obtain ⟨rfl, rfl⟩ := h
        exact ⟨rfl, rfl⟩
      · simp only [hl, if_false, pure_eq_ok, Except.ok.injEq, Prod.mk.injEq] at h ⊢
        obtain ⟨rfl, rfl⟩ := h
        rfl
  · simp only [hc, if_false] at h ⊢
    exact loop_with_mem hr _ _ _ _ _ _ _ h

/-- `recurse_visit_next_cell`, where it returns, does the same whatever memory follows the
buffer of `_key_hit_counters`. -/
theorem recurse_with_mem (G : Grid) (mem : List Int) :
    ∀ n, IgnoresMemory G mem (fun G' => Solution.recurse_visit_next_cell n G') := by
  intro n
  induction n with
  | zero =>
    intro sol p c d sol' p' h
    simp [Solution.recurse_visit_next_cell] at h
  | succ n ih =>
    intro sol p c d sol' p' h
    simp only [Solution.recurse_visit_next_cell] at h ⊢
    rw [bind_ok_iff] at h
    obtain ⟨p1, hp1, h⟩ := h
    rw [bind_ok_iff] at h
    obtain ⟨⟨sol1, p2⟩, hperf, h⟩ := h
    rw [bind_ok_iff] at h
    obtain ⟨p3, hun, h⟩ := h
    simp only [pure_eq_ok, Except.ok.injEq, Prod.mk.injEq] at h
    obtain ⟨rfl, rfl⟩ := h
    obtain ⟨rfl, _⟩ := perform_spec (recurse_spec G n) (visit_current hp1) hperf
    have hback := unvisit_visit hp1
    rw [hun] at hback
    simp only [Except.ok.injEq] at hback
    subst hback
    rw [visit_with_mem mem hp1]
    simp only [ok_bind]
    rw [perform_with_mem ih hperf]
    simp only [ok_bind]
    rw [unvisit_visit (visit_with_mem mem hp1)]
    rfl

/-- An answer of the run that checks the index of `_key_hit_counters` is the answer of
every run that does not, whatever memory follows the buffer: when all accesses stay inside
the vector, that memory is neither read nor written. -/
theorem checked_answer_unchecked (m : List (List Char)) (n : Int) (mem : List Int)
    (h : ({} : Solution).shortestPathAllKeys m = .ok n) :
    ({} : Solution).shortestPathAllKeys_mem mem m = .ok n := by
  unfold Solution.shortestPathAllKeys at h
  unfold Solution.shortestPathAllKeys_mem
  rw [bind_ok_iff] at h
  obtain ⟨G, hG, h⟩ := h
  rw [bind_ok_iff] at h
  obtain ⟨⟨sol', p'⟩, hrec, h⟩ := h
  rw [hG]
  simp only [ok_bind]
  have hsim : Solution.recurse_visit_next_cell (depth_budget G) G ({} : Solution)
      (Path.ctor_mem G mem) G.get_start_cell kDirMax =
      .ok (sol'.with_mem mem, p'.with_mem mem) :=
    recurse_with_mem G mem _ _ _ _ _ _ _ hrec
  rw [hsim]
  simp only [ok_bind]
  obtain ⟨best⟩ := sol'
  cases best with
  | none => exact h
  | some b => exact h

/-- On a matrix that the constructor of `Grid` accepts and whose letters fit, every run,
whatever memory follows the buffer of `_key_hit_counters`, returns the integer that the run
that checks the index returns. -/
theorem fitting_run_ignores_memory (m : List (List Char)) (hacc : accepts m = true)
    (hfit : letters_fit m) (mem : List Int) :
    ∃ n, ({} : Solution).shortestPathAllKeys m = .ok n ∧
      ({} : Solution).shortestPathAllKeys_mem mem m = .ok n := by
  obtain ⟨n, hn⟩ := fitting_letters_return m hacc hfit
  exact ⟨n, hn, checked_answer_unchecked m n mem hn⟩

/-- Soundness where the defect of C20 does not act: on a matrix that the constructor of
`Grid` accepts and whose letters fit, every run, whatever memory follows the buffer of
`_key_hit_counters`, returns an integer, and a returned `n ≥ 0` is the number of moves of
a legal traversal that enters every key cell. -/
theorem fitting_answer_sound (m : List (List Char)) (hacc : accepts m = true)
    (hfit : letters_fit m) (mem : List Int) :
    ∃ n, ({} : Solution).shortestPathAllKeys_mem mem m = .ok n ∧
      (0 ≤ n → ∃ start moves, legal_traversal m start moves ∧ collects_all_keys m moves ∧
        (moves.length : Int) = n) := by
  obtain ⟨n, hn⟩ := fitting_letters_return m hacc hfit
  exact ⟨n, checked_answer_unchecked m n mem hn, fun h0 => (shortest_path_sound m n hn h0).2⟩

/-! ## C2: the answer -1 -/

set_option maxRecDepth 100000 in
/-- The defect of C3 at the matrix `"bA@aBcC"`, with one cell for each letter: the answer
is -1 although nine moves collect all keys: right to `a`, left through `A` to `b`, right
again through `a` and `B` to `c`. -/
theorem minus_one_by_marker_filter :
    ({} : Solution).shortestPathAllKeys ["bA@aBcC".toList] = .ok (-1) ∧
      ∃ start moves, legal_traversal ["bA@aBcC".toList] start moves ∧
        collects_all_keys ["bA@aBcC".toList] moves := by
  refine ⟨by decide, { _row := 0, _col := 2 },
      [{ _row := 0, _col := 3 }, { _row := 0, _col := 2 }, { _row := 0, _col := 1 },
       { _row := 0, _col := 0 }, { _row := 0, _col := 1 }, { _row := 0, _col := 2 },
       { _row := 0, _col := 3 }, { _row := 0, _col := 4 }, { _row := 0, _col := 5 }],
      by decide, collects_of_cells (C := 7) (by decide) (by decide)⟩

/-- Every cell of a traversal lies within as many moves of its first cell as the
traversal has: the sum of row and column grows by at most one a move. -/
theorem legal_moves_reach (m : List (List Char)) :
    ∀ (moves seen : List Cell) (cur : Cell), legal_moves m seen cur moves →
      ∀ c ∈ moves, c._row + c._col ≤ cur._row + cur._col + (moves.length : Int) := by
  intro moves
  induction moves with
  | nil => intro _ _ _ c hc; simp at hc
  | cons x rest ih =>
    intro seen cur h c hc
    obtain ⟨horth, _, hrest⟩ := h
    have hx : x._row + x._col ≤ cur._row + cur._col + 1 := by
      unfold orthogonal_move at horth
      omega
    simp only [List.length_cons, Nat.cast_add, Nat.cast_one]
    rcases List.mem_cons.mp hc with rfl | hc
    · have : (0 : Int) ≤ (rest.length : Int) := Int.natCast_nonneg _
      omega
    · have := ih _ _ hrest c hc
      omega

/-- A non-negative answer of `shortestPathAllKeys` is the number of moves of a legal
traversal from the start cell of the grid that enters every key cell. -/
theorem answer_is_traversal {m : List (List Char)} {n : Int}
    (h : ({} : Solution).shortestPathAllKeys m = .ok n) (hn : 0 ≤ n) :
    ∃ G moves, Grid.ctor m = .ok G ∧ legal_moves m [] G._start moves ∧
      collects_all_keys m moves ∧ (moves.length : Int) = n := by
  obtain ⟨G, p1, sol', hG, hp1, hs, hres⟩ := shortest_unfold h
  have hA := ctor_accepted hG
  rcases hs.sound with hnone | ⟨q, hq, hreach, hcomp⟩
  · rw [hnone] at hres
    simp only at hres
    omega
  · rw [hq] at hres
    simp only at hres
    have hinv := pathInv_reach hreach (pathInv_initial hA hp1)
    refine ⟨G, q.cells.tail, hG, ?_, complete_collects hA hinv hcomp, ?_⟩
    · have := hinv.legal
      rwa [hA.grid_eq] at this
    · rw [hres]
      have hhead := hinv.head
      unfold Path.num_steps Path.cells
      cases hpv : q._path_vec with
      | nil => rw [hpv] at hhead; simp at hhead
      | cons x xs => simp

set_option maxRecDepth 100000 in
/-- C11: on the matrix `"@..aA"`, `"..B#."`, `"....b"` `shortestPathAllKeys` returns 6.
The search returns an integer because the letters of the matrix fit; it is at most 6
because the search follows the six moves right, right, right to `a`, right through `A`,
down, down to `b`; and it is at least 6 because the cell of `b` is six moves away from
the start. -/
theorem scenario_d_returns_six :
    ({} : Solution).shortestPathAllKeys ["@..aA".toList, "..B#.".toList, "....b".toList] =
      .ok 6 := by
  obtain ⟨n, hn⟩ := fitting_letters_return
    ["@..aA".toList, "..B#.".toList, "....b".toList] (by decide) (by decide)
  have hle := @answer_le_simple_traversal _ _ hn (by decide) { _row := 0, _col := 0 }
    [{ _row := 0, _col := 1 }, { _row := 0, _col := 2 }, { _row := 0, _col := 3 },
      { _row := 0, _col := 4 }, { _row := 1, _col := 4 }, { _row := 2, _col := 4 }]
    (by decide) (collects_of_cells (C := 5) (by decide) (by decide)) (by decide)
  obtain ⟨G, moves, hG, hlegal, hall, hlen⟩ := answer_is_traversal hn hle.1
  have hstart : ({ _row := 0, _col := 0 } : Cell) = G._start :=
    (ctor_accepted hG).start_unique (by decide)
  have hb : ({ _row := 2, _col := 4 } : Cell) ∈ moves :=
    hall { _row := 2, _col := 4 } 'b' (by decide) (by decide)
  have hge := legal_moves_reach _ _ _ _ hlegal _ hb
  rw [← hstart] at hge
  simp only at hge
  have hsix := hle.2
  simp only [List.length_cons, List.length_nil] at hsix
  have : n = 6 := by omega
  rw [hn, this]

/-! ## C12: `visit` followed by `unvisit` -/

/-- `visit` and then `unvisit` on a state of the search, for a cell inside the grid whose
marker, if the direction is a real one, is unset: the two calls return the state they
started from, unless the cell holds a key letter whose counter lies outside
`_key_hit_counters`, where `visit` ends at that access. -/
theorem visit_unvisit_round_trip {m : List (List Char)} {G : Grid}
    (hG : Grid.ctor m = .ok G) {p : Path} (hp : SearchState G p) {c : Cell}
    (hc : G.inside c) {d : Dir} (hm : d ≠ kDirMax → p.visited c d = .ok false) :
    (∃ q, p.visit G c d = .ok q ∧ q.unvisit G = .ok p) ∨
      (p.visit G c d = .error .out_of_range ∧
        ∃ ch, char_at m c = .ok ch ∧ Grid.is_key_char ch = true ∧
          num_key_cells m ≤ ch.toNat - 'a'.toNat) := by
  have hA := ctor_accepted hG
  obtain ⟨ch, hch, _⟩ := inside_char hA hc
  have hch' : char_at G._grid c = .ok ch := by rw [hA.grid_eq]; exact hch
  have hcnt : (∀ cnt, p._key_hit_counters[ch.toNat - 'a'.toNat]? = some cnt → 0 ≤ cnt) ∧
      p._key_hit_counters.length = num_key_cells m := by
    rcases searchInv_state hG hp with rfl | hinv
    · constructor
      · intro cnt h
        simp only [Path.ctor, List.getElem?_replicate] at h
        split_ifs at h
        simp only [Option.some.injEq] at h
        omega
      · simp [Path.ctor, Grid.num_keys, hA.num_keys_eq]
    · exact ⟨counters_nonneg hinv.path _, counters_length hinv⟩
  have ht := visit_total (p := p) (d := d) hch' hm hcnt.1
  split_ifs at ht with hbad
  · right
    exact ⟨ht, ch, hch, hbad.1, by rw [← hcnt.2]; exact hbad.2⟩
  · left
    obtain ⟨q, hq⟩ := ht
    exact ⟨q, hq, unvisit_visit hq⟩

set_option maxRecDepth 100000 in
/-- C12 in the code, at the matrix `"@bB"`, which the constructor of `Grid` accepts.
After the first `visit`, of the start cell, the search enters the cell of `b` in direction
`kDirDown`, whose marker is unset; `visit` there reads `_key_hit_counters[1]` in a vector
of size 1 and the run ends without a restored path. -/
theorem round_trip_out_of_range :
    accepts ["@bB".toList] = true ∧
      (do
        let G ← Grid.ctor ["@bB".toList]
        let p1 ← (Path.ctor G).visit G G.get_start_cell kDirMax
        let marker ← p1.visited { _row := 0, _col := 1 } kDirDown
        pure (marker, p1._key_hit_counters.length, G.get_key_index { _row := 0, _col := 1 },
          p1.visit G { _row := 0, _col := 1 } kDirDown >>= fun q => q.unvisit G)) =
        (.ok (false, 1, .ok 1, .error .out_of_range) :
          Res (Bool × Nat × Res Nat × Res Path)) := by
  decide

/-! ## C13: the assertions of the search -/

set_option maxRecDepth 100000 in
/-- C13 in the code, at the matrix `"@bB"`, which the constructor of `Grid` accepts.
`visit` of the cell of `b`, which the search enters from the start in direction
`kDirDown`, executes `_key_hit_counters[1]++` on a vector of size `num_keys() = 1` and
asserts `prev_count >= 0` of the word it has read, the word after the buffer of the
vector.  With the word -1 there the assert of `visit` fails and ends the run; with the
word 0 `shortestPathAllKeys` returns 1; when the index is checked the run ends at the
access. -/
theorem assert_reads_outside_vector :
    accepts ["@bB".toList] = true ∧
    (do
      let G ← Grid.ctor ["@bB".toList]
      let p1 ← (Path.ctor_mem G [-1]).visit G G.get_start_cell kDirMax
      pure (G.num_keys, G.get_key_index { _row := 0, _col := 1 },
        p1.visit G { _row := 0, _col := 1 } kDirDown)) =
      (.ok (1, .ok 1, .error .assertion) : Res (Int × Res Nat × Res Path)) ∧
    ({} : Solution).shortestPathAllKeys_mem [-1] ["@bB".toList] = .error .assertion ∧
    ({} : Solution).shortestPathAllKeys_mem [0] ["@bB".toList] = .ok 1 ∧
    ({} : Solution).shortestPathAllKeys ["@bB".toList] = .error .out_of_range :=
  ⟨by decide, by decide, by decide, by decide, by decide⟩

/-! ## C14: the key of a lock -/

/-- How the loop over the cells sets `_key_cells`: the entry of an index is left alone
while no cell holds the key of that index, and it is a cell that holds it afterwards. -/
theorem ctor_fold_keys {m : List (List Char)} (i : Nat) (cells : List Cell)
    (hin : ∀ c ∈ cells, ∃ ch, char_at m c = .ok ch) (st r : Grid × Int)
    (hg : st.1._grid = m) (hs : st.1.arrays_sized)
    (h : List.foldlM (fun s c => Grid.ctor_cell c s) st cells = .ok r) :
    ((∀ c ∈ cells, holds_key m i c = false) → r.1._key_cells[i]? = st.1._key_cells[i]?) ∧
    ((∃ c ∈ cells, holds_key m i c = true) →
      ∃ c ∈ cells, holds_key m i c = true ∧ r.1._key_cells[i]? = some c) := by
  induction cells generalizing st with
  | nil =>
    simp only [List.foldlM, pure_eq_ok, Except.ok.injEq] at h
    subst h
    simp
  | cons c cs ih =>
    obtain ⟨ch, hc⟩ := hin c (List.mem_cons_self _ _)
    rw [ctor_fold_cons hg hs hc] at h
    split_ifs at h with hok
    have ih' := ih (fun c hc => hin c (List.mem_cons_of_mem _ hc)) _
      ((ctor_step_grid ch c st).1.trans hg) (ctor_step_sized ch c st hs) h
    have hstep : (ctor_step ch c st).1._key_cells =
        if Grid.is_key_char ch = true then st.1._key_cells.set (ch.toNat - 'a'.toNat) c
        else st.1._key_cells := rfl
    have hhold := holds_key_eq hc i
    constructor
    · intro hall
      have h0 := hall c (List.mem_cons_self _ _)
      rw [ih'.1 fun c' hc' => hall c' (List.mem_cons_of_mem _ hc'), hstep]
      rw [hhold] at h0
      split_ifs with hk
      · have hne : ch.toNat - 'a'.toNat ≠ i := by
          simpa [hk] using h0
        rw [List.getElem?_set_ne hne]
      · rfl
    · rintro ⟨c', hc', hc'k⟩
      by_cases hcs : ∃ c'' ∈ cs, holds_key m i c'' = true
      · obtain ⟨c'', h1, h2, h3⟩ := ih'.2 hcs
        exact ⟨c'', List.mem_cons_of_mem _ h1, h2, h3⟩
      · have hnone : ∀ c'' ∈ cs, holds_key m i c'' = false := by
          intro c'' h1
          by_contra h2
          exact hcs ⟨c'', h1, by simpa using h2⟩
        have hself : holds_key m i c = true := by
          rcases List.mem_cons.mp hc' with rfl | h1
          · exact hc'k
          · rw [hnone c' h1] at hc'k
            exact absurd hc'k (by simp)
        refine ⟨c, List.mem_cons_self _ _, hself, ?_⟩
        rw [ih'.1 hnone, hstep]
        rw [hhold] at hself
        simp only [Bool.and_eq_true, beq_iff_eq] at hself
        rw [if_pos hself.1, hself.2]
        have b := is_key_char_bounds hself.1
        have e1 : 'a'.toNat = 97 := rfl
        have hlen : i < st.1._key_cells.length := by
          rw [hs.2]
          have : kNumLetters = 26 := by decide
          omega
        rw [List.getElem?_set_self hlen]

/-- What the constructor of `Grid` leaves in `_key_cells`: for every index, the cell
built by default while no cell of the matrix holds the key of that index, and otherwise a
cell inside the grid that holds it. -/
theorem ctor_key_cells {m : List (List Char)} {G : Grid} (h : Grid.ctor m = .ok G)
    (i : Nat) (hi : i < kNumLetters) :
    ((∀ c ∈ all_cells G._num_rows G._num_cols, holds_key m i c = false) →
      G._key_cells[i]? = some {}) ∧
    ((∃ c ∈ all_cells G._num_rows G._num_cols, holds_key m i c = true) →
      ∃ c ∈ all_cells G._num_rows G._num_cols,
        holds_key m i c = true ∧ G._key_cells[i]? = some c) := by
  rw [ctor_unfold] at h
  cases m with
  | nil => simp at h
  | cons row0 rest =>
    simp only at h
    split_ifs at h with hc
    obtain ⟨hpos, hrect⟩ := hc
    rw [bind_ok_iff] at h
    obtain ⟨r, hfold, h⟩ := h
    rw [assert_bind_ok, assert_bind_ok] at h
    obtain ⟨_, _, hG⟩ := h
    simp only [Except.ok.injEq] at hG
    subst hG
    have hrect' : rectangular (row0 :: rest) row0.length := by
      intro row hrow
      have := hrect row hrow
      omega
    have hin : ∀ c ∈ all_cells ((row0 :: rest).length : Int) (row0.length : Int),
        ∃ ch, char_at (row0 :: rest) c = .ok ch := fun c hc => char_at_in_range hrect' hc
    obtain ⟨_, h2, h3, _⟩ := ctor_fold_ok _ hin _ r rfl (initial_sized _ _ _) hfold
    have hk := ctor_fold_keys i _ hin _ r rfl (initial_sized _ _ _) hfold
    simp only at h2 h3 hk
    rw [h2, h3]
    refine ⟨fun hall => ?_, hk.2⟩
    rw [hk.1 hall, List.getElem?_replicate, if_pos hi]

set_option maxRecDepth 100000 in
/-- C14, as stated, fails.  The constructor of `Grid` accepts `"@aB"`; the cell `(0, 2)`
holds the lock letter `B`, the matrix holds no `b`, and `find_key_for_lock` returns the
cell `(-1, -1)`, which is not valid. -/
theorem lock_without_key_cell :
    accepts ["@aB".toList] = true ∧
      char_at ["@aB".toList] { _row := 0, _col := 2 } = .ok 'B' ∧
      (Grid.ctor ["@aB".toList] >>= fun G => G.find_key_for_lock { _row := 0, _col := 2 }) =
        .ok { _row := -1, _col := -1 } ∧
      Cell.is_valid { _row := -1, _col := -1 } = false := by
  decide

/-- C14, amended: on a matrix that the constructor of `Grid` accepts, for every cell that
holds a lock letter, `find_key_for_lock` returns a cell; when the matching lowercase
letter occurs in the matrix, the cell returned lies inside the grid and holds that
letter; when it does not, the cell returned is `(-1, -1)`. -/
theorem find_key_for_lock_spec (m : List (List Char)) (hacc : accepts m = true) :
    ∃ G, Grid.ctor m = .ok G ∧
      ∀ c X, char_at m c = .ok X → Grid.is_lock_char X = true →
        ∃ k, G.find_key_for_lock c = .ok k ∧
          if X.toLower ∈ m.flatten then
            char_at m k = .ok X.toLower ∧ G.inside k ∧ k.is_valid = true
          else k = { _row := -1, _col := -1 } := by
  obtain ⟨G, hG⟩ := (accepts_iff m).mp hacc
  have hA := ctor_accepted hG
  refine ⟨G, hG, ?_⟩
  intro c X hc hl
  have hc' : char_at G._grid c = .ok X := by rw [hA.grid_eq]; exact hc
  have b := is_lock_char_bounds hl
  have e1 : 'A'.toNat = 65 := rfl
  have hi : X.toNat - 'A'.toNat < kNumLetters := by
    have : kNumLetters = 26 := by decide
    omega
  have hfind : ∀ k, G._key_cells[X.toNat - 'A'.toNat]? = some k →
      G.find_key_for_lock c = .ok k := by
    intro k hk
    rw [e1] at hk
    simp [Grid.find_key_for_lock, Grid.is_lock, Grid.get_char, hc', hl,
      Grid.get_lock_index_char, vec_at, hk]
  obtain ⟨l1, l2⟩ := lower_index hl
  have hkc := ctor_key_cells hG _ hi
  split_ifs with hmem
  · obtain ⟨c0, _, hc0⟩ := exists_cell_of_mem m hA.rect hmem
    have hex : ∃ c' ∈ all_cells G._num_rows G._num_cols,
        holds_key m (X.toNat - 'A'.toNat) c' = true :=
      ⟨c0, hA.mem_cells hc0, by rw [holds_key_eq hc0, l1, l2]; simp⟩
    obtain ⟨k, hk1, hk2, hk3⟩ := hkc.2 hex
    refine ⟨k, hfind k hk3, ?_, mem_all_cells.mp hk1, ?_⟩
    · unfold holds_key holds at hk2
      cases hkch : char_at m k with
      | error e => simp [hkch] at hk2
      | ok ch =>
        simp only [hkch, Bool.and_eq_true, beq_iff_eq] at hk2
        rw [lower_of_index hl hk2.1 hk2.2]
    · have := (mem_all_cells.mp hk1).1
      simpa [Cell.is_valid] using this
  · have hnone : ∀ c' ∈ all_cells G._num_rows G._num_cols,
        holds_key m (X.toNat - 'A'.toNat) c' = false := by
      intro c' _
      by_contra hh
      have hh' : holds_key m (X.toNat - 'A'.toNat) c' = true := by simpa using hh
      unfold holds_key holds at hh'
      cases hkch : char_at m c' with
      | error e => simp [hkch] at hh'
      | ok ch =>
        simp only [hkch, Bool.and_eq_true, beq_iff_eq] at hh'
        have := lower_of_index hl hh'.1 hh'.2
        subst this
        exact hmem (mem_of_char_at hkch)
    exact ⟨_, hfind _ (hkc.1 hnone), rfl⟩

set_option maxRecDepth 100000 in
/-- Witness of `find_key_for_lock_spec`: the matrix `"@aB"`. -/
theorem find_key_for_lock_spec_witness :
    ∃ G, Grid.ctor ["@aB".toList] = .ok G ∧
      ∀ c X, char_at ["@aB".toList] c = .ok X → Grid.is_lock_char X = true →
        ∃ k, G.find_key_for_lock c = .ok k ∧
          if X.toLower ∈ ["@aB".toList].flatten then
            char_at ["@aB".toList] k = .ok X.toLower ∧ G.inside k ∧ k.is_valid = true
          else k = { _row := -1, _col := -1 } :=
  find_key_for_lock_spec ["@aB".toList] (by decide)

/-! ## C15: the best solution only gets shorter -/

/-- What `perform_this_visit` does at a complete path: it returns at once, and it replaces
the best solution by the path exactly when there is none or the path has strictly fewer
steps. -/
theorem perform_complete (recurse : Grid → Solution → Path → Cell → Dir → Search)
    (G : Grid) (sol : Solution) (p : Path) (parent : Cell) (hc : p.complete G = true) :
    ∃ sol', Solution.perform_this_visit recurse G sol p parent = .ok (sol', p) ∧
      (sol' = sol ∨ (sol'._best_solution = some p ∧
        (sol._best_solution = none ∨
          ∃ b, sol._best_solution = some b ∧ p.num_steps < b.num_steps))) ∧
      (∀ b, sol._best_solution = some b → b.num_steps ≤ p.num_steps → sol' = sol) := by
  unfold Solution.perform_this_visit
  simp only [hc, if_true]
  cases hb : sol._best_solution with
  | none =>
    refine ⟨_, rfl, Or.inr ⟨rfl, Or.inl rfl⟩, ?_⟩
    intro b hb'
    simp at hb'
  | some best =>
    simp only
    cases hlt : p.lt best with
    | true =>
      have hlt' : p.num_steps < best.num_steps := by simpa [Path.lt] using hlt
      refine ⟨_, rfl, Or.inr ⟨rfl, Or.inr ⟨best, rfl, hlt'⟩⟩, ?_⟩
      intro b hb' hle
      simp only [Option.some.injEq] at hb'
      subst hb'
      omega
    | false =>
      refine ⟨sol, ?_, Or.inl rfl, fun _ _ _ => rfl⟩
      simp

theorem records_examine {recurse : Grid → Solution → Path → Cell → Dir → Search} {G : Grid}
    (hrec : ∀ sol p c d sol' p', recurse G sol p c d = .ok (sol', p') → Records sol sol')
    {sol sol' : Solution} {p p' : Path} {child : Cell} {dir : Dir}
    (h : Solution.examine_child recurse G sol p child dir = .ok (sol', p')) :
    Records sol sol' := by
  have hsame : (Except.ok (sol, p) : Search) = .ok (sol', p') → Records sol sol' := by
    intro he
    simp only [Except.ok.injEq, Prod.mk.injEq] at he
    rw [he.1]
    exact Relation.ReflTransGen.refl
  rw [examine_unfold, bind_ok_iff] at h
  obtain ⟨b1, _, h⟩ := h
  split_ifs at h
  · exact hsame h
  rw [bind_ok_iff] at h
  obtain ⟨b2, _, h⟩ := h
  split_ifs at h
  · exact hsame h
  rw [bind_ok_iff] at h
  obtain ⟨b3, _, h⟩ := h
  split_ifs at h
  · rw [bind_ok_iff] at h
    obtain ⟨b4, _, h⟩ := h
    split_ifs at h
    · exact hrec _ _ _ _ _ _ h
    · exact hsame h
  · exact hrec _ _ _ _ _ _ h

theorem records_loop {recurse : Grid → Solution → Path → Cell → Dir → Search} {G : Grid}
    (hrec : ∀ sol p c d sol' p', recurse G sol p c d = .ok (sol', p') → Records sol sol')
    (end_iter : NeighbourIter) :
    ∀ (n : Nat) (iter : NeighbourIter) (sol sol' : Solution) (p p' : Path),
      Solution.neighbour_loop recurse G end_iter n iter sol p = .ok (sol', p') →
      Records sol sol' := by
  intro n
  induction n with
  | zero =>
    intro iter sol sol' p p' h
    simp [Solution.neighbour_loop] at h
  | succ n ih =>
    intro iter sol sol' p p' h
    unfold Solution.neighbour_loop at h
    split_ifs at h with hne
    · rw [bind_ok_iff] at h
      obtain ⟨child, _, h⟩ := h
      rw [bind_ok_iff] at h
      obtain ⟨⟨sol1, p1⟩, h1, h⟩ := h
      have h2 := ih _ _ _ _ _ h
      split_ifs at h1
      · exact Relation.ReflTransGen.trans (records_examine hrec h1) h2
      · simp only [pure_eq_ok, Except.ok.injEq, Prod.mk.injEq] at h1
        rw [h1.1]
        exact h2
    · simp only [pure_eq_ok, Except.ok.injEq, Prod.mk.injEq] at h
      rw [h.1]
      exact Relation.ReflTransGen.refl

theorem records_perform {recurse : Grid → Solution → Path → Cell → Dir → Search} {G : Grid}
    (hrec : ∀ sol p c d sol' p', recurse G sol p c d = .ok (sol', p') → Records sol sol')
    {sol sol' : Solution} {p p' : Path} {parent : Cell}
    (h : Solution.perform_this_visit recurse G sol p parent = .ok (sol', p')) :
    Records sol sol' := by
  cases hc : p.complete G with
  | true =>
    obtain ⟨sol1, h1, h2, _⟩ := perform_complete recurse G sol p parent hc
    rw [h1] at h
    simp only [Except.ok.injEq, Prod.mk.injEq] at h
    rw [← h.1]
    rcases h2 with h2 | ⟨h2, h3⟩
    · rw [h2]
      exact Relation.ReflTransGen.refl
    · exact Relation.ReflTransGen.single ⟨p, h2, h3⟩
  | false =>
    unfold Solution.perform_this_visit at h
    simp only [hc, Bool.false_eq_true, if_false] at h
    exact records_loop hrec _ _ _ _ _ _ _ h

/-- A run of `recurse_visit_next_cell` changes the best solution by replacements only. -/
theorem records_recurse (G : Grid) :
    ∀ (n : Nat) (sol : Solution) (p : Path) (c : Cell) (d : Dir) (sol' : Solution)
      (p' : Path), Solution.recurse_visit_next_cell n G sol p c d = .ok (sol', p') →
      Records sol sol' := by
  intro n
  induction n with
  | zero =>
    intro sol p c d sol' p' h
    simp [Solution.recurse_visit_next_cell] at h
  | succ n ih =>
    intro sol p c d sol' p' h
    simp only [Solution.recurse_visit_next_cell] at h
    rw [bind_ok_iff] at h
    obtain ⟨p1, _, h⟩ := h
    rw [bind_ok_iff] at h
    obtain ⟨⟨sol1, p2⟩, hperf, h⟩ := h
    rw [bind_ok_iff] at h
    obtain ⟨p3, _, h⟩ := h
    simp only [pure_eq_ok, Except.ok.injEq, Prod.mk.injEq] at h
    rw [← h.1]
    exact records_perform (fun sol p c d sol' p' hr => ih sol p c d sol' p' hr) hperf

/-- At the end of a sequence of replacements the best solution is the one at its start,
or a path with strictly fewer steps. -/
theorem records_strict {sol sol' : Solution} (h : Records sol sol') :
    sol' = sol ∨ ∃ q, sol'._best_solution = some q ∧
      ∀ b, sol._best_solution = some b → q.num_steps < b.num_steps := by
  induction h with
  | refl => exact Or.inl rfl
  | tail _ hstep ih =>
    rename_i mid last
    obtain ⟨q, hq, hprev⟩ := hstep
    right
    refine ⟨q, hq, ?_⟩
    intro b hb
    rcases ih with rfl | ⟨q', hq', hlt⟩
    · rcases hprev with hnone | ⟨b', hb', hlt'⟩
      · rw [hb] at hnone
        simp at hnone
      · rw [hb] at hb'
        simp only [Option.some.injEq] at hb'
        subst hb'
        exact hlt'
    · rcases hprev with hnone | ⟨b', hb', hlt'⟩
      · rw [hq'] at hnone
        simp at hnone
      · rw [hq'] at hb'
        simp only [Option.some.injEq] at hb'
        subst hb'
        exact lt_trans hlt' (hlt b hb)

/-- C15: `perform_this_visit` replaces `_best_solution` only at a complete path, by that
path, and only when there is no best solution yet or the path has strictly fewer steps
than the one it replaces; a path with as many steps or more leaves the `Solution` as it
is.  Hence every run of `recurse_visit_next_cell` changes the best solution by a sequence
of such replacements, and ends with the best solution it started with or with a strictly
shorter one. -/
theorem best_solution_strictly_decreases :
    (∀ (recurse : Grid → Solution → Path → Cell → Dir → Search) (G : Grid) (sol : Solution)
      (p : Path) (parent : Cell), p.complete G = true →
      ∃ sol', Solution.perform_this_visit recurse G sol p parent = .ok (sol', p) ∧
        (sol' = sol ∨ (sol'._best_solution = some p ∧
          (sol._best_solution = none ∨
            ∃ b, sol._best_solution = some b ∧ p.num_steps < b.num_steps))) ∧
        (∀ b, sol._best_solution = some b → b.num_steps ≤ p.num_steps → sol' = sol)) ∧
    (∀ (n : Nat) (G : Grid) (sol : Solution) (p : Path) (c : Cell) (d : Dir)
      (sol' : Solution) (p' : Path),
      Solution.recurse_visit_next_cell n G sol p c d = .ok (sol', p') →
      Records sol sol' ∧
        (sol' = sol ∨ ∃ q, sol'._best_solution = some q ∧
          ∀ b, sol._best_solution = some b → q.num_steps < b.num_steps)) :=
  ⟨perform_complete, fun n G sol p c d sol' p' h =>
    ⟨records_recurse G n sol p c d sol' p' h,
      records_strict (records_recurse G n sol p c d sol' p' h)⟩⟩

/-- Witness of `best_solution_strictly_decreases`: on the matrix `"@"`, which holds no
key, the path built by the constructor of `Path` is complete; met with a best solution of
as many steps, `perform_this_visit` leaves the `Solution` as it is. -/
theorem best_solution_strictly_decreases_witness :
    ∃ sol', Solution.perform_this_visit (Solution.recurse_visit_next_cell 0)
        { _grid := ["@".toList], _num_rows := 1, _num_cols := 1 }
        { _best_solution := some (Path.ctor { _grid := ["@".toList] }) }
        (Path.ctor { _grid := ["@".toList], _num_rows := 1, _num_cols := 1 })
        { _row := 0, _col := 0 } =
        .ok (sol', Path.ctor { _grid := ["@".toList], _num_rows := 1, _num_cols := 1 }) ∧
      sol' = { _best_solution := some (Path.ctor { _grid := ["@".toList] }) } := by
  obtain ⟨sol', h1, _, h3⟩ := best_solution_strictly_decreases.1
    (Solution.recurse_visit_next_cell 0)
    { _grid := ["@".toList], _num_rows := 1, _num_cols := 1 }
    { _best_solution := some (Path.ctor { _grid := ["@".toList] }) }
    (Path.ctor { _grid := ["@".toList], _num_rows := 1, _num_cols := 1 })
    { _row := 0, _col := 0 } (by decide)
  exact ⟨sol', h1, h3 _ rfl (by decide)⟩

/-! ## C16: the depth of the search -/

/-- A cell holds the key of the index of a key letter exactly when it holds the letter. -/
theorem holds_key_letter (m : List (List Char)) {k : Char}
    (hk : Grid.is_key_char k = true) (c : Cell) :
    holds_key m (k.toNat - 'a'.toNat) c = decide (char_at m c = .ok k) := by
  unfold holds_key holds
  cases hc : char_at m c with
  | error e => simp
  | ok ch =>
    simp only [Except.ok.injEq]
    by_cases h : ch = k
    · subst h
      simp [hk]
    · have hne : decide (ch = k) = false := by simpa using h
      rw [hne]
      by_cases hch : Grid.is_key_char ch = true
      · have b1 := is_key_char_bounds hk
        have b2 := is_key_char_bounds hch
        have e : 'a'.toNat = 97 := rfl
        have : ch.toNat - 97 ≠ k.toNat - 97 := by
          intro heq
          exact h (char_of_toNat_eq (by omega))
        simp [hch, this]
      · have : Grid.is_key_char ch = false := by simpa using hch
        simp [this]

theorem keys_on_path_mem {m : List (List Char)} {p : Path} {k : Char} :
    k ∈ p.keys_on_path m ↔
      Grid.is_key_char k = true ∧ ∃ c ∈ p.cells, char_at m c = .ok k := by
  unfold Path.keys_on_path
  rw [List.mem_dedup, List.mem_filter, List.mem_filterMap]
  constructor
  · rintro ⟨⟨c, hc, hch⟩, hk⟩
    refine ⟨hk, c, hc, ?_⟩
    cases h : char_at m c with
    | error e => simp [h, Except.toOption] at hch
    | ok ch =>
      simp only [h, Except.toOption, Option.some.injEq] at hch
      rw [hch]
  · rintro ⟨hk, c, hc, hch⟩
    exact ⟨⟨c, hc, by simp [hch, Except.toOption]⟩, hk⟩

/-- Entering a cell adds its letter to the key letters of the move history when it is a
key letter that no cell entered before holds. -/
theorem keys_on_path_snoc {m : List (List Char)} {p q : Path} {c : Cell} {ch : Char}
    (hcells : q.cells = p.cells ++ [c]) (hc : char_at m c = .ok ch) :
    (q.keys_on_path m).length = (p.keys_on_path m).length +
      (if Grid.is_key_char ch = true ∧ ch ∉ p.keys_on_path m then 1 else 0) := by
  have hsingle : List.filterMap (fun c => (char_at m c).toOption) [c] = [ch] := by
    simp [List.filterMap_cons, hc, Except.toOption]
  unfold Path.keys_on_path
  rw [hcells, List.filterMap_append, List.filter_append, hsingle]
  rw [← List.card_toFinset, ← List.card_toFinset, List.toFinset_append]
  by_cases hk : Grid.is_key_char ch = true
  · have hf : List.filter Grid.is_key_char [ch] = [ch] := by simp [hk]
    rw [hf]
    have hins : ∀ S : Finset Char, S ∪ [ch].toFinset = insert ch S := by
      intro S
      ext x
      simp [or_comm]
    rw [hins]
    by_cases hin : ch ∈ (List.filter Grid.is_key_char
        (List.filterMap (fun c => (char_at m c).toOption) p.cells)).dedup
    · rw [if_neg (fun h => h.2 hin), Finset.insert_eq_of_mem (by simpa using hin)]
      rfl
    · rw [if_pos ⟨hk, hin⟩, Finset.card_insert_of_not_mem (by simpa using hin)]
  · have hf : List.filter Grid.is_key_char [ch] = [] := by simp [hk]
    rw [hf, if_neg (fun h => hk h.1)]
    simp

/-- At a path of the search the number of acquired keys is the number of key letters held
by the cells of the move history. -/
theorem acquired_eq_keys {m : List (List Char)} {G : Grid} {p : Path}
    (hp : SearchInv m G p) (hacq : p._num_keys_acquired = ((p.keys_on_path m).length : Int))
    {q : Path} (hr : Reach G p q) :
    q._num_keys_acquired = ((q.keys_on_path m).length : Int) := by
  induction hr with
  | refl => exact hacq
  | tail hr' hstep ih =>
    rename_i mid last
    obtain ⟨c, d, hd⟩ := hstep
    have hmid := searchInv_reach hr' hp
    obtain ⟨ch, hc, h1, _, h3⟩ := visit_ok hd.visit
    have hgrid := hmid.accepted.grid_eq
    rw [hgrid] at hc
    have hcells : last.cells = mid.cells ++ [c] := by simp [Path.cells, h1]
    rw [keys_on_path_snoc hcells hc]
    split_ifs at h3 with hk
    · obtain ⟨cnt, g1, _, _, g4⟩ := h3
      rw [g4, ih]
      have hcnt := hmid.path.counters _ _ g1
      rw [hgrid] at hcnt
      have hiff : cnt = 0 ↔ ch ∉ mid.keys_on_path m := by
        rw [hcnt, keys_on_path_mem]
        simp only [Nat.cast_eq_zero, List.countP_eq_zero, hk, true_and, not_exists, not_and]
        constructor
        · intro h c' hc' hch'
          have := h c' hc'
          rw [holds_key_letter m hk] at this
          simp [hch'] at this
        · intro h c' hc'
          rw [holds_key_letter m hk]
          simpa using h c' hc'
      by_cases h0 : cnt = 0
      · rw [if_pos h0, if_pos ⟨hk, hiff.mp h0⟩]
        push_cast
        rfl
      · rw [if_neg h0, if_neg (fun h => h0 (hiff.mpr h.2))]
        simp
    · rw [h3.2, ih, if_neg (fun h => hk h.1)]
      simp

/-- What the proofs of C18 use of a state of the search: the size of
`_key_hit_counters`, what its entries count, what `_num_keys_acquired` counts, and that
the keys of the cells entered have their counters. -/
theorem state_bookkeeping {m : List (List Char)} {G : Grid} (hG : Grid.ctor m = .ok G)
    {p : Path} (hp : SearchState G p) :
    p._key_hit_counters.length = num_key_cells m ∧
    (∀ i cnt, p._key_hit_counters[i]? = some cnt →
      cnt = (p.cells.countP (holds_key m i) : Int)) ∧
    p._num_keys_acquired = (p._key_hit_counters.countP (fun cnt => decide (0 < cnt)) : Int) ∧
    (∀ c ∈ p.cells, ∀ ch, char_at m c = .ok ch → Grid.is_key_char ch = true →
      ch.toNat - 'a'.toNat < p._key_hit_counters.length) ∧
    p._num_keys_acquired = ((p.keys_on_path m).length : Int) := by
  have hA := ctor_accepted hG
  have hctor : (Path.ctor G)._key_hit_counters.length = num_key_cells m ∧
      (∀ (i : Nat) (cnt : Int), (Path.ctor G)._key_hit_counters[i]? = some cnt → cnt = 0) ∧
      (Path.ctor G)._num_keys_acquired = 0 ∧
      (Path.ctor G)._key_hit_counters.countP (fun cnt => decide (0 < cnt)) = 0 := by
    refine ⟨by simp [Path.ctor, Grid.num_keys, hA.num_keys_eq], ?_, rfl, ?_⟩
    · intro i cnt h
      simp only [Path.ctor, List.getElem?_replicate] at h
      split_ifs at h
      simp only [Option.some.injEq] at h
      exact h.symm
    · simp [Path.ctor, List.countP_replicate]
  rcases hp with rfl | ⟨p1, h1, hr⟩
  · obtain ⟨c1, c2, c3, c4⟩ := hctor
    refine ⟨c1, ?_, by rw [c3, c4]; rfl, ?_, ?_⟩
    · intro i cnt h
      rw [c2 i cnt h]
      simp [Path.cells, Path.ctor]
    · intro c hc
      simp [Path.cells, Path.ctor] at hc
    · rw [c3]
      simp [Path.keys_on_path, Path.cells, Path.ctor]
  · have hinv1 := searchInv_initial hA h1
    have hinv := searchInv_reach hr hinv1
    have hgrid := hA.grid_eq
    have hstart : char_at G._grid G.get_start_cell = .ok '@' := by
      rw [hgrid]; exact hA.start_char
    have hbase : p1._num_keys_acquired = ((p1.keys_on_path m).length : Int) := by
      rw [visit_start hstart (by decide)] at h1
      simp only [Except.ok.injEq] at h1
      subst h1
      have hs : char_at m G.get_start_cell = .ok '@' := hA.start_char
      have e : Grid.is_key_char '@' = false := by decide
      simp [Path.keys_on_path, Path.cells, Path.ctor, hs, Except.toOption, e]
    refine ⟨counters_length hinv, ?_, hinv.path.acquired, ?_,
      acquired_eq_keys hinv1 hbase hr⟩
    · intro i cnt h
      have := hinv.path.counters i cnt h
      rwa [hgrid] at this
    · intro c hc ch hch hk
      exact hinv.mark.keys_in_range c hc ch (by rw [hgrid]; exact hch) hk

/-- The key bookkeeping in a run that checks the index of `_key_hit_counters`, up to the
access at which it ends if it does not return.  On a matrix that the constructor of `Grid`
accepts, at every state that `path` takes during such a run: the counter of a key letter
is the number of entries of the move history on cells that hold the letter (a key letter
without a counter is held by no cell entered);
`_num_keys_acquired` is the number of counters greater than 0;
`key_was_acquired_for_lock` returns true for a lock cell exactly when a cell holding the
matching lowercase letter is in the move history; and `complete` returns true exactly
when the number of distinct key letters on the move history is `num_keys`. -/
theorem checked_run_bookkeeping (m : List (List Char)) (hacc : accepts m = true) :
    ∃ G, Grid.ctor m = .ok G ∧ ∀ p ∈ (Solution.shortestPathAllKeys_states [] {} m).states,
      (∀ k, Grid.is_key_char k = true →
        (∃ cnt, p._key_hit_counters[k.toNat - 'a'.toNat]? = some cnt ∧
          cnt = (p.cells.countP (fun c => decide (char_at m c = .ok k)) : Int)) ∨
        (p._key_hit_counters.length ≤ k.toNat - 'a'.toNat ∧
          p.cells.countP (fun c => decide (char_at m c = .ok k)) = 0)) ∧
      p._num_keys_acquired =
        (p._key_hit_counters.countP (fun cnt => decide (0 < cnt)) : Int) ∧
      (∀ L X, char_at m L = .ok X → Grid.is_lock_char X = true →
        (p.key_was_acquired_for_lock G L = .ok true ↔
          ∃ c ∈ p.cells, char_at m c = .ok X.toLower)) ∧
      (p.complete G = true ↔ ((p.keys_on_path m).length : Int) = G.num_keys) := by
  obtain ⟨G, hG⟩ := (accepts_iff m).mp hacc
  have hgrid := (ctor_accepted hG).grid_eq
  refine ⟨G, hG, ?_⟩
  intro p hmem
  have hp := states_search_state hG {} p hmem
  obtain ⟨f1, f2, f3, f4, f5⟩ := state_bookkeeping hG hp
  have hletter : ∀ k, Grid.is_key_char k = true →
      p.cells.countP (holds_key m (k.toNat - 'a'.toNat)) =
        p.cells.countP (fun c => decide (char_at m c = .ok k)) := by
    intro k hk
    congr 1
    funext c
    exact holds_key_letter m hk c
  have hcount : ∀ k, Grid.is_key_char k = true →
      (∃ cnt, p._key_hit_counters[k.toNat - 'a'.toNat]? = some cnt ∧
        cnt = (p.cells.countP (fun c => decide (char_at m c = .ok k)) : Int)) ∨
      (p._key_hit_counters.length ≤ k.toNat - 'a'.toNat ∧
        p.cells.countP (fun c => decide (char_at m c = .ok k)) = 0) := by
    intro k hk
    by_cases hlt : k.toNat - 'a'.toNat < p._key_hit_counters.length
    · left
      refine ⟨_, List.getElem?_eq_getElem hlt, ?_⟩
      rw [f2 _ _ (List.getElem?_eq_getElem hlt), hletter k hk]
    · right
      refine ⟨by omega, ?_⟩
      rw [List.countP_eq_zero]
      intro c hc
      simp only [decide_eq_true_eq]
      intro hch
      exact hlt (f4 c hc k hch hk)
  refine ⟨hcount, f3, ?_, ?_⟩
  · intro L X hL hl
    have hL' : char_at G._grid L = .ok X := by rw [hgrid]; exact hL
    obtain ⟨l1, l2⟩ := lower_index hl
    have hunf : ∀ b, p.key_was_acquired_for_lock G L = .ok b ↔
        ∃ cnt, p._key_hit_counters[X.toLower.toNat - 'a'.toNat]? = some cnt ∧
          decide (cnt > 0) = b := by
      intro b
      rw [l2]
      unfold Path.key_was_acquired_for_lock
      simp only [Grid.is_lock, Grid.get_lock_index, Grid.get_char, hL', ok_bind, pure_eq_ok,
        hl, c_assert_true, Grid.get_lock_index_char, bind_ok_iff, vec_at_ok_iff,
        Except.ok.injEq]
    rw [hunf]
    constructor
    · rintro ⟨cnt, hcnt, hpos⟩
      rcases hcount _ l1 with ⟨cnt', h1, h2⟩ | ⟨h1, _⟩
      · rw [hcnt] at h1
        simp only [Option.some.injEq] at h1
        subst h1
        rw [h2] at hpos
        simp only [gt_iff_lt, Nat.cast_pos, decide_eq_true_eq] at hpos
        obtain ⟨c, hc, hch⟩ := List.countP_pos_iff.mp hpos
        exact ⟨c, hc, by simpa using hch⟩
      · have := (List.getElem?_eq_some.mp hcnt).1
        omega
    · rintro ⟨c, hc, hch⟩
      have hlt := f4 c hc _ hch l1
      refine ⟨_, List.getElem?_eq_getElem hlt, ?_⟩
      rw [f2 _ _ (List.getElem?_eq_getElem hlt), hletter _ l1]
      simp only [gt_iff_lt, Nat.cast_pos, decide_eq_true_eq]
      exact List.countP_pos_iff.mpr ⟨c, hc, by simpa using hch⟩
  · unfold Path.complete
    rw [f5]
    simp

set_option maxRecDepth 100000 in
/-- C18 in the code, at the matrix `"@bB"`, which the constructor of `Grid` accepts, in a
run where the word after the buffer of `_key_hit_counters` holds 0.  The run returns 1.
It goes through the state whose move history is the start cell and the cell of `b`: there
`_num_keys_acquired` is 1, while `_key_hit_counters`, of size `num_keys() = 1`, holds the
one counter 0.  No key letter has a counter greater than 0, so `_num_keys_acquired` is
not the number of such letters, and the entry on the cell of `b` is counted in the word
after the buffer. -/
theorem acquired_key_without_counter :
    accepts ["@bB".toList] = true ∧
    (Grid.ctor ["@bB".toList]).map Grid.num_keys = .ok 1 ∧
    (Solution.shortestPathAllKeys_states [0] {} ["@bB".toList]).result = .ok 1 ∧
    ∃ q ∈ (Solution.shortestPathAllKeys_states [0] {} ["@bB".toList]).states,
      q.cells = [{ _row := 0, _col := 0 }, { _row := 0, _col := 1 }] ∧
      q._num_keys_acquired = 1 ∧
      q._key_hit_counters.take 1 = [0] ∧
      q._key_hit_counters.drop 1 = [1] ∧
      q._num_keys_acquired ≠
        ((q._key_hit_counters.take 1).countP (fun cnt => decide (0 < cnt)) : Int) := by
  refine ⟨by decide, by decide, by decide, ?_⟩
  decide

/-! ## C19: the neighbours of a cell -/

/-- The neighbours of a cell inside the grid, direction by direction. -/
theorem grid_neighbours_eq (R C r c : Int) (h1 : 0 ≤ r) (h2 : r < R) (h3 : 0 ≤ c)
    (h4 : c < C) :
    grid_neighbours R C { _row := r, _col := c } =
      (if r - 1 < 0 then [] else [(({ _row := r - 1, _col := c } : Cell), kDirLeft)]) ++
      ((if r + 1 ≥ R then [] else [(({ _row := r + 1, _col := c } : Cell), kDirRight)]) ++
      ((if c - 1 < 0 then [] else [(({ _row := r, _col := c - 1 } : Cell), kDirUp)]) ++
      (if c + 1 ≥ C then [] else [(({ _row := r, _col := c + 1 } : Cell), kDirDown)]))) := by
  have hb0 : decide (0 ≤ r - 1 ∧ r - 1 < R ∧ 0 ≤ c ∧ c < C) = decide (¬ (r - 1 < 0)) := by
    apply decide_eq_decide.mpr
    constructor <;> intro <;> omega
  have hb1 : decide (0 ≤ r + 1 ∧ r + 1 < R ∧ 0 ≤ c ∧ c < C) = decide (¬ (r + 1 ≥ R)) := by
    apply decide_eq_decide.mpr
    constructor <;> intro <;> omega
  have hb2 : decide (0 ≤ r ∧ r < R ∧ 0 ≤ c - 1 ∧ c - 1 < C) = decide (¬ (c - 1 < 0)) := by
    apply decide_eq_decide.mpr
    constructor <;> intro <;> omega
  have hb3 : decide (0 ≤ r ∧ r < R ∧ 0 ≤ c + 1 ∧ c + 1 < C) = decide (¬ (c + 1 ≥ C)) := by
    apply decide_eq_decide.mpr
    constructor <;> intro <;> omega
  unfold grid_neighbours
  simp only [List.filter_cons, List.filter_nil, hb0, hb1, hb2, hb3]
  by_cases c1 : r - 1 < 0 <;> by_cases c2 : r + 1 ≥ R <;>
    by_cases c3 : c - 1 < 0 <;> by_cases c4 : c + 1 ≥ C <;>
    simp only [c1, c2, c3, c4, not_true_eq_false, not_false_eq_true, decide_True,
      decide_False, if_true, if_false, Bool.false_eq_true, List.nil_append, List.cons_append,
      List.append_nil]

/-- One turn of the loop over the neighbours of a cell inside the grid: the neighbour in
the direction of the iterator is passed on to `examine_child` when it lies inside the
grid, and the loop goes on with the next direction. -/
theorem loop_turn (recurse : Grid → Solution → Path → Cell → Dir → Search)
    (G : Grid) (cell : Cell) (hin : G.inside cell) (n : Nat) (d : Dir) (hd : d < kDirMax)
    (sol : Solution) (p : Path) :
    Solution.neighbour_loop recurse G (end_neighbour G cell) (n + 1)
        { _cell := cell, _dir := d } sol p =
      ((match d with
        | 0 => if cell._row - 1 < 0 then [] else [({ cell with _row := cell._row - 1 }, d)]
        | 1 => if cell._row + 1 ≥ G.num_rows then []
          else [({ cell with _row := cell._row + 1 }, d)]
        | 2 => if cell._col - 1 < 0 then [] else [({ cell with _col := cell._col - 1 }, d)]
        | _ => if cell._col + 1 ≥ G.num_cols then []
          else [({ cell with _col := cell._col + 1 }, d)] : List (Cell × Dir)).foldlM
        (fun sp e => Solution.examine_child recurse G sp.1 sp.2 e.1 e.2) (sol, p) >>=
        fun sp => Solution.neighbour_loop recurse G (end_neighbour G cell) n
          { _cell := cell, _dir := d + 1 } sp.1 sp.2) := by
  obtain ⟨r, c⟩ := cell
  obtain ⟨h1, h2, h3, h4⟩ := hin
  simp only at h1 h2 h3 h4
  have hne : NeighbourIter.ne { _cell := { _row := r, _col := c }, _dir := d }
      (end_neighbour G { _row := r, _col := c }) = true := by
    have : d ≠ kDirMax := by
      unfold kDirMax Dir at *
      omega
    simp [NeighbourIter.ne, end_neighbour, this]
  rw [Solution.neighbour_loop]
  simp only [hne, if_true, NeighbourIter.incr, NeighbourIter.get_dir]
  unfold kDirMax Dir at hd
  interval_cases d <;> simp only [NeighbourIter.deref, pure_eq_ok] <;> split_ifs <;>
    simp [Cell.is_valid, List.foldlM] <;> rw [if_pos (by omega)]

theorem bind_ok_self {α : Type} (x : Res α) : (x >>= fun a => Except.ok a) = x := by
  cases x <;> rfl

/-- The loop over the neighbours ends when the iterator has reached `end_neighbour`. -/
theorem loop_end (recurse : Grid → Solution → Path → Cell → Dir → Search)
    (G : Grid) (cell : Cell) (n : Nat) (sol : Solution) (p : Path) :
    Solution.neighbour_loop recurse G (end_neighbour G cell) (n + 1)
        { _cell := cell, _dir := kDirMax } sol p = .ok (sol, p) := by
  simp [Solution.neighbour_loop, NeighbourIter.ne, end_neighbour]

/-- The loop over the neighbours of a cell inside the grid calls `examine_child` on the
neighbours inside the grid, in the order of the directions, and on nothing else. -/
theorem loop_passes_neighbours (recurse : Grid → Solution → Path → Cell → Dir → Search)
    (G : Grid) (cell : Cell) (hin : G.inside cell) (sol : Solution) (p : Path) :
    Solution.neighbour_loop recurse G (end_neighbour G cell) (kDirMax + 1)
        (begin_neighbour G cell) sol p =
      (grid_neighbours G.num_rows G.num_cols cell).foldlM
        (fun sp e => Solution.examine_child recurse G sp.1 sp.2 e.1 e.2) (sol, p) := by
  have t0 := loop_turn recurse G cell hin 4 0 (by decide)
  have t1 := loop_turn recurse G cell hin 3 1 (by decide)
  have t2 := loop_turn recurse G cell hin 2 2 (by decide)
  have t3 := loop_turn recurse G cell hin 1 3 (by decide)
  have t4 := loop_end recurse G cell 0
  simp only [Nat.reduceAdd] at t0 t1 t2 t3 t4
  obtain ⟨r, c⟩ := cell
  rw [show G.num_rows = G._num_rows from rfl, show G.num_cols = G._num_cols from rfl,
    grid_neighbours_eq _ _ r c hin.1 hin.2.1 hin.2.2.1 hin.2.2.2]
  simp only [kDirMax, begin_neighbour, kDirBegin, Nat.reduceAdd, kDirLeft, kDirRight, kDirUp,
    kDirDown, Grid.num_rows, Grid.num_cols] at t0 t1 t2 t3 t4 ⊢
  rw [t0]
  simp only [t1, t2, t3, t4, List.foldlM_append, bind_assoc, Prod.mk.eta, bind_ok_self]

/-- The loop over the neighbours runs its body once for every iterator from
`begin_neighbour` up to `end_neighbour`. -/
theorem loop_over_range (recurse : Grid → Solution → Path → Cell → Dir → Search)
    (G : Grid) (cell : Cell) (sol : Solution) (p : Path) :
    Solution.neighbour_loop recurse G (end_neighbour G cell) (kDirMax + 1)
        (begin_neighbour G cell) sol p =
      (neighbour_range (end_neighbour G cell) (kDirMax + 1) (begin_neighbour G cell)).foldlM
        (fun sp iter => do
          let child_cell ← iter.deref G
          if child_cell.is_valid then
            Solution.examine_child recurse G sp.1 sp.2 child_cell iter.get_dir
          else pure sp) (sol, p) := by
  simp only [kDirMax, begin_neighbour, end_neighbour, kDirBegin, Solution.neighbour_loop,
    neighbour_range, NeighbourIter.ne, NeighbourIter.incr, NeighbourIter.get_dir,
    List.foldlM, pure_eq_ok, Nat.reduceAdd, bne_iff_ne, ne_eq,
    Nat.reduceEqDiff, not_false_eq_true, if_true, bind_assoc, not_true_eq_false, if_false]

/-- C19: for every grid and every cell inside it, the iteration from `begin_neighbour` to
`end_neighbour` goes through the four direction values, each once, and the loop of
`perform_this_visit` runs its body once for each; it passes on to `examine_child` exactly
the neighbours `(r-1, c)`, `(r+1, c)`, `(r, c-1)`, `(r, c+1)` that lie inside the grid,
each once, in this order and with the direction tags 0, 1, 2, 3; a neighbour outside the
grid is not passed on. -/
theorem neighbours_enumerated (G : Grid) (cell : Cell) (hin : G.inside cell) :
    (neighbour_range (end_neighbour G cell) (kDirMax + 1) (begin_neighbour G cell)).map
        NeighbourIter.get_dir = [kDirLeft, kDirRight, kDirUp, kDirDown] ∧
    (∀ (recurse : Grid → Solution → Path → Cell → Dir → Search) (sol : Solution) (p : Path),
      p.complete G = false →
      Solution.perform_this_visit recurse G sol p cell =
        (neighbour_range (end_neighbour G cell) (kDirMax + 1)
          (begin_neighbour G cell)).foldlM
          (fun sp iter => do
            let child_cell ← iter.deref G
            if child_cell.is_valid then
              Solution.examine_child recurse G sp.1 sp.2 child_cell iter.get_dir
            else pure sp) (sol, p) ∧
      Solution.perform_this_visit recurse G sol p cell =
        (grid_neighbours G.num_rows G.num_cols cell).foldlM
          (fun sp e => Solution.examine_child recurse G sp.1 sp.2 e.1 e.2) (sol, p)) ∧
    (grid_neighbours G.num_rows G.num_cols cell).Nodup ∧
    ((grid_neighbours G.num_rows G.num_cols cell).map Prod.snd).Nodup ∧
    ∀ e ∈ grid_neighbours G.num_rows G.num_cols cell, G.inside e.1 ∧ e.2 < kDirMax := by
  refine ⟨by simp [neighbour_range, NeighbourIter.ne, NeighbourIter.incr,
      NeighbourIter.get_dir, begin_neighbour, end_neighbour, kDirMax, kDirBegin, kDirLeft,
      kDirRight, kDirUp, kDirDown], ?_, ?_, ?_, ?_⟩
  · intro recurse sol p hc
    unfold Solution.perform_this_visit
    simp only [hc, Bool.false_eq_true, if_false]
    exact ⟨loop_over_range recurse G cell sol p,
      loop_passes_neighbours recurse G cell hin sol p⟩
  · have h : ((grid_neighbours G.num_rows G.num_cols cell).map Prod.snd).Nodup := by
      unfold grid_neighbours
      refine List.Nodup.sublist (List.Sublist.map _ (List.filter_sublist _)) ?_
      simp [kDirLeft, kDirRight, kDirUp, kDirDown]
    exact List.Nodup.of_map _ h
  · unfold grid_neighbours
    refine List.Nodup.sublist (List.Sublist.map _ (List.filter_sublist _)) ?_
    simp [kDirLeft, kDirRight, kDirUp, kDirDown]
  · intro e he
    unfold grid_neighbours at he
    rw [List.mem_filter] at he
    obtain ⟨hmem, hins⟩ := he
    refine ⟨by simpa [Grid.inside, Grid.num_rows, Grid.num_cols] using hins, ?_⟩
    simp only [List.mem_cons, List.mem_singleton, List.not_mem_nil, or_false] at hmem
    rcases hmem with rfl | rfl | rfl | rfl <;>
      simp [kDirLeft, kDirRight, kDirUp, kDirDown, kDirMax]

/-- Witness of `neighbours_enumerated`: the corner cell `(0, 0)` of a grid with two rows
and three columns has the two neighbours `(1, 0)` and `(0, 1)`. -/
theorem neighbours_enumerated_witness :
    grid_neighbours 2 3 { _row := 0, _col := 0 } =
        [({ _row := 1, _col := 0 }, kDirRight), ({ _row := 0, _col := 1 }, kDirDown)] ∧
      ∀ e ∈ grid_neighbours 2 3 { _row := 0, _col := 0 },
        Grid.inside { _grid := [], _num_rows := 2, _num_cols := 3 } e.1 ∧ e.2 < kDirMax :=
  ⟨by decide, (neighbours_enumerated { _grid := [], _num_rows := 2, _num_cols := 3 }
    { _row := 0, _col := 0 } (by decide)).2.2.2.2⟩

/-! ## C20: the indices into `_key_hit_counters` -/

set_option maxRecDepth 100000 in
/-- C20 in the code.  The constructor of `Grid` accepts `"@bB"` and `"@Ba"`, each with
one key cell, so `_key_hit_counters` has size 1.  On `"@bB"` `visit` of the key cell uses
the index 1 of `b`; on `"@Ba"` `key_was_acquired_for_lock` of the lock cell uses the index
1 of `B`.  Both accesses lie outside the vector and end the run. -/
theorem key_counter_out_of_range :
    (accepts ["@bB".toList] = true ∧
      (do
        let G ← Grid.ctor ["@bB".toList]
        pure ((Path.ctor G)._key_hit_counters.length,
          G.get_key_index { _row := 0, _col := 1 })) = (.ok (1, .ok 1) : Res (Nat × Res Nat)) ∧
      ({} : Solution).shortestPathAllKeys ["@bB".toList] = .error .out_of_range) ∧
    (accepts ["@Ba".toList] = true ∧
      (do
        let G ← Grid.ctor ["@Ba".toList]
        pure ((Path.ctor G)._key_hit_counters.length,
          G.get_lock_index { _row := 0, _col := 1 })) = (.ok (1, .ok 1) : Res (Nat × Res Nat)) ∧
      ({} : Solution).shortestPathAllKeys ["@Ba".toList] = .error .out_of_range) := by
  decide

end KeyMaze
